import Mathlib

/-!
Verification of the GRAFITOS graph engine (graph data model, traversal and
MST algorithms, disjoint-set union) against its specification.

The JavaScript source is shallowly embedded: `Map` objects become
insertion-ordered association lists, JS numbers become `Rat` (weights) or
`Int` (coordinates), fallible operations return `Except String`.
-/

set_option maxHeartbeats 1000000

/-- Insertion-ordered association list modelling a JS `Map` with string keys. -/
abbrev JSMap (α : Type) : Type := List (String × α)

namespace JSMap

/-- `Map.get` (returns `undefined`, i.e. `none`, when the key is absent). -/
def get {α : Type} (m : JSMap α) (k : String) : Option α :=
  match m with
  | [] => none
  | (k', v) :: rest => if k' = k then some v else get rest k

/-- `Map.has`. -/
def hasKey {α : Type} (m : JSMap α) (k : String) : Bool :=
  match m with
  | [] => false
  | (k', _) :: rest => if k' = k then true else hasKey rest k

/-- `Map.set`: update in place if the key exists, otherwise append. -/
def set {α : Type} (m : JSMap α) (k : String) (v : α) : JSMap α :=
  match m with
  | [] => [(k, v)]
  | (k', v') :: rest => if k' = k then (k, v) :: rest else (k', v') :: set rest k v

/-- `Map.delete` (removes the entry for the key when present). -/
def del {α : Type} (m : JSMap α) (k : String) : JSMap α :=
  match m with
  | [] => []
  | (k', v') :: rest => if k' = k then rest else (k', v') :: del rest k

/-- `Array.from(map.values())`: values in insertion order. -/
def values {α : Type} (m : JSMap α) : List α := m.map Prod.snd

/-- `Array.from(map.keys())`: keys in insertion order. -/
def keys {α : Type} (m : JSMap α) : List String := m.map Prod.fst

end JSMap

/-- A node record: `{id, label, x, y, data}` (`data` is an opaque attribute bag). -/
structure Node where
  id : String
  label : String
  x : Int
  y : Int
  data : List (String × String)
  deriving DecidableEq, Repr

/-- An edge record: `{id, source, target, weight, label, directed}`. -/
structure Edge where
  id : String
  source : String
  target : String
  weight : Rat
  label : String
  directed : Bool
  deriving DecidableEq, Repr

/-- The `Graph` class state. -/
structure Graph where
  nodes : JSMap Node
  edges : JSMap Edge
  isDirected : Bool
  isWeighted : Bool
  nodeIdCounter : Nat
  edgeIdCounter : Nat
  deriving DecidableEq, Repr

namespace Graph

/-- `new Graph()`. -/
def empty : Graph :=
  { nodes := [], edges := [], isDirected := false, isWeighted := false,
    nodeIdCounter := 1, edgeIdCounter := 1 }

/-- `setGraphType(directed, weighted)`. -/
def setGraphType (g : Graph) (directed weighted : Bool) : Graph :=
  { g with isDirected := directed, isWeighted := weighted }

/-- JS truthiness of an optional string argument (`null` and `""` are falsy). -/
def strTruthy : Option String → Bool
  | none => false
  | some s => s ≠ ""

/-- `addNode(id, label, x, y, data)`: auto-generates `node_<counter>` for a
falsy id (incrementing the counter before the duplicate check), then fails if
the id is already present, otherwise inserts `{id, label: label || id, x, y, data}`.
The graph is returned alongside the outcome because a thrown duplicate error
leaves the already-performed counter increment in place. -/
def addNode (g : Graph) (idArg : Option String) (label : String)
    (x y : Int) (data : List (String × String)) : Except String Node × Graph :=
  let id :=
    if strTruthy idArg then idArg.getD ""
    else String.append "node_" (toString g.nodeIdCounter)
  let g1 :=
    if strTruthy idArg then g
    else { g with nodeIdCounter := g.nodeIdCounter + 1 }
  if g1.nodes.hasKey id then
    (.error (String.append (String.append "El nodo con ID '" id) "' ya existe"), g1)
  else
    let node : Node :=
      { id := id, label := if label = "" then id else label, x := x, y := y, data := data }
    (.ok node, { g1 with nodes := g1.nodes.set id node })

/-- `removeNode(nodeId)`: cascades removal of every edge whose source or
target is the node, then removes the node; returns false when absent. -/
def removeNode (g : Graph) (nodeId : String) : Bool × Graph :=
  if g.nodes.hasKey nodeId then
    (true,
     { g with
        edges := g.edges.filter (fun e => ¬(e.2.source = nodeId ∨ e.2.target = nodeId)),
        nodes := g.nodes.del nodeId })
  else (false, g)

/-- The duplicate-edge scan of `addEdge`: undirected graphs match either
orientation, directed graphs only the exact (source, target) pair. -/
def dupEdgeExists (g : Graph) (sourceId targetId : String) : Bool :=
  if ¬g.isDirected then
    g.edges.values.any (fun e =>
      (e.source = sourceId ∧ e.target = targetId) ∨
      (e.source = targetId ∧ e.target = sourceId))
  else
    g.edges.values.any (fun e => e.source = sourceId ∧ e.target = targetId)

/-- `addEdge(sourceId, targetId, weight, label, id)`: endpoint check first,
then auto-id generation (incrementing the counter), then the duplicate scan,
then insertion with weight forced to 1 on unweighted graphs.  The graph is
returned alongside the outcome because a duplicate-edge error thrown after
an auto-generated id leaves the counter increment in place. -/
def addEdge (g : Graph) (sourceId targetId : String) (weight : Rat)
    (label : String) (idArg : Option String) : Except String Edge × Graph :=
  if ¬(g.nodes.hasKey sourceId ∧ g.nodes.hasKey targetId) then
    (.error "Los nodos fuente y destino deben existir", g)
  else
    let id :=
      if strTruthy idArg then idArg.getD ""
      else String.append "edge_" (toString g.edgeIdCounter)
    let g1 :=
      if strTruthy idArg then g
      else { g with edgeIdCounter := g.edgeIdCounter + 1 }
    if dupEdgeExists g1 sourceId targetId then
      (.error (if g1.isDirected then "Ya existe una arista dirigida entre estos nodos"
               else "Ya existe una arista entre estos nodos"), g1)
    else
      let edge : Edge :=
        { id := id, source := sourceId, target := targetId,
          weight := if g1.isWeighted then weight else 1,
          label := if label = "" then (if g1.isWeighted then toString weight else "") else label,
          directed := g1.isDirected }
      (.ok edge, { g1 with edges := g1.edges.set id edge })

/-- `removeEdge(edgeId)`. -/
def removeEdge (g : Graph) (edgeId : String) : Bool × Graph :=
  (g.edges.hasKey edgeId, { g with edges := g.edges.del edgeId })

/-- One step of the neighbour accumulation loop of `getNeighbors`
(`Set.add` semantics: keep insertion order, skip values already present). -/
def addUnique (l : List String) (v : String) : List String :=
  if v ∈ l then l else l ++ [v]

/-- `getNeighbors(nodeId)`: targets of outgoing edges plus, on undirected
graphs, sources of incoming edges, deduplicated in first-seen order. -/
def getNeighbors (g : Graph) (nodeId : String) : List String :=
  g.edges.values.foldl
    (fun acc e =>
      if e.source = nodeId then addUnique acc e.target
      else if ¬g.isDirected ∧ e.target = nodeId then addUnique acc e.source
      else acc)
    []

/-- `getEdgeWeight(sourceId, targetId)`: weight of the first matching edge,
`none` standing for the JS `Infinity` sentinel. -/
def getEdgeWeight (g : Graph) (sourceId targetId : String) : Option Rat :=
  (g.edges.values.find? (fun e =>
    (e.source = sourceId ∧ e.target = targetId) ∨
    (¬g.isDirected ∧ e.source = targetId ∧ e.target = sourceId))).map Edge.weight

/-- `getNode(nodeId)`. -/
def getNode (g : Graph) (nodeId : String) : Option Node := g.nodes.get nodeId

/-- `getEdge(edgeId)`. -/
def getEdge (g : Graph) (edgeId : String) : Option Edge := g.edges.get edgeId

/-- `getEdges()`. -/
def getEdges (g : Graph) : List Edge := g.edges.values

/-- `getNodes()`. -/
def getNodes (g : Graph) : List Node := g.nodes.values

end Graph

/-- A properties bag passed to `updateNode` (`Object.assign` semantics:
only the fields present overwrite the node's fields). -/
structure NodeProps where
  id : Option String := none
  label : Option String := none
  x : Option Int := none
  y : Option Int := none
  data : Option (List (String × String)) := none
  deriving DecidableEq, Repr

/-- A properties bag passed to `updateEdge`. -/
structure EdgeProps where
  id : Option String := none
  source : Option String := none
  target : Option String := none
  weight : Option Rat := none
  label : Option String := none
  directed : Option Bool := none
  deriving DecidableEq, Repr

/-- `Object.assign(node, properties)`. -/
def assignNode (n : Node) (p : NodeProps) : Node :=
  { id := p.id.getD n.id, label := p.label.getD n.label,
    x := p.x.getD n.x, y := p.y.getD n.y, data := p.data.getD n.data }

/-- `Object.assign(edge, properties)`. -/
def assignEdge (e : Edge) (p : EdgeProps) : Edge :=
  { id := p.id.getD e.id, source := p.source.getD e.source,
    target := p.target.getD e.target, weight := p.weight.getD e.weight,
    label := p.label.getD e.label, directed := p.directed.getD e.directed }

namespace Graph

/-- `updateNode(nodeId, properties)`: mutates the stored node record in
place (the map key is untouched); silently does nothing when absent. -/
def updateNode (g : Graph) (nodeId : String) (p : NodeProps) : Graph :=
  match g.nodes.get nodeId with
  | none => g
  | some n => { g with nodes := g.nodes.set nodeId (assignNode n p) }

/-- `updateNodePosition(nodeId, x, y)`. -/
def updateNodePosition (g : Graph) (nodeId : String) (x y : Int) : Graph :=
  match g.nodes.get nodeId with
  | none => g
  | some n => { g with nodes := g.nodes.set nodeId { n with x := x, y := y } }

/-- `updateEdge(edgeId, properties)`: mutates the stored edge record in
place (the map key is untouched); silently does nothing when absent. -/
def updateEdge (g : Graph) (edgeId : String) (p : EdgeProps) : Graph :=
  match g.edges.get edgeId with
  | none => g
  | some e => { g with edges := g.edges.set edgeId (assignEdge e p) }

/-- `clear()`: resets nodes, edges and both id counters (flags persist). -/
def clear (g : Graph) : Graph :=
  { g with nodes := [], edges := [], nodeIdCounter := 1, edgeIdCounter := 1 }

end Graph

/-- The JSON snapshot produced by `toJSON` and consumed by `fromJSON`. -/
structure GraphJSON where
  nodes : List Node
  edges : List Edge
  isDirected : Bool
  isWeighted : Bool
  nodeIdCounter : Nat
  edgeIdCounter : Nat
  deriving DecidableEq, Repr

namespace Graph

/-- `toJSON()`: nodes and edges as value arrays plus flags and counters. -/
def toJSON (g : Graph) : GraphJSON :=
  { nodes := g.nodes.values, edges := g.edges.values,
    isDirected := g.isDirected, isWeighted := g.isWeighted,
    nodeIdCounter := g.nodeIdCounter, edgeIdCounter := g.edgeIdCounter }

/-- `fromJSON(data)`: clear-then-load; the `|| 1` fallback on the counters
maps the (falsy) counter value 0 to 1; entries are re-keyed by their own
`id` field in array order. -/
def fromJSON (g : Graph) (data : GraphJSON) : Graph :=
  let g1 := g.clear
  let g2 := { g1 with
    isDirected := data.isDirected, isWeighted := data.isWeighted,
    nodeIdCounter := if data.nodeIdCounter = 0 then 1 else data.nodeIdCounter,
    edgeIdCounter := if data.edgeIdCounter = 0 then 1 else data.edgeIdCounter }
  let g3 := { g2 with nodes := data.nodes.foldl (fun m (n : Node) => JSMap.set m n.id n) [] }
  { g3 with edges := data.edges.foldl (fun m (e : Edge) => JSMap.set m e.id e) [] }

end Graph

/-! ## GraphAlgorithms: neighbour ordering, DFS, BFS -/

/-- `id.match(/(\d+)/)`: the first maximal digit run of a string, if any. -/
def firstDigitRun : List Char → Option (List Char)
  | [] => none
  | c :: rest =>
    if c.isDigit then some (c :: rest.takeWhile Char.isDigit)
    else firstDigitRun rest

/-- `parseInt` of a digit run. -/
def digitsToNat (l : List Char) : Nat :=
  l.foldl (fun n c => n * 10 + (c.toNat - 48)) 0

/-- The `getNum` helper of the shared neighbour comparator: first embedded
number of an id, 0 when the id has no digits. -/
def getNum (s : String) : Nat :=
  match firstDigitRun s.data with
  | none => 0
  | some ds => digitsToNat ds

/-- The neighbour comparator as a total order: ascending by `getNum`,
ties broken by string comparison (modelling `localeCompare`). -/
def nbLE (a b : String) : Bool :=
  if getNum a = getNum b then a ≤ b else getNum a < getNum b

/-- Insertion step of the neighbour sort. -/
def insectSorted (a : String) : List String → List String
  | [] => [a]
  | b :: rest => if nbLE a b then a :: b :: rest else b :: insectSorted a rest

/-- `neighbors.sort(comparator)`. -/
def sortNeighbors (l : List String) : List String :=
  l.foldr insectSorted []

/-- Sorting never adds or removes neighbours. -/
theorem mem_insectSorted (a v : String) (l : List String) :
    v ∈ insectSorted a l ↔ v = a ∨ v ∈ l := by
  induction l with
  | nil => simp [insectSorted]
  | cons b rest ih =>
    simp only [insectSorted]
    by_cases h : nbLE a b = true
    · rw [if_pos h]
      simp only [List.mem_cons]
    · rw [if_neg h]
      simp only [List.mem_cons, ih]
      tauto

/-- Membership in the sorted neighbour list coincides with membership in the
original one. -/
theorem mem_sortNeighbors (v : String) (l : List String) :
    v ∈ sortNeighbors l ↔ v ∈ l := by
  induction l with
  | nil => simp [sortNeighbors]
  | cons b rest ih =>
    simp only [sortNeighbors, List.foldr] at ih ⊢
    rw [mem_insectSorted]
    simp only [List.mem_cons, ih]

/-- State of the iterative DFS loop. -/
structure DFSState where
  stack : List String
  visited : List String
  visitOrder : List String
  parent : JSMap (Option String)
  found : Bool
  deriving DecidableEq, Repr

/-- The reverse-order neighbour push of DFS: each unvisited neighbour is
pushed, and its parent recorded only when not already present. -/
def dfsPushNeighbors (current : String) (visited : List String)
    (nbs : List String) (stack : List String) (parent : JSMap (Option String)) :
    List String × JSMap (Option String) :=
  nbs.reverse.foldl
    (fun (acc : List String × JSMap (Option String)) v =>
      if v ∈ visited then acc
      else (v :: acc.1,
            if acc.2.hasKey v then acc.2 else acc.2.set v (some current)))
    (stack, parent)

/-- One run of the DFS `while` loop, fuelled (the fuel is chosen large
enough that it never runs out on the states the program reaches). -/
def dfsLoop (g : Graph) (target : Option String) : Nat → DFSState → DFSState
  | 0, st => st
  | fuel + 1, st =>
    match st.stack with
    | [] => st
    | current :: restStack =>
      if current ∈ st.visited then
        dfsLoop g target fuel { st with stack := restStack }
      else
        let st1 := { st with
          stack := restStack,
          visited := st.visited ++ [current],
          visitOrder := st.visitOrder ++ [current] }
        if Graph.strTruthy target ∧ target = some current then
          { st1 with found := true }
        else
          let nbs := sortNeighbors (g.getNeighbors current)
          let pushed := dfsPushNeighbors current st1.visited nbs st1.stack st1.parent
          dfsLoop g target fuel { st1 with stack := pushed.1, parent := pushed.2 }

/-- One step of `reconstructPath`'s parent walk; a `none` (JS `null`) parent
ends the walk.  (An absent key, JS `undefined`, would make the source loop
forever; the program only walks parents of discovered nodes, where it cannot
occur, and the model stops there.) -/
def parentWalk (parent : JSMap (Option String)) : Nat → String → List String → List String
  | 0, cur, acc => cur :: acc
  | fuel + 1, cur, acc =>
    match parent.get cur with
    | some (some p) => parentWalk parent fuel p (cur :: acc)
    | _ => cur :: acc

/-- `reconstructPath(parent, start, end)`: walk parent pointers back from
`end`; empty when the walk does not reach `start`. -/
def reconstructPath (parent : JSMap (Option String)) (start finish : String) :
    List String :=
  let path := parentWalk parent (parent.length + 1) finish []
  if path.headI = start then path else []

/-- The result record of `dfs`. -/
structure DFSResult where
  startNode : String
  targetNode : Option String
  visitOrder : List String
  path : List String
  found : Bool
  distance : Int
  isComplete : Bool
  nodesVisited : Nat
  totalNodes : Nat
  pathLength : Nat
  deriving DecidableEq, Repr

/-- Fuel that dominates the number of DFS loop iterations (total pushes are
bounded by one seed plus one push per visited node per neighbour). -/
def dfsFuel (g : Graph) : Nat :=
  (1 + g.nodes.length + 2 * g.edges.length) * (2 + 2 * g.edges.length) + 1

namespace GraphAlgorithms

/-- `dfs(startNodeId, targetNodeId)`: existence validation of the start node
and of a truthy target node, then the iterative traversal. -/
def dfs (g : Graph) (startNodeId : String) (targetNodeId : Option String) :
    Except String DFSResult :=
  if g.getNode startNodeId = none then
    .error (String.append (String.append "El nodo inicial '" startNodeId) "' no existe")
  else if Graph.strTruthy targetNodeId ∧ g.getNode (targetNodeId.getD "") = none then
    .error (String.append (String.append "El nodo objetivo '" (targetNodeId.getD "")) "' no existe")
  else
    let st0 : DFSState :=
      { stack := [startNodeId], visited := [], visitOrder := [],
        parent := [(startNodeId, none)], found := false }
    let st := dfsLoop g targetNodeId (dfsFuel g) st0
    let targeted := Graph.strTruthy targetNodeId
    let finalPath : List String :=
      if targeted then
        if st.found then reconstructPath st.parent startNodeId (targetNodeId.getD "")
        else []
      else st.visitOrder
    let distance : Int :=
      if targeted then
        (if st.found ∧ finalPath.length > 0 then (finalPath.length : Int) - 1 else -1)
      else (if finalPath.length > 0 then (finalPath.length : Int) - 1 else 0)
    .ok {
      startNode := startNodeId, targetNode := targetNodeId,
      visitOrder := st.visitOrder, path := finalPath,
      found := if targeted then st.found else true,
      distance := distance, isComplete := ¬targeted,
      nodesVisited := st.visited.length, totalNodes := g.nodes.length,
      pathLength := finalPath.length }

end GraphAlgorithms

/-- State of the BFS loop. -/
structure BFSState where
  queue : List String
  visited : List String
  visitOrder : List String
  parent : JSMap (Option String)
  dist : JSMap Nat
  deriving DecidableEq, Repr

/-- The neighbour scan of one BFS iteration: each unvisited neighbour is
marked visited, given a parent and a distance, and enqueued at the back.
(`distance.get(currentNode)` is always present when the loop runs; the
`getD 0` fallback is never taken.) -/
def bfsVisitNeighbors (current : String) (nbs : List String) (st : BFSState) :
    BFSState :=
  nbs.foldl
    (fun acc v =>
      if v ∈ acc.visited then acc
      else
        { acc with
            visited := acc.visited ++ [v],
            parent := acc.parent.set v (some current),
            dist := acc.dist.set v ((acc.dist.get current).getD 0 + 1),
            queue := acc.queue ++ [v] })
    st

/-- One run of the BFS `while` loop (queue `shift` from the front), fuelled. -/
def bfsLoop (g : Graph) (target : Option String) : Nat → BFSState → BFSState × Bool
  | 0, st => (st, false)
  | fuel + 1, st =>
    match st.queue with
    | [] => (st, false)
    | current :: restQueue =>
      let st1 := { st with queue := restQueue, visitOrder := st.visitOrder ++ [current] }
      if Graph.strTruthy target ∧ target = some current then (st1, true)
      else
        let nbs := sortNeighbors (g.getNeighbors current)
        bfsLoop g target fuel (bfsVisitNeighbors current nbs st1)

/-- The result record of `bfs`. -/
structure BFSResult where
  startNode : String
  targetNode : Option String
  visitOrder : List String
  path : List String
  found : Bool
  distance : Int
  distances : JSMap Nat
  nodesVisited : Nat
  totalNodes : Nat
  pathLength : Nat
  deriving DecidableEq, Repr

/-- `bfs(startNodeId, targetNodeId)`: no existence validation of either id;
the start node is seeded as visited at distance 0 and the queue is drained
(early break only when a truthy target is dequeued). -/
def GraphAlgorithms.bfs (g : Graph) (startNodeId : String)
    (targetNodeId : Option String) : BFSResult :=
  let st0 : BFSState :=
    { queue := [startNodeId], visited := [startNodeId], visitOrder := [],
      parent := [(startNodeId, none)], dist := [(startNodeId, 0)] }
  let run := bfsLoop g targetNodeId (g.nodes.length + 1) st0
  let st := run.1
  let found := run.2
  let targeted := Graph.strTruthy targetNodeId
  let finalPath : List String :=
    if targeted ∧ found then
      reconstructPath st.parent startNodeId (targetNodeId.getD "")
    else if ¬targeted then st.visitOrder
    else []
  let shortestDistance : Int :=
    if targeted ∧ found then ((st.dist.get (targetNodeId.getD "")).getD 0 : Int)
    else -1
  { startNode := startNodeId, targetNode := targetNodeId,
    visitOrder := st.visitOrder, path := finalPath,
    found := if targeted then found else true,
    distance := shortestDistance, distances := st.dist,
    nodesVisited := st.visited.length, totalNodes := g.nodes.length,
    pathLength := finalPath.length }

/-! ## UnionFind (disjoint-set union with path compression) -/

/-- Parent map of `UnionFind`; keys and values are `Option String` so that
the JS `undefined` produced by looking up an unknown element can flow back
into the map exactly as in the source. -/
abbrev UFMap : Type := List (Option String × Option String)

/-- `parent.get(k)`, flattening an absent key to `undefined` (`none`). -/
def ufGet (m : UFMap) (k : Option String) : Option String :=
  match m.find? (fun p => p.1 = k) with
  | none => none
  | some p => p.2

/-- `parent.set(k, v)` with JS `Map` in-place-or-append semantics. -/
def ufSet (m : UFMap) (k : Option String) (v : Option String) : UFMap :=
  match m with
  | [] => [(k, v)]
  | (k', v') :: rest => if k' = k then (k, v) :: rest else (k', v') :: ufSet rest k v

/-- `rank.get(k)` (`none` = `undefined`). -/
def rkGet (m : List (Option String × Nat)) (k : Option String) : Option Nat :=
  (m.find? (fun p => p.1 = k)).map Prod.snd

/-- `rank.set(k, v)`. -/
def rkSet (m : List (Option String × Nat)) (k : Option String) (v : Nat) :
    List (Option String × Nat) :=
  match m with
  | [] => [(k, v)]
  | (k', v') :: rest => if k' = k then (k, v) :: rest else (k', v') :: rkSet rest k v

/-- JS `<` on two possibly-`undefined` numbers: any comparison with
`undefined` (NaN) is false. -/
def jsLtNat : Option Nat → Option Nat → Bool
  | some a, some b => a < b
  | _, _ => false

/-- The `UnionFind` state. -/
structure UnionFind where
  parent : UFMap
  rank : List (Option String × Nat)
  deriving DecidableEq, Repr

namespace UnionFind

/-- `new UnionFind(elements)`: every element is its own parent at rank 0. -/
def create (elements : List String) : UnionFind :=
  elements.foldl
    (fun uf e =>
      { parent := ufSet uf.parent (some e) (some e),
        rank := rkSet uf.rank (some e) 0 })
    { parent := [], rank := [] }

/-- `find(element)` with path compression, fuelled; the recursion follows
`parent.get` chains, rewriting each traversed entry to the root.  (After the
compressing `set`, the source returns `parent.get(element)`, which is the
root just written; the fuel-exhaustion branch is never reached from the
states the program builds.) -/
def findAux : Nat → UFMap → Option String → Option String × UFMap
  | fuel, p, x =>
    if ufGet p x = x then (x, p)
    else
      match fuel with
      | 0 => (none, p)
      | fuel + 1 =>
        let (r, p1) := findAux fuel p (ufGet p x)
        let p2 := ufSet p1 x r
        (ufGet p2 x, p2)

/-- `find(element)` at the state's own fuel bound. -/
def find (uf : UnionFind) (x : Option String) : Option String × UnionFind :=
  let r := findAux (uf.parent.length + 1) uf.parent x
  (r.1, { uf with parent := r.2 })

/-- `union(element1, element2)`: two (compressing) finds, then union by rank;
an equal-rank tie attaches the second root under the first and bumps its
rank.  (The rank lookups are always present on the program's states; the
`getD 0` fallback is never taken there.) -/
def union (uf : UnionFind) (a b : String) : UnionFind :=
  let f1 := uf.find (some a)
  let root1 := f1.1
  let f2 := f1.2.find (some b)
  let root2 := f2.1
  let uf2 := f2.2
  if root1 = root2 then uf2
  else
    let rank1 := rkGet uf2.rank root1
    let rank2 := rkGet uf2.rank root2
    if jsLtNat rank1 rank2 then
      { uf2 with parent := ufSet uf2.parent root1 root2 }
    else if jsLtNat rank2 rank1 then
      { uf2 with parent := ufSet uf2.parent root2 root1 }
    else
      { parent := ufSet uf2.parent root2 root1,
        rank := rkSet uf2.rank root1 (rank1.getD 0 + 1) }

/-- `connected(element1, element2)`: equality of the two find results
(`===` on possibly-`undefined` values). -/
def connected (uf : UnionFind) (a b : String) : Bool × UnionFind :=
  let f1 := uf.find (some a)
  let f2 := f1.2.find (some b)
  (decide (f1.1 = f2.1), f2.2)

end UnionFind

/-! ## Kruskal, Prim, and MST comparison -/

/-- Stable insertion step for the ascending weight sort of `kruskal`
(a JS `Array.sort` with a numeric comparator is stable). -/
def edgeInsert (a : Edge) : List Edge → List Edge
  | [] => [a]
  | b :: rest => if a.weight ≤ b.weight then a :: b :: rest else b :: edgeInsert a rest

/-- `edges.sort((a, b) => a.weight - b.weight)`; `parseFloat(edge.weight)` is
the identity on the `Rat` weights of the model. -/
def sortEdgesByWeight (l : List Edge) : List Edge :=
  l.foldr edgeInsert []

/-- One recorded Kruskal step: the edge, the action, the reason. -/
structure KStep where
  edge : Edge
  action : String
  reason : String
  deriving DecidableEq, Repr

/-- The result record of `kruskal`. -/
structure KruskalResult where
  mstEdges : List Edge
  totalWeight : Rat
  steps : List KStep
  originalEdges : Nat
  deriving DecidableEq, Repr

/-- The Kruskal acceptance loop: a union-find cycle check per edge in sorted
order, with the early exit once `n - 1` edges are accepted (the count check
runs after every considered edge, as in the source). -/
def kruskalLoop (nodeCount : Int) :
    List Edge → UnionFind → List Edge → Rat → List KStep →
    List Edge × Rat × List KStep
  | [], _, mst, tw, steps => (mst, tw, steps)
  | e :: rest, uf, mst, tw, steps =>
    let c := uf.connected e.source e.target
    let uf1 := c.2
    if c.1 then
      let steps1 := steps ++ [{ edge := e, action := "rejected", reason := "Formaría un ciclo" }]
      if (mst.length : Int) = nodeCount - 1 then (mst, tw, steps1)
      else kruskalLoop nodeCount rest uf1 mst tw steps1
    else
      let uf2 := uf1.union e.source e.target
      let mst1 := mst ++ [e]
      let tw1 := tw + e.weight
      let steps1 := steps ++ [{ edge := e, action := "added", reason := "No forma ciclo" }]
      if (mst1.length : Int) = nodeCount - 1 then (mst1, tw1, steps1)
      else kruskalLoop nodeCount rest uf2 mst1 tw1 steps1

namespace GraphAlgorithms

/-- `kruskal()`: requires a weighted graph, sorts the edges ascending by
weight, and greedily accepts every edge that joins two distinct union-find
classes. -/
def kruskal (g : Graph) : Except String KruskalResult :=
  if ¬g.isWeighted then
    .error "El algoritmo de Kruskal requiere un grafo ponderado"
  else
    let edges := sortEdgesByWeight g.getEdges
    let uf := UnionFind.create g.nodes.keys
    let out := kruskalLoop (g.nodes.length : Int) edges uf [] 0 []
    .ok { mstEdges := out.1, totalWeight := out.2.1, steps := out.2.2,
          originalEdges := edges.length }

end GraphAlgorithms

/-- JS `<` between a possibly-infinite candidate weight and the running
minimum (`none` = `Infinity`): any finite value beats `Infinity`, and
`Infinity` beats nothing. -/
def ltOptRat : Option Rat → Option Rat → Bool
  | some a, some b => a < b
  | some _, none => true
  | none, _ => false

/-- The boundary-edge scan of one Prim iteration: every member of `inMST`,
in insertion order, offers each of its neighbours outside `inMST`; a
strictly smaller `getEdgeWeight` updates the running minimum and looks up
the first matching edge record in `getEdges()` order. -/
def primScan (g : Graph) (inMST : List String) : Option Rat × Option Edge :=
  inMST.foldl
    (fun acc nodeInMST =>
      (g.getNeighbors nodeInMST).foldl
        (fun (acc2 : Option Rat × Option Edge) neighbor =>
          if neighbor ∈ inMST then acc2
          else
            let w := g.getEdgeWeight nodeInMST neighbor
            if ltOptRat w acc2.1 then
              let found := g.getEdges.find? (fun e =>
                (e.source = nodeInMST ∧ e.target = neighbor) ∨
                (¬g.isDirected ∧ e.source = neighbor ∧ e.target = nodeInMST))
              (w, match found with
                  | some e => some e
                  | none => acc2.2)
            else acc2)
        acc)
    (none, none)

/-- The result record of `prim` (the zero-node early return leaves
`startNode` empty). -/
structure PrimResult where
  startNode : Option String
  mstEdges : List Edge
  totalWeight : Rat
  nodesReached : Nat
  deriving DecidableEq, Repr

/-- The Prim growth loop, fuelled: while some node is outside `inMST`, add
the minimum boundary edge and its outside endpoint, or stop when no
boundary edge exists. -/
def primLoop (g : Graph) : Nat → List String → List Edge → Rat →
    List String × List Edge × Rat
  | 0, inMST, mst, tw => (inMST, mst, tw)
  | fuel + 1, inMST, mst, tw =>
    if inMST.length < g.nodes.length then
      let scan := primScan g inMST
      match scan.2 with
      | some minEdge =>
        let newNode := if minEdge.source ∈ inMST then minEdge.target else minEdge.source
        primLoop g fuel (Graph.addUnique inMST newNode) (mst ++ [minEdge])
          (tw + scan.1.getD 0)
      | none => (inMST, mst, tw)
    else (inMST, mst, tw)

namespace GraphAlgorithms

/-- `prim(startNodeId)`: requires a weighted graph; an omitted (falsy) start
defaults to the first node; grows the tree by repeated minimum boundary-edge
selection. -/
def prim (g : Graph) (startArg : Option String) : Except String PrimResult :=
  if ¬g.isWeighted then
    .error "El algoritmo de Prim requiere un grafo ponderado"
  else if g.nodes.length = 0 then
    .ok { startNode := none, mstEdges := [], totalWeight := 0, nodesReached := 0 }
  else
    let startNodeId :=
      if Graph.strTruthy startArg then startArg.getD "" else g.nodes.keys.headI
    let out := primLoop g (g.nodes.length + 1) [startNodeId] [] 0
    .ok { startNode := some startNodeId, mstEdges := out.2.1, totalWeight := out.2.2,
          nodesReached := out.1.length }

end GraphAlgorithms

/-! ## MST identity check -/

/-- Whitespace trimming on a character list (the `String.trim` step of JS
`ToNumber`). -/
def trimChars (l : List Char) : List Char :=
  ((l.dropWhile Char.isWhitespace).reverse.dropWhile Char.isWhitespace).reverse

/-- JS `ToNumber` on the decimal strings relevant here: trimmed empty string
is 0, optional sign followed by `digits`, `digits.digits` or `.digits` parses
as a decimal, anything else (every non-numeric node id) is NaN (`none`).
(Hex and exponent literal forms never occur as node ids and are not
modelled.) -/
def jsToNumber (s : String) : Option Rat :=
  let t := trimChars s.data
  if t = [] then some 0
  else
    let (sign, body) : Rat × List Char :=
      match t with
      | '-' :: rest => (-1, rest)
      | '+' :: rest => (1, rest)
      | l => (1, l)
    let intPart := body.takeWhile Char.isDigit
    let rest := body.drop intPart.length
    match rest with
    | [] =>
      if intPart = [] then none
      else some (sign * (digitsToNat intPart : Rat))
    | '.' :: fracPart =>
      if fracPart.all Char.isDigit ∧ ¬(intPart = [] ∧ fracPart = []) then
        some (sign * ((digitsToNat intPart : Rat) +
          (digitsToNat fracPart : Rat) / ((10 : Rat) ^ fracPart.length)))
      else none
    | _ => none

/-- The canonical key of `areMSTsIdentical`'s `normalize`:
`Math.min`/`Math.max` of the two endpoint ids *as numbers* (both collapse to
NaN when either id is not numeric), paired with the weight. -/
def normalizeEdge (e : Edge) : Option Rat × Option Rat × Rat :=
  match jsToNumber e.source, jsToNumber e.target with
  | some a, some b => (some (min a b), some (max a b), e.weight)
  | _, _ => (none, none, e.weight)

/-- `new Set(list)`: deduplication keeping first occurrences. -/
def dedupKeys {κ : Type} [DecidableEq κ] (l : List κ) : List κ :=
  l.foldl (fun acc k => if k ∈ acc then acc else acc ++ [k]) []

/-- `areMSTsIdentical(edges1, edges2)`: equal lengths, then equality of the
two normalized-key sets (equal sizes plus inclusion of the first in the
second). -/
def GraphAlgorithms.areMSTsIdentical (edges1 edges2 : List Edge) : Bool :=
  if edges1.length ≠ edges2.length then false
  else
    let set1 := dedupKeys (edges1.map normalizeEdge)
    let set2 := dedupKeys (edges2.map normalizeEdge)
    if set1.length ≠ set2.length then false
    else set1.all (fun k => k ∈ set2)

/-- The comparison part of `compareMST`'s result. -/
structure MSTComparison where
  sameWeight : Bool
  kruskalWeight : Rat
  primWeight : Rat
  kruskalEdges : Nat
  primEdges : Nat
  identical : Bool
  deriving DecidableEq, Repr

/-- `compareMST()`: runs `kruskal()` and `prim()` and reports the weight
match within 0.001 and the normalized-edge-set identity. -/
def GraphAlgorithms.compareMST (g : Graph) : Except String MSTComparison := do
  let k ← GraphAlgorithms.kruskal g
  let p ← GraphAlgorithms.prim g none
  .ok { sameWeight := |k.totalWeight - p.totalWeight| < 1 / 1000,
        kruskalWeight := k.totalWeight, primWeight := p.totalWeight,
        kruskalEdges := k.mstEdges.length, primEdges := p.mstEdges.length,
        identical := GraphAlgorithms.areMSTsIdentical k.mstEdges p.mstEdges }

/-! ## C1: algorithm id validation -/

/-- A one-node graph (node "A"), built through the public API. -/
def gOneNode : Graph := (Graph.addNode Graph.empty (some "A") "" 0 0 []).2

/-- C1 (counterexample): `bfs` performs no existence validation.  On the
one-node graph, `bfs("Z")` with the nonexistent start id "Z" does not raise
`UnknownNodeError` (in the embedding `bfs` is a total function with no error
outcome, matching the absence of any `throw` in the source); it runs
normally, visiting "Z" and reporting `{Z: 0}` as distances — while `dfs`
on the same input does raise. -/
theorem bfs_missing_start_no_error_cex :
    Graph.getNode gOneNode "Z" = none ∧
    (GraphAlgorithms.bfs gOneNode "Z" none).visitOrder = ["Z"] ∧
    (GraphAlgorithms.bfs gOneNode "Z" none).distances = [("Z", 0)] ∧
    (∃ msg, GraphAlgorithms.dfs gOneNode "Z" none = .error msg) := by
  exact ⟨by decide, by decide, by decide,
    ⟨"El nodo inicial 'Z' no existe", by rfl⟩⟩

/-- C1 (amended): `dfs(startId, targetId?)` raises `UnknownNodeError`
exactly when `startId`, or a truthy (non-null, non-empty) `targetId`, is not
an existing node id, and succeeds otherwise; `bfs` performs no such
validation and never raises — it returns an ordinary result record (whose
`startNode` field echoes the argument) for every input, existing or not. -/
theorem dfs_validates_ids_bfs_does_not (g : Graph) (s : String) (t : Option String) :
    ((∃ msg, GraphAlgorithms.dfs g s t = .error msg) ↔
      (g.getNode s = none ∨ (Graph.strTruthy t = true ∧ g.getNode (t.getD "") = none)))
    ∧ (GraphAlgorithms.bfs g s t).startNode = s := by
  constructor
  · by_cases h1 : g.getNode s = none
    · simp [GraphAlgorithms.dfs, h1]
    · by_cases h2 : Graph.strTruthy t = true ∧ g.getNode (t.getD "") = none
      · simp [GraphAlgorithms.dfs, h1, h2]
      · simp [GraphAlgorithms.dfs, h1, h2]
  · rfl

/-! ## C2: graph state after a failed mutation -/

/-- A graph holding a node explicitly named "node_1" (the auto-id namespace),
built through the public API. -/
def gNodeOne : Graph := (Graph.addNode Graph.empty (some "node_1") "" 0 0 []).2

/-- C2 (counterexample): `addNode` with an auto-generated id increments
`nodeIdCounter` *before* the duplicate check, so the failing call leaves the
graph changed: on a graph already holding "node_1", `addNode()` raises the
duplicate error yet bumps `nodeIdCounter` from 1 to 2. -/
theorem addNode_error_mutates_counter_cex :
    gNodeOne.nodeIdCounter = 1 ∧
    (Graph.addNode gNodeOne none "" 0 0 []).1 =
      .error "El nodo con ID 'node_1' ya existe" ∧
    (Graph.addNode gNodeOne none "" 0 0 []).2.nodeIdCounter = 2 := by
  exact ⟨by decide, by rfl, by decide⟩

/-- C2 (amended): a failed `addNode` or `addEdge` leaves nodes, edges and
both flags unchanged, and leaves the id counters unchanged too — except that
a call whose id was auto-generated (falsy id argument) has already
incremented the corresponding counter when the duplicate error is raised,
so exactly that counter is one higher. -/
theorem failed_mutation_state (g : Graph) (idArg : Option String) (label : String)
    (x y : Int) (data : List (String × String)) (s t : String) (w : Rat)
    (elabel : String) (eid : Option String) :
    ((Graph.addNode g idArg label x y data).1.isOk = false →
      (Graph.addNode g idArg label x y data).2 =
        (if Graph.strTruthy idArg then g
         else { g with nodeIdCounter := g.nodeIdCounter + 1 }))
    ∧ ((Graph.addEdge g s t w elabel eid).1.isOk = false →
      ((Graph.addEdge g s t w elabel eid).2 = g ∨
       (Graph.strTruthy eid = false ∧
        (Graph.addEdge g s t w elabel eid).2 =
          { g with edgeIdCounter := g.edgeIdCounter + 1 }))) := by
  constructor
  · intro herr
    by_cases ht : Graph.strTruthy idArg = true
    · by_cases hk : JSMap.hasKey g.nodes (idArg.getD "") = true
      · simp [Graph.addNode, ht, hk]
      · simp [Graph.addNode, ht, hk, Except.isOk, Except.toBool] at herr
    · by_cases hk : JSMap.hasKey g.nodes
        (String.append "node_" (toString g.nodeIdCounter)) = true
      · simp [Graph.addNode, ht, hk]
      · simp [Graph.addNode, ht, hk, Except.isOk, Except.toBool] at herr
  · intro herr
    by_cases hends : (JSMap.hasKey g.nodes s ∧ JSMap.hasKey g.nodes t : Prop)
    · by_cases ht : Graph.strTruthy eid = true
      · by_cases hd : Graph.dupEdgeExists g s t = true
        · left; simp [Graph.addEdge, hends, ht, hd]
        · simp [Graph.addEdge, hends, ht, hd, Except.isOk, Except.toBool] at herr
      · by_cases hd : Graph.dupEdgeExists
          { g with edgeIdCounter := g.edgeIdCounter + 1 } s t = true
        · right
          refine ⟨by simpa using ht, ?_⟩
          simp [Graph.addEdge, hends, ht, hd]
        · simp [Graph.addEdge, hends, ht, hd, Except.isOk, Except.toBool] at herr
    · left; simp [Graph.addEdge, hends]

/-- C2 (witness): the amended statement evaluated on the "node_1" graph. -/
theorem failed_mutation_state_witness :
    (Graph.addNode gNodeOne none "" 0 0 []).2 =
      { gNodeOne with nodeIdCounter := gNodeOne.nodeIdCounter + 1 } := by
  have h := (failed_mutation_state gNodeOne none "" 0 0 [] "A" "B" 1 "" none).1
  simpa using h (by decide)

/-! ## C3: order-independence of the MST identity check -/

/-- Membership through the `Set`-style deduplication accumulator. -/
theorem mem_dedupKeys_aux {κ : Type} [DecidableEq κ] (l : List κ) (acc : List κ) (x : κ) :
    x ∈ l.foldl (fun a k => if k ∈ a then a else a ++ [k]) acc ↔ x ∈ acc ∨ x ∈ l := by
  induction l generalizing acc with
  | nil => simp
  | cons b rest ih =>
    simp only [List.foldl]
    by_cases hb : b ∈ acc
    · rw [if_pos hb, ih]
      simp only [List.mem_cons]
      constructor
      · rintro (h | h) <;> tauto
      · rintro (h | h | h)
        · tauto
        · subst h; tauto
        · tauto
    · rw [if_neg hb, ih]
      simp only [List.mem_append, List.mem_singleton, List.mem_cons]
      tauto

/-- Membership in a deduplicated list. -/
theorem mem_dedupKeys {κ : Type} [DecidableEq κ] (l : List κ) (x : κ) :
    x ∈ dedupKeys l ↔ x ∈ l := by
  unfold dedupKeys
  rw [mem_dedupKeys_aux]
  simp

/-- The deduplicated list has no duplicates. -/
theorem nodup_dedupKeys_aux {κ : Type} [DecidableEq κ] (l : List κ) (acc : List κ)
    (h : acc.Nodup) : (l.foldl (fun a k => if k ∈ a then a else a ++ [k]) acc).Nodup := by
  induction l generalizing acc with
  | nil => simpa using h
  | cons b rest ih =>
    simp only [List.foldl]
    by_cases hb : b ∈ acc
    · rw [if_pos hb]; exact ih acc h
    · rw [if_neg hb]
      refine ih _ ?_
      simpa [List.nodup_append] using ⟨h, hb⟩

/-- `new Set(l)` yields a duplicate-free list. -/
theorem nodup_dedupKeys {κ : Type} [DecidableEq κ] (l : List κ) :
    (dedupKeys l).Nodup := by
  exact nodup_dedupKeys_aux l [] List.nodup_nil

/-- C3 (amended): `areMSTsIdentical` is order-independent in the sense that
it returns true exactly when the two lists have the same length and the same
*set of normalized keys*; in particular two permutations of one edge list
always compare identical.  (By the counterexample, equality of key sets is
weaker than equality of edge sets: the `Math.min`/`Math.max` normalization
collapses every non-numeric id pair to NaN.) -/
theorem areMSTsIdentical_normalized_sets (l1 l2 : List Edge) :
    (GraphAlgorithms.areMSTsIdentical l1 l2 = true ↔
      (l1.length = l2.length ∧
       ∀ k, k ∈ l1.map normalizeEdge ↔ k ∈ l2.map normalizeEdge))
    ∧ (l1.Perm l2 → GraphAlgorithms.areMSTsIdentical l1 l2 = true) := by
  have hiff : GraphAlgorithms.areMSTsIdentical l1 l2 = true ↔
      (l1.length = l2.length ∧
       ∀ k, k ∈ l1.map normalizeEdge ↔ k ∈ l2.map normalizeEdge) := by
    unfold GraphAlgorithms.areMSTsIdentical
    by_cases hlen : l1.length = l2.length
    · simp only [hlen, ne_eq, not_true_eq_false, if_false, true_and]
      by_cases hslen : (dedupKeys (l1.map normalizeEdge)).length =
          (dedupKeys (l2.map normalizeEdge)).length
      · simp only [hslen, ne_eq, not_true_eq_false, if_false]
        rw [List.all_eq_true]
        constructor
        · intro hall k
          have hsub : dedupKeys (l1.map normalizeEdge) ⊆ dedupKeys (l2.map normalizeEdge) := by
            intro a ha
            simpa using hall a ha
          have hperm : (dedupKeys (l1.map normalizeEdge)).Perm
              (dedupKeys (l2.map normalizeEdge)) :=
            (List.subperm_of_subset (nodup_dedupKeys _) hsub).perm_of_length_le
              (le_of_eq hslen.symm)
          constructor
          · intro hk
            have : k ∈ dedupKeys (l2.map normalizeEdge) :=
              hperm.subset ((mem_dedupKeys _ _).mpr hk)
            exact (mem_dedupKeys _ _).mp this
          · intro hk
            have : k ∈ dedupKeys (l1.map normalizeEdge) :=
              hperm.symm.subset ((mem_dedupKeys _ _).mpr hk)
            exact (mem_dedupKeys _ _).mp this
        · intro hmem a ha
          have : a ∈ l2.map normalizeEdge := (hmem a).mp ((mem_dedupKeys _ _).mp ha)
          simpa using (mem_dedupKeys _ _).mpr this
      · simp only [hslen, ne_eq, not_false_eq_true, if_true]
        constructor
        · intro hfalse; exact absurd hfalse (by simp)
        · intro hmem
          exfalso
          apply hslen
          have hperm : (dedupKeys (l1.map normalizeEdge)).Perm
              (dedupKeys (l2.map normalizeEdge)) := by
            rw [List.perm_ext_iff_of_nodup (nodup_dedupKeys _) (nodup_dedupKeys _)]
            intro k
            rw [mem_dedupKeys, mem_dedupKeys]
            exact hmem k
          exact hperm.length_eq
    · simp only [hlen, ne_eq, not_false_eq_true, if_true]
      constructor
      · intro hfalse; exact absurd hfalse (by simp)
      · intro hmem; exact hmem.1.elim
  refine ⟨hiff, ?_⟩
  intro hperm
  rw [hiff]
  exact ⟨hperm.length_eq, fun k => (hperm.map normalizeEdge).mem_iff⟩

/-- Two weight-1 undirected edges on A–B and B–C. -/
def edgeAB : Edge :=
  { id := "e1", source := "A", target := "B", weight := 1, label := "", directed := false }

/-- Weight-1 edge on B–C. -/
def edgeBC : Edge :=
  { id := "e2", source := "B", target := "C", weight := 1, label := "", directed := false }

/-- Weight-1 edge on A–C. -/
def edgeAC : Edge :=
  { id := "e3", source := "A", target := "C", weight := 1, label := "", directed := false }

/-- Weight-1 edge on C–D. -/
def edgeCD : Edge :=
  { id := "e4", source := "C", target := "D", weight := 1, label := "", directed := false }

/-- C3 (counterexample): two genuinely different edge sets — {A–B, B–C}
versus {A–C, C–D}, sharing no edge at all — compare as *identical*, because
`Math.min`/`Math.max` on the non-numeric ids "A".."D" produce NaN and every
normalized key collapses to "NaN-NaN-1". -/
theorem areMSTsIdentical_different_sets_cex :
    GraphAlgorithms.areMSTsIdentical [edgeAB, edgeBC] [edgeAC, edgeCD] = true ∧
    edgeAC ∉ [edgeAB, edgeBC] ∧ edgeAB ∉ [edgeAC, edgeCD] := by
  exact ⟨by decide, by decide, by decide⟩

/-- C3 (witness): the amended statement evaluated on a concrete permutation
pair: [A–B, B–C] and its reversal compare identical. -/
theorem areMSTsIdentical_normalized_sets_witness :
    GraphAlgorithms.areMSTsIdentical [edgeAB, edgeBC] [edgeBC, edgeAB] = true := by
  exact (areMSTsIdentical_normalized_sets [edgeAB, edgeBC] [edgeBC, edgeAB]).2
    (by decide)

/-! ## JSMap lemmas shared by the invariant claims -/

/-- A value in a map after `set` is the new value or an old one. -/
theorem JSMap.mem_values_set {α : Type} (m : JSMap α) (k : String) (v x : α)
    (h : x ∈ (m.set k v).values) : x = v ∨ x ∈ m.values := by
  induction m with
  | nil =>
    simp only [JSMap.set, JSMap.values, List.map_cons, List.map_nil,
      List.mem_singleton] at h
    exact Or.inl h
  | cons p rest ih =>
    by_cases hk : p.1 = k
    · simp only [JSMap.set, if_pos hk, JSMap.values, List.map_cons, List.mem_cons] at h ⊢
      tauto
    · simp only [JSMap.set, if_neg hk, JSMap.values, List.map_cons, List.mem_cons] at h ⊢
      rcases h with h | h
      · tauto
      · rcases ih h with h' | h' <;> tauto

/-- Values survive deletion only from the original map. -/
theorem JSMap.mem_values_del {α : Type} (m : JSMap α) (k : String) (x : α)
    (h : x ∈ (m.del k).values) : x ∈ m.values := by
  induction m with
  | nil => simp [JSMap.del, JSMap.values] at h
  | cons p rest ih =>
    by_cases hk : p.1 = k
    · simp only [JSMap.del, if_pos hk] at h
      simp only [JSMap.values, List.map_cons, List.mem_cons]
      tauto
    · simp only [JSMap.del, if_neg hk, JSMap.values, List.map_cons, List.mem_cons] at h ⊢
      rcases h with h | h
      · tauto
      · exact Or.inr (ih h)

/-- Values of a filtered map come from the original map. -/
theorem JSMap.mem_values_filter {α : Type} (m : JSMap α) (p : String × α → Bool) (x : α)
    (h : x ∈ JSMap.values (List.filter p m)) : x ∈ m.values := by
  unfold JSMap.values at h ⊢
  exact List.map_subset Prod.snd (List.filter_subset' m) h

/-- Existing keys survive a `set` (of any key). -/
theorem JSMap.hasKey_set_of {α : Type} (m : JSMap α) (k k' : String) (v : α)
    (h : m.hasKey k' = true) : (m.set k v).hasKey k' = true := by
  induction m with
  | nil => simp [JSMap.hasKey] at h
  | cons q rest ih =>
    by_cases hk : q.1 = k
    · simp only [JSMap.set, if_pos hk, JSMap.hasKey] at h ⊢
      by_cases hq : q.1 = k'
      · rw [if_pos (hk ▸ hq)]
      · rw [if_neg (fun hkk => hq (hk ▸ hkk))]
        rw [if_neg hq] at h
        exact h
    · simp only [JSMap.set, if_neg hk, JSMap.hasKey] at h ⊢
      by_cases hq : q.1 = k'
      · rw [if_pos hq]
      · rw [if_neg hq] at h ⊢
        exact ih h

/-- The key just `set` is present. -/
theorem JSMap.hasKey_set_self {α : Type} (m : JSMap α) (k : String) (v : α) :
    (m.set k v).hasKey k = true := by
  induction m with
  | nil => simp [JSMap.set, JSMap.hasKey]
  | cons q rest ih =>
    by_cases hk : q.1 = k
    · simp [JSMap.set, if_pos hk, JSMap.hasKey]
    · simp only [JSMap.set, if_neg hk, JSMap.hasKey, if_neg hk]
      exact ih

/-- Keys distinct from the deleted one survive `del`. -/
theorem JSMap.hasKey_del_of {α : Type} (m : JSMap α) (k k' : String)
    (h : m.hasKey k' = true) (hne : k' ≠ k) : (m.del k).hasKey k' = true := by
  induction m with
  | nil => simp [JSMap.hasKey] at h
  | cons q rest ih =>
    by_cases hk : q.1 = k
    · simp only [JSMap.del, if_pos hk]
      simp only [JSMap.hasKey] at h
      rcases eq_or_ne q.1 k' with hq | hq
      · exact absurd (hq ▸ hk) hne
      · rw [if_neg hq] at h
        exact h
    · simp only [JSMap.del, if_neg hk, JSMap.hasKey]
      by_cases hq : q.1 = k'
      · rw [if_pos hq]
      · rw [if_neg hq]
        simp only [JSMap.hasKey, if_neg hq] at h
        exact ih h

/-! ## C4: effective weight on unweighted graphs -/

/-- The two-node one-edge graph A–B built through the public API with the
default (undirected, unweighted) flags; the edge gets the auto id "edge_1"
and stored weight 1. -/
def gPairAB : Graph :=
  (Graph.addEdge
    (Graph.addNode (Graph.addNode Graph.empty (some "A") "" 0 0 []).2
      (some "B") "" 0 0 []).2
    "A" "B" 1 "" none).2

/-- C4 (counterexample): on the unweighted graph A–B, the mutation
`updateEdge("edge_1", {weight: 5})` stores weight 5 and `getEdgeWeight`
then returns 5, not 1, even though `isWeighted` is still false. -/
theorem unweighted_updateEdge_weight_cex :
    (Graph.updateEdge gPairAB "edge_1" { weight := some 5 }).isWeighted = false ∧
    Graph.getEdgeWeight (Graph.updateEdge gPairAB "edge_1" { weight := some 5 })
      "A" "B" = some 5 := by
  exact ⟨by decide, by decide⟩

/-- All stored edge weights are 1 (the invariant `addEdge` maintains on
unweighted graphs). -/
def unitEdgeWeights (g : Graph) : Prop :=
  ∀ e ∈ g.edges.values, e.weight = 1

/-- `addNode` never touches the edge map. -/
theorem addNode_edges_eq (g : Graph) (idArg : Option String) (label : String)
    (x y : Int) (data : List (String × String)) :
    (Graph.addNode g idArg label x y data).2.edges = g.edges := by
  unfold Graph.addNode
  cases hb : Graph.strTruthy idArg <;>
    simp only [hb, Bool.false_eq_true, if_true, if_false] <;> split <;> rfl

/-- `addEdge` either leaves the edge map unchanged (error cases) or inserts
exactly one new edge record built from its arguments, with stored weight
forced to 1 when the graph is unweighted. -/
theorem addEdge_edges_cases (g : Graph) (s t : String) (w : Rat)
    (elbl : String) (eid : Option String) :
    (Graph.addEdge g s t w elbl eid).2.edges = g.edges ∨
    ∃ id lb, (Graph.addEdge g s t w elbl eid).2.edges =
      JSMap.set g.edges id
        { id := id, source := s, target := t,
          weight := if g.isWeighted then w else 1,
          label := lb, directed := g.isDirected } := by
  unfold Graph.addEdge
  by_cases hends : (JSMap.hasKey g.nodes s = true ∧ JSMap.hasKey g.nodes t = true)
  · simp only [hends, not_true_eq_false, if_false]
    cases hb : Graph.strTruthy eid <;>
      simp only [hb, Bool.false_eq_true, if_true, if_false]
    · by_cases hd : Graph.dupEdgeExists
        { g with edgeIdCounter := g.edgeIdCounter + 1 } s t = true
      · rw [if_pos hd]; left; rfl
      · rw [if_neg hd]; right; exact ⟨_, _, rfl⟩
    · by_cases hd : Graph.dupEdgeExists g s t = true
      · rw [if_pos hd]; left; rfl
      · rw [if_neg hd]; right; exact ⟨_, _, rfl⟩
  · simp [hends]

/-- C4 (amended): on a graph all of whose stored edge weights are 1 — as is
the case for any unweighted graph whose edges were created by `addEdge` —
`getEdgeWeight` returns 1 for every connected pair (and the infinite
sentinel otherwise), and this invariant is preserved by `addNode`, `addEdge`
(when `isWeighted` is false), `removeNode`, `removeEdge` and `clear`; it is
*not* preserved by `updateEdge` or `fromJSON`, which store weights verbatim
(see the counterexample). -/
theorem unweighted_effective_weight (g : Graph) (idArg : Option String)
    (label : String) (x y : Int) (data : List (String × String))
    (s t : String) (w : Rat) (elbl : String) (eid : Option String)
    (n i : String) :
    (unitEdgeWeights g →
      ∀ a b, Graph.getEdgeWeight g a b = some 1 ∨ Graph.getEdgeWeight g a b = none)
    ∧ (g.isWeighted = false → unitEdgeWeights g →
        unitEdgeWeights (Graph.addNode g idArg label x y data).2
        ∧ unitEdgeWeights (Graph.addEdge g s t w elbl eid).2
        ∧ unitEdgeWeights (Graph.removeNode g n).2
        ∧ unitEdgeWeights (Graph.removeEdge g i).2
        ∧ unitEdgeWeights g.clear) := by
  constructor
  · intro hinv a b
    unfold Graph.getEdgeWeight
    cases hf : g.edges.values.find? (fun e =>
      decide ((e.source = a ∧ e.target = b) ∨
        (¬g.isDirected = true ∧ e.source = b ∧ e.target = a))) with
    | none => right; simp [hf]
    | some e =>
      left
      have hmem : e ∈ g.edges.values := List.mem_of_find?_eq_some hf
      simp [hf, hinv e hmem]
  · intro hw hinv
    refine ⟨?_, ?_, ?_, ?_, ?_⟩
    · intro e he
      rw [addNode_edges_eq] at he
      exact hinv e he
    · intro e he
      rcases addEdge_edges_cases g s t w elbl eid with hc | ⟨id, lb, hc⟩
      · rw [hc] at he
        exact hinv e he
      · rw [hc] at he
        rcases JSMap.mem_values_set _ _ _ _ he with he' | he'
      
        · rw [he']
          simp [hw]
        · exact hinv e he'
    · intro e he
      unfold Graph.removeNode at he
      by_cases hk : JSMap.hasKey g.nodes n = true
      · simp only [hk, if_true] at he
        exact hinv e (JSMap.mem_values_filter _ _ _ he)
      · simp only [hk, Bool.false_eq_true, if_false] at he
        exact hinv e he
    · intro e he
      unfold Graph.removeEdge at he
      exact hinv e (JSMap.mem_values_del _ _ _ he)
    · intro e he
      simp [Graph.clear, JSMap.values] at he

/-- C4 (witness): the amended statement applied to the concrete unweighted
graph A–B: `getEdgeWeight` yields 1 on the A–B pair, and adding an edge with
a large supplied weight keeps all stored weights at 1. -/
theorem unweighted_effective_weight_witness :
    Graph.getEdgeWeight gPairAB "A" "B" = some 1 ∧
    unitEdgeWeights (Graph.removeEdge gPairAB "edge_1").2 := by
  have h := unweighted_effective_weight gPairAB none "" 0 0 [] "A" "B" 7 "" none "A" "edge_1"
  have hinv : unitEdgeWeights gPairAB := by
    unfold unitEdgeWeights
    decide
  constructor
  · rcases (h.1 hinv) "A" "B" with h1 | h1
    · exact h1
    · exact absurd h1 (by decide)
  · exact (h.2 (by decide) hinv).2.2.2.1

/-! ## C5: edge endpoints reference existing nodes -/

/-- Every edge's source and target are keys of the node map. -/
def endpointsExist (g : Graph) : Prop :=
  ∀ e ∈ g.edges.values,
    g.nodes.hasKey e.source = true ∧ g.nodes.hasKey e.target = true

/-- C5 (counterexample): `updateEdge("edge_1", {source: "Z"})` on the A–B
graph rewrites the stored edge's source to the nonexistent node id "Z", so
after this mutation an edge references a missing node. -/
theorem updateEdge_breaks_endpoints_cex :
    ¬ endpointsExist (Graph.updateEdge gPairAB "edge_1" { source := some "Z" }) := by
  intro h
  have := h { id := "edge_1", source := "Z", target := "B", weight := 1,
              label := "", directed := false } (by decide)
  exact absurd this.1 (by decide)

/-- `addNode` only ever grows the node map. -/
theorem addNode_nodes_hasKey (g : Graph) (idArg : Option String) (label : String)
    (x y : Int) (data : List (String × String)) (k : String)
    (h : g.nodes.hasKey k = true) :
    (Graph.addNode g idArg label x y data).2.nodes.hasKey k = true := by
  unfold Graph.addNode
  cases hb : Graph.strTruthy idArg <;>
    simp only [hb, Bool.false_eq_true, if_true, if_false] <;> split
  · exact h
  · exact JSMap.hasKey_set_of _ _ _ _ h
  · exact h
  · exact JSMap.hasKey_set_of _ _ _ _ h

/-- `addEdge` never touches the node map. -/
theorem addEdge_nodes_eq (g : Graph) (s t : String) (w : Rat)
    (elbl : String) (eid : Option String) :
    (Graph.addEdge g s t w elbl eid).2.nodes = g.nodes := by
  unfold Graph.addEdge
  by_cases hends : (JSMap.hasKey g.nodes s = true ∧ JSMap.hasKey g.nodes t = true)
  · simp only [hends.1, hends.2, and_self, not_true_eq_false, if_false]
    cases hb : Graph.strTruthy eid <;>
      simp only [hb, Bool.false_eq_true, if_true, if_false]
    · by_cases hd : Graph.dupEdgeExists
        { g with edgeIdCounter := g.edgeIdCounter + 1 } s t = true
      · rw [if_pos hd]
      · rw [if_neg hd]
    · by_cases hd : Graph.dupEdgeExists g s t = true
      · rw [if_pos hd]
      · rw [if_neg hd]
  · simp [hends]

/-- C5 (amended): the endpoints-exist invariant is preserved by `addNode`,
`addEdge`, `removeNode`, `removeEdge`, `updateNode`, `updateNodePosition`
and `clear`, and `removeNode(n)` cascades: the surviving edge entries are
exactly the original entries referencing neither endpoint `n`.  The
invariant is *not* preserved by `updateEdge` or `fromJSON`, which accept
arbitrary endpoint ids (see the counterexample). -/
theorem endpoints_invariant (g : Graph) (idArg : Option String) (label : String)
    (x y : Int) (data : List (String × String)) (s t : String) (w : Rat)
    (elbl : String) (eid : Option String) (n i u : String) (p : NodeProps)
    (px py : Int) :
    (endpointsExist g →
      endpointsExist (Graph.addNode g idArg label x y data).2
      ∧ endpointsExist (Graph.addEdge g s t w elbl eid).2
      ∧ endpointsExist (Graph.removeNode g n).2
      ∧ endpointsExist (Graph.removeEdge g i).2
      ∧ endpointsExist (Graph.updateNode g u p)
      ∧ endpointsExist (Graph.updateNodePosition g u px py)
      ∧ endpointsExist g.clear)
    ∧ (∀ q, q ∈ (Graph.removeNode g n).2.edges ↔
        (q ∈ g.edges ∧ (g.nodes.hasKey n = true →
          ¬(q.2.source = n ∨ q.2.target = n)))) := by
  constructor
  · intro hinv
    refine ⟨?_, ?_, ?_, ?_, ?_, ?_, ?_⟩
    · intro e he
      rw [addNode_edges_eq] at he
      have h := hinv e he
      exact ⟨addNode_nodes_hasKey _ _ _ _ _ _ _ h.1,
             addNode_nodes_hasKey _ _ _ _ _ _ _ h.2⟩
    · intro e he
      rw [addEdge_nodes_eq]
      by_cases hends : (JSMap.hasKey g.nodes s = true ∧ JSMap.hasKey g.nodes t = true)
      · rcases addEdge_edges_cases g s t w elbl eid with hc | ⟨id, lb, hc⟩
        · rw [hc] at he
          exact hinv e he
        · rw [hc] at he
          rcases JSMap.mem_values_set _ _ _ _ he with he' | he'
          · subst he'
            exact hends
          · exact hinv e he'
      · have hedges : (Graph.addEdge g s t w elbl eid).2.edges = g.edges := by
          unfold Graph.addEdge
          simp [hends]
        rw [hedges] at he
        exact hinv e he
    · intro e he
      unfold Graph.removeNode at he ⊢
      by_cases hk : JSMap.hasKey g.nodes n = true
      · simp only [hk, if_true] at he ⊢
        have hmem := he
        have hin : e ∈ g.edges.values := JSMap.mem_values_filter _ _ _ hmem
        have href : ¬(e.source = n ∨ e.target = n) := by
          unfold JSMap.values at hmem
          rcases List.mem_map.mp hmem with ⟨q, hq, hqe⟩
          have := List.of_mem_filter hq
          subst hqe
          simpa using this
        have h := hinv e hin
        push_neg at href
        exact ⟨JSMap.hasKey_del_of _ _ _ h.1 href.1,
               JSMap.hasKey_del_of _ _ _ h.2 href.2⟩
      · simp only [hk, Bool.false_eq_true, if_false] at he ⊢
        exact hinv e he
    · intro e he
      unfold Graph.removeEdge at he
      exact hinv e (JSMap.mem_values_del _ _ _ he)
    · intro e he
      unfold Graph.updateNode at he ⊢
      cases hget : JSMap.get g.nodes u with
      | none => simp only [hget] at he ⊢; exact hinv e he
      | some nd =>
        simp only [hget] at he ⊢
        have h := hinv e he
        exact ⟨JSMap.hasKey_set_of _ _ _ _ h.1, JSMap.hasKey_set_of _ _ _ _ h.2⟩
    · intro e he
      unfold Graph.updateNodePosition at he ⊢
      cases hget : JSMap.get g.nodes u with
      | none => simp only [hget] at he ⊢; exact hinv e he
      | some nd =>
        simp only [hget] at he ⊢
        have h := hinv e he
        exact ⟨JSMap.hasKey_set_of _ _ _ _ h.1, JSMap.hasKey_set_of _ _ _ _ h.2⟩
    · intro e he
      simp [Graph.clear, JSMap.values] at he
  · intro q
    unfold Graph.removeNode
    by_cases hk : JSMap.hasKey g.nodes n = true
    · simp only [hk, if_true, List.mem_filter]
      constructor
      · rintro ⟨hq, hb⟩
        refine ⟨hq, fun _ => ?_⟩
        simpa using hb
      · rintro ⟨hq, hb⟩
        exact ⟨hq, by simpa using hb trivial⟩
    · simp only [hk, Bool.false_eq_true, if_false]
      constructor
      · intro hq
        exact ⟨hq, fun habs => habs.elim⟩
      · intro hq
        exact hq.1

/-- C5 (witness): the amended statement applied to the A–B graph: removing
node "A" cascades and leaves the endpoints-exist invariant intact. -/
theorem endpoints_invariant_witness :
    endpointsExist (Graph.removeNode gPairAB "A").2 := by
  have h := (endpoints_invariant gPairAB none "" 0 0 [] "A" "B" 1 "" none
    "A" "edge_1" "A" {} 0 0).1
  exact (h (by unfold endpointsExist; decide)).2.2.1

/-! ## C8: toJSON/fromJSON round trip -/

/-- `set` on an absent key appends the entry. -/
theorem JSMap.set_eq_append {α : Type} (m : JSMap α) (k : String) (v : α)
    (h : m.hasKey k = false) : m.set k v = m ++ [(k, v)] := by
  induction m with
  | nil => rfl
  | cons q rest ih =>
    simp only [JSMap.hasKey] at h
    by_cases hq : q.1 = k
    · rw [if_pos hq] at h
      exact absurd h (by simp)
    · rw [if_neg hq] at h
      simp only [JSMap.set, if_neg hq, List.cons_append, List.cons.injEq, true_and]
      exact ih h

/-- `hasKey` decides membership in the key list. -/
theorem JSMap.hasKey_eq_keys_mem {α : Type} (m : JSMap α) (k : String) :
    m.hasKey k = true ↔ k ∈ m.keys := by
  induction m with
  | nil => simp [JSMap.hasKey, JSMap.keys]
  | cons q rest ih =>
    simp only [JSMap.hasKey, JSMap.keys, List.map_cons, List.mem_cons]
    by_cases hq : q.1 = k
    · rw [if_pos hq]
      simp [hq]
    · rw [if_neg hq]
      rw [ih]
      unfold JSMap.keys
      constructor
      · exact Or.inr
      · rintro (h | h)
        · exact absurd h.symm hq
        · exact h

/-- Folding `set` (keyed by a coherent id field) over the values of a
duplicate-free map rebuilds the map behind any disjoint prefix. -/
theorem foldl_set_rebuild {α : Type} (f : α → String) (m : JSMap α) (acc : JSMap α)
    (hcoh : ∀ p ∈ m, f p.2 = p.1)
    (hnd : (acc.keys ++ m.keys).Nodup) :
    (JSMap.values m).foldl (fun a v => JSMap.set a (f v) v) acc = acc ++ m := by
  induction m generalizing acc with
  | nil => simp [JSMap.values]
  | cons q rest ih =>
    simp only [JSMap.values, List.map_cons, List.foldl_cons]
    have hfq : f q.2 = q.1 := hcoh q (List.mem_cons_self q rest)
    have hknotin : acc.hasKey q.1 = false := by
      rw [Bool.eq_false_iff]
      intro habs
      have hmem := (JSMap.hasKey_eq_keys_mem acc q.1).mp habs
      have : q.1 ∈ JSMap.keys (q :: rest) := by
        simp [JSMap.keys]
      rcases List.nodup_append.mp hnd with ⟨_, _, hdisj⟩
      exact hdisj hmem this
    rw [hfq, JSMap.set_eq_append acc q.1 q.2 hknotin]
    have hstep := ih (acc ++ [(q.1, q.2)])
      (fun p hp => hcoh p (List.mem_cons_of_mem q hp))
      (by
        have : JSMap.keys (acc ++ [(q.1, q.2)]) ++ JSMap.keys rest =
            JSMap.keys acc ++ (q.1 :: JSMap.keys rest) := by
          simp [JSMap.keys]
        rw [this]
        simpa [JSMap.keys] using hnd)
    unfold JSMap.values at hstep
    rw [hstep]
    simp

/-- The one-node graph after the id-rewriting `updateNode("A", {id: "B"})`:
the node map still has key "A" but the stored record's `id` field is "B". -/
def gIdMismatch : Graph := Graph.updateNode gOneNode "A" { id := some "B" }

/-- C8 (counterexample): after `updateNode("A", {id: "B"})` (a public-API
mutation), the snapshot keys the node by its rewritten `id` field, so
`fromJSON(toJSON(g))` re-keys the entry under "B" and does not reproduce
the graph. -/
theorem roundTrip_idMismatch_cex :
    Graph.fromJSON gIdMismatch (Graph.toJSON gIdMismatch) ≠ gIdMismatch := by
  decide

/-- C8 (amended): for every graph whose node and edge entries are keyed by
their own `id` fields with duplicate-free keys and nonzero id counters —
invariants every Graph operation except the id-rewriting
`updateNode`/`updateEdge` maintains — loading `toJSON()` into *any* graph
via `fromJSON` reproduces the original graph exactly (nodes, edges, flags
and counters), fully replacing the previous state. -/
theorem toJSON_fromJSON_roundTrip (g gPrev : Graph)
    (hcohN : ∀ p ∈ g.nodes, p.2.id = p.1)
    (hcohE : ∀ p ∈ g.edges, p.2.id = p.1)
    (hndN : g.nodes.keys.Nodup) (hndE : g.edges.keys.Nodup)
    (hc1 : g.nodeIdCounter ≠ 0) (hc2 : g.edgeIdCounter ≠ 0) :
    Graph.fromJSON gPrev (Graph.toJSON g) = g := by
  unfold Graph.fromJSON Graph.toJSON Graph.clear
  have hn : (JSMap.values g.nodes).foldl
      (fun m (n : Node) => JSMap.set m n.id n) [] = g.nodes := by
    have := foldl_set_rebuild Node.id g.nodes []
      hcohN (by simpa [JSMap.keys] using hndN)
    simpa using this
  have he : (JSMap.values g.edges).foldl
      (fun m (e : Edge) => JSMap.set m e.id e) [] = g.edges := by
    have := foldl_set_rebuild Edge.id g.edges []
      hcohE (by simpa [JSMap.keys] using hndE)
    simpa using this
  simp only [hn, he, hc1, hc2, if_neg, if_false]

/-- C8 (witness): the amended round trip evaluated on the concrete A–B
graph, loaded into the empty graph. -/
theorem toJSON_fromJSON_roundTrip_witness :
    Graph.fromJSON Graph.empty (Graph.toJSON gPairAB) = gPairAB := by
  exact toJSON_fromJSON_roundTrip gPairAB Graph.empty
    (by decide) (by decide) (by decide) (by decide) (by decide) (by decide)

/-! ## C10: connected on elements outside the constructed set -/

/-- `ufGet` after `ufSet` on the same key yields the new value. -/
theorem ufGet_set_self (p : UFMap) (k v : Option String) :
    ufGet (ufSet p k v) k = v := by
  induction p with
  | nil => simp [ufSet, ufGet]
  | cons q rest ih =>
    by_cases hq : q.1 = k
    · simp [ufSet, if_pos hq, ufGet]
    · simp only [ufSet, if_neg hq]
      simp only [ufGet, List.find?]
      rw [show (decide (q.1 = k)) = false by simpa using hq]
      exact ih

/-- `ufGet` after `ufSet` on a different key is unchanged. -/
theorem ufGet_set_ne (p : UFMap) (k k' v : Option String) (h : k' ≠ k) :
    ufGet (ufSet p k v) k' = ufGet p k' := by
  induction p with
  | nil =>
    simp only [ufSet, ufGet, List.find?]
    rw [show (decide (k = k')) = false by simpa using fun hh => h hh.symm]
  | cons q rest ih =>
    by_cases hq : q.1 = k
    · simp only [ufSet, if_pos hq]
      simp only [ufGet, List.find?]
      rw [show (decide (k = k')) = false by simpa using fun hh => h hh.symm]
      rw [show (decide (q.1 = k')) = false by
        simpa using fun hh => h (hh.symm.trans hq)]
    · simp only [ufSet, if_neg hq]
      simp only [ufGet, List.find?]
      cases hd : decide (q.1 = k') with
      | true => rfl
      | false => exact ih

/-- In the constructor's parent map, a key outside the element set (and the
`undefined` key) is absent. -/
theorem create_get_aux (S : List String) (uf0 : UnionFind) (x : Option String)
    (hx : ∀ e ∈ S, x ≠ some e) :
    ufGet (S.foldl (fun uf e =>
      { parent := ufSet uf.parent (some e) (some e),
        rank := rkSet uf.rank (some e) 0 }) uf0).parent x = ufGet uf0.parent x := by
  induction S generalizing uf0 with
  | nil => rfl
  | cons e rest ih =>
    simp only [List.foldl_cons]
    rw [ih _ (fun e' he' => hx e' (List.mem_cons_of_mem e he'))]
    exact ufGet_set_ne _ _ _ _ (hx e (List.mem_cons_self e rest))

/-- A find on the `undefined` key is an immediate fixpoint (when, as in
every state the program builds, `undefined` is not itself a key). -/
theorem findAux_none (p : UFMap) (q : Nat) (hn : ufGet p none = none) :
    UnionFind.findAux q p none = (none, p) := by
  unfold UnionFind.findAux
  rw [if_pos hn]

/-- One compressing find on an element absent from the parent map returns
`undefined` and records `element ↦ undefined`. -/
theorem findAux_unknown (p : UFMap) (x : String) (fuel : Nat)
    (hx : ufGet p (some x) = none) (hn : ufGet p none = none) :
    UnionFind.findAux (fuel + 1) p (some x) =
      (none, ufSet p (some x) none) := by
  rw [show UnionFind.findAux (fuel + 1) p (some x) =
      (if ufGet p (some x) = some x then (some x, p)
       else
        (ufGet (ufSet (UnionFind.findAux fuel p (ufGet p (some x))).2 (some x)
            (UnionFind.findAux fuel p (ufGet p (some x))).1) (some x),
         ufSet (UnionFind.findAux fuel p (ufGet p (some x))).2 (some x)
            (UnionFind.findAux fuel p (ufGet p (some x))).1)) from rfl]
  rw [hx]
  rw [if_neg (by simp)]
  rw [findAux_none p fuel hn]
  rw [ufGet_set_self]

/-- C10: on elements never placed in the disjoint set, `connected` raises no
error (the find chains terminate at `undefined` in one step) and returns
*true*: `find` maps every unknown element to the same absent-representative
value `undefined`, so two never-related elements compare as connected. -/
theorem connected_outside_element_set (S : List String) (a b : String)
    (ha : a ∉ S) (hb : b ∉ S) :
    ((UnionFind.create S).connected a b).1 = true
    ∧ ((UnionFind.create S).find (some a)).1 = none := by
  have hget : ∀ x : Option String, (∀ e ∈ S, x ≠ some e) →
      ufGet (UnionFind.create S).parent x = none := by
    intro x hx
    unfold UnionFind.create
    rw [create_get_aux S _ x hx]
    rfl
  have ha' : ufGet (UnionFind.create S).parent (some a) = none :=
    hget (some a) (fun e he hae => ha (by cases Option.some.inj hae; exact he))
  have hn : ufGet (UnionFind.create S).parent none = none :=
    hget none (fun e _ h => by simp at h)
  have hfindA : (UnionFind.create S).find (some a) =
      (none, (⟨ufSet (UnionFind.create S).parent (some a) none,
              (UnionFind.create S).rank⟩ : UnionFind)) := by
    unfold UnionFind.find
    rw [findAux_unknown _ _ _ ha' hn]
  have hb' : ufGet (ufSet (UnionFind.create S).parent (some a) none)
      (some b) = none := by
    by_cases hab : b = a
    · subst hab
      exact ufGet_set_self _ _ _
    · rw [ufGet_set_ne _ _ _ _ (by simpa using hab)]
      exact hget (some b) (fun e he hbe => hb (by cases Option.some.inj hbe; exact he))
  have hn2 : ufGet (ufSet (UnionFind.create S).parent (some a) none)
      none = none := by
    rw [ufGet_set_ne _ _ _ _ (by simp)]
    exact hn
  have hfindB : (⟨ufSet (UnionFind.create S).parent (some a) none,
      (UnionFind.create S).rank⟩ : UnionFind).find (some b) =
      (none, (⟨ufSet (ufSet (UnionFind.create S).parent (some a) none)
          (some b) none, (UnionFind.create S).rank⟩ : UnionFind)) := by
    unfold UnionFind.find
    rw [findAux_unknown _ _ _ hb' hn2]
  constructor
  · show decide (((UnionFind.create S).find (some a)).1 =
      ((((UnionFind.create S).find (some a)).2).find (some b)).1) = true
    rw [hfindA]
    show decide ((none : Option String) =
      ((⟨ufSet (UnionFind.create S).parent (some a) none,
        (UnionFind.create S).rank⟩ : UnionFind).find (some b)).1) = true
    rw [hfindB]
    rfl
  · rw [hfindA]

/-- C10 (witness): on the disjoint set over {"a","b","c"}, the unknown
elements "x" and "y" compare as connected. -/
theorem connected_outside_element_set_witness :
    ((UnionFind.create ["a", "b", "c"]).connected "x" "y").1 = true := by
  exact (connected_outside_element_set ["a", "b", "c"] "x" "y"
    (by decide) (by decide)).1

/-! ## C9: disjoint-set correctness (path compression, union by rank) -/

/-- Iterating the parent lookup. -/
def ufIterate (p : UFMap) : Nat → Option String → Option String
  | 0, x => x
  | n + 1, x => ufIterate p n (ufGet p x)

/-- A fixpoint of the parent lookup (a root, or the `undefined` sink). -/
def ufFix (p : UFMap) (x : Option String) : Prop := ufGet p x = x

/-- `x` reaches the fixpoint `r` along its parent chain. -/
def rootReach (p : UFMap) (x r : Option String) : Prop :=
  ∃ n, ufIterate p n x = r ∧ ufFix p r

theorem ufIterate_add (p : UFMap) (m k : Nat) (x : Option String) :
    ufIterate p (m + k) x = ufIterate p k (ufIterate p m x) := by
  induction m generalizing x with
  | zero => simp [ufIterate]
  | succ m ih =>
    have : m + 1 + k = (m + k) + 1 := by omega
    rw [this]
    show ufIterate p (m + k) (ufGet p x) = _
    rw [ih]
    rfl

theorem ufFix_iterate (p : UFMap) (r : Option String) (h : ufFix p r) (k : Nat) :
    ufIterate p k r = r := by
  induction k with
  | zero => rfl
  | succ k ih =>
    show ufIterate p k (ufGet p r) = r
    rw [h]
    exact ih

/-- Once the chain hits a fixpoint it stays there, so the fixpoint reached
from a given start is unique. -/
theorem rootReach_unique (p : UFMap) (x r1 r2 : Option String)
    (h1 : rootReach p x r1) (h2 : rootReach p x r2) : r1 = r2 := by
  obtain ⟨n, hn, hfix1⟩ := h1
  obtain ⟨m, hm, hfix2⟩ := h2
  rcases le_total n m with h | h
  · obtain ⟨k, hk⟩ := Nat.exists_eq_add_of_le h
    rw [hk, ufIterate_add, hn, ufFix_iterate p r1 hfix1] at hm
    exact hm
  · obtain ⟨k, hk⟩ := Nat.exists_eq_add_of_le h
    rw [hk, ufIterate_add, hm, ufFix_iterate p r2 hfix2] at hn
    exact hn.symm

/-- A non-fixpoint start shifts the chain to its parent. -/
theorem rootReach_step (p : UFMap) (x r : Option String)
    (hx : ¬ ufFix p x) (h : rootReach p x r) : rootReach p (ufGet p x) r := by
  obtain ⟨n, hn, hfix⟩ := h
  cases n with
  | zero =>
    have hxr : x = r := hn
    exact absurd (hxr ▸ hfix : ufFix p x) hx
  | succ n =>
    exact ⟨n, hn, hfix⟩

theorem rootReach_of_parent (p : UFMap) (x r : Option String)
    (h : rootReach p (ufGet p x) r) : rootReach p x r := by
  obtain ⟨n, hn, hfix⟩ := h
  exact ⟨n + 1, by
    have : (1 : Nat) + n = n + 1 := by omega
    rw [← this, ufIterate_add]
    exact hn, hfix⟩

/-- A `ufGet` hit pins its key to the entry list. -/
theorem ufGet_mem_keys (p : UFMap) (k : Option String) (v : String)
    (h : ufGet p k = some v) : k ∈ p.map Prod.fst := by
  unfold ufGet at h
  cases hf : p.find? (fun q => q.1 = k) with
  | none => rw [hf] at h; exact absurd h (by simp)
  | some q =>
    have hq := List.find?_some hf
    have hmem := List.mem_of_find?_eq_some hf
    have : q.1 = k := by simpa using hq
    exact this ▸ List.mem_map_of_mem Prod.fst hmem

/-- `ufSet` on a present key leaves the key list unchanged. -/
theorem ufSet_keys_of_mem (p : UFMap) (k v : Option String)
    (h : k ∈ p.map Prod.fst) :
    (ufSet p k v).map Prod.fst = p.map Prod.fst := by
  induction p with
  | nil => simp at h
  | cons q rest ih =>
    by_cases hq : q.1 = k
    · simp [ufSet, if_pos hq, hq]
    · simp only [List.map_cons, List.mem_cons] at h
      rcases h with h | h
      · exact absurd h.symm hq
      · simp [ufSet, if_neg hq, ih h]

/-- The well-formedness invariant of the parent map over the element set `S`:
every element's parent is an element, every chain terminates, and the key
list is duplicate-free. -/
def UFInvP (S : List String) (p : UFMap) : Prop :=
  (∀ e ∈ S, ∃ f ∈ S, ufGet p (some e) = some f)
  ∧ (∀ e ∈ S, ∃ r, rootReach p (some e) r)
  ∧ (p.map Prod.fst).Nodup

/-- Chains starting in `S` stay in `S`. -/
theorem chain_in_S (S : List String) (p : UFMap) (hinv : UFInvP S p)
    (e : String) (he : e ∈ S) (n : Nat) :
    ∃ f ∈ S, ufIterate p n (some e) = some f := by
  induction n generalizing e with
  | zero => exact ⟨e, he, rfl⟩
  | succ n ih =>
    obtain ⟨f, hf, hgf⟩ := hinv.1 e he
    have : ufIterate p (n + 1) (some e) = ufIterate p n (some f) := by
      show ufIterate p n (ufGet p (some e)) = _
      rw [hgf]
    rw [this]
    exact ih f hf

/-- Every chain element is a key of the parent map. -/
theorem chain_mem_keys (S : List String) (p : UFMap) (hinv : UFInvP S p)
    (e : String) (he : e ∈ S) (n : Nat) :
    ufIterate p n (some e) ∈ p.map Prod.fst := by
  obtain ⟨f, hf, hit⟩ := chain_in_S S p hinv e he n
  obtain ⟨f', _, hgf'⟩ := hinv.1 f hf
  rw [hit]
  exact ufGet_mem_keys p (some f) f' hgf'

/-- Pigeonhole: under the invariant, the root is reached in fewer than
`p.length` steps (the minimal chain is duplicate-free inside the key list). -/
theorem root_fuel_bound (S : List String) (p : UFMap) (hinv : UFInvP S p)
    (e : String) (he : e ∈ S) :
    ∃ n r, n < p.length ∧ ufIterate p n (some e) = r ∧ ufFix p r := by
  obtain ⟨r0, m, hm, hfix0⟩ := hinv.2.1 e he
  have hex : ∃ k, ufGet p (ufIterate p k (some e)) = ufIterate p k (some e) :=
    ⟨m, by rw [hm]; exact hfix0⟩
  classical
  let n := Nat.find hex
  have hn : ufGet p (ufIterate p n (some e)) = ufIterate p n (some e) :=
    Nat.find_spec hex
  have hmin : ∀ j < n, ¬ ufGet p (ufIterate p j (some e)) = ufIterate p j (some e) :=
    fun j hj => Nat.find_min hex hj
  have hdistinct : ∀ i j, i < j → j ≤ n →
      ufIterate p i (some e) ≠ ufIterate p j (some e) := by
    intro i j hij hjn heq
    have hshift : ∀ t, ufIterate p (i + t) (some e) = ufIterate p (j + t) (some e) := by
      intro t
      rw [ufIterate_add, ufIterate_add, heq]
    have hlt : i + (n - j) < n := by omega
    have hP : ufGet p (ufIterate p (i + (n - j)) (some e)) =
        ufIterate p (i + (n - j)) (some e) := by
      rw [hshift (n - j)]
      have : j + (n - j) = n := by omega
      rw [this]
      exact hn
    exact hmin _ hlt hP
  have hchainnodup : ((List.range (n + 1)).map
      (fun i => ufIterate p i (some e))).Nodup := by
    refine List.Nodup.map_on ?_ (List.nodup_range (n + 1))
    intro i hi j hj hij
    by_contra hne
    rcases Nat.lt_or_ge i j with h | h
    · exact hdistinct i j h (by simpa using Nat.lt_succ_iff.mp (List.mem_range.mp hj)) hij
    · rcases Nat.lt_or_ge j i with h' | h'
      · exact hdistinct j i h' (by simpa using Nat.lt_succ_iff.mp (List.mem_range.mp hi)) hij.symm
      · exact hne (by omega)
  have hsub : ((List.range (n + 1)).map (fun i => ufIterate p i (some e))) ⊆
      p.map Prod.fst := by
    intro k hk
    rcases List.mem_map.mp hk with ⟨i, _, hik⟩
    rw [← hik]
    exact chain_mem_keys S p hinv e he i
  have hle : n + 1 ≤ p.length := by
    have := (List.subperm_of_subset hchainnodup hsub).length_le
    simpa using this
  exact ⟨n, ufIterate p n (some e), by omega, rfl, hn⟩

/-- Rewriting the entry of a non-root `x` straight to its own root preserves
the key list, the invariant, and every chain's root. -/
theorem compress_set_spec (S : List String) (p : UFMap) (hinv : UFInvP S p)
    (x r : Option String) (hx : ¬ ufFix p x) (hroot : rootReach p x r)
    (hxS : ∃ e ∈ S, x = some e) :
    (ufSet p x r).map Prod.fst = p.map Prod.fst
    ∧ (∀ y rr, rootReach p y rr ↔ rootReach (ufSet p x r) y rr)
    ∧ UFInvP S (ufSet p x r) := by
  have hrne : r ≠ x := by
    intro h
    obtain ⟨n, hn, hfix⟩ := hroot
    exact hx (h ▸ hfix)
  have hrfix' : ufFix (ufSet p x r) r := by
    show ufGet (ufSet p x r) r = r
    rw [ufGet_set_ne p x r r hrne]
    exact hroot.choose_spec.2
  have hgetx : ufGet (ufSet p x r) x = r := ufGet_set_self p x r
  have hget_ne : ∀ z, z ≠ x → ufGet (ufSet p x r) z = ufGet p z :=
    fun z hz => ufGet_set_ne p x z r hz
  have hkeys : (ufSet p x r).map Prod.fst = p.map Prod.fst := by
    obtain ⟨e, heS, hxe⟩ := hxS
    obtain ⟨f, _, hgf⟩ := hinv.1 e heS
    exact ufSet_keys_of_mem p x r (ufGet_mem_keys p x f (hxe ▸ hgf))
  have hfwd : ∀ n y rr, ufIterate p n y = rr → ufFix p rr →
      rootReach (ufSet p x r) y rr := by
    intro n
    induction n using Nat.strong_induction_on with
    | _ n ih =>
      intro y rr hit hfix
      by_cases hyx : y = x
      · subst hyx
        have hrr : rr = r := rootReach_unique p y rr r ⟨n, hit, hfix⟩ hroot
        subst hrr
        exact rootReach_of_parent _ y rr (by rw [hgetx]; exact ⟨0, rfl, hrfix'⟩)
      · by_cases hyfix : ufFix p y
        · have hrry : rr = y := rootReach_unique p y rr y ⟨n, hit, hfix⟩ ⟨0, rfl, hyfix⟩
          subst hrry
          exact ⟨0, rfl, by show ufGet _ rr = rr; rw [hget_ne rr hyx]; exact hyfix⟩
        · cases n with
          | zero =>
            have : y = rr := hit
            subst this
            exact absurd hfix hyfix
          | succ n =>
            have hstep : ufIterate p n (ufGet p y) = rr := hit
            have hr := ih n (by omega) (ufGet p y) rr hstep hfix
            exact rootReach_of_parent _ y rr (by rw [hget_ne y hyx]; exact hr)
  have hbwd : ∀ n y rr, ufIterate (ufSet p x r) n y = rr →
      ufFix (ufSet p x r) rr → rootReach p y rr := by
    intro n
    induction n using Nat.strong_induction_on with
    | _ n ih =>
      intro y rr hit hfix
      by_cases hyx : y = x
      · have hreach' : rootReach (ufSet p x r) x r :=
          rootReach_of_parent (ufSet p x r) x r
            (by rw [hgetx]; exact ⟨0, rfl, hrfix'⟩)
        have hit' : ufIterate (ufSet p x r) n x = rr := hyx ▸ hit
        have hrr : rr = r := rootReach_unique _ x rr r ⟨n, hit', hfix⟩ hreach'
        rw [hyx, hrr]
        exact hroot
      · by_cases hyfix : ufFix (ufSet p x r) y
        · have hrry : rr = y := rootReach_unique _ y rr y ⟨n, hit, hfix⟩ ⟨0, rfl, hyfix⟩
          subst hrry
          exact ⟨0, rfl, by
            show ufGet p rr = rr
            rw [← hget_ne rr hyx]
            exact hyfix⟩
        · cases n with
          | zero =>
            have : y = rr := hit
            subst this
            exact absurd hfix hyfix
          | succ n =>
            have hstep : ufIterate (ufSet p x r) n (ufGet (ufSet p x r) y) = rr := hit
            have hr := ih n (by omega) _ rr hstep hfix
            rw [hget_ne y hyx] at hr
            exact rootReach_of_parent p y rr hr
  have hiff : ∀ y rr, rootReach p y rr ↔ rootReach (ufSet p x r) y rr := by
    intro y rr
    constructor
    · rintro ⟨n, hn, hfix⟩
      exact hfwd n y rr hn hfix
    · rintro ⟨n, hn, hfix⟩
      exact hbwd n y rr hn hfix
  refine ⟨hkeys, hiff, ?_, ?_, ?_⟩
  · intro e he
    obtain ⟨f, hf, hgf⟩ := hinv.1 e he
    by_cases hex : (some e : Option String) = x
    · obtain ⟨e0, he0, hxe0⟩ := hxS
      obtain ⟨n0, hn0, hfix0⟩ := hroot
      obtain ⟨fr, hfr, hitfr⟩ := chain_in_S S p hinv e0 he0 n0
      have : r = some fr := by rw [← hn0, hxe0, hitfr]
      exact ⟨fr, hfr, by rw [hex, hgetx, this]⟩
    · exact ⟨f, hf, by rw [hget_ne (some e) hex]; exact hgf⟩
  · intro e he
    obtain ⟨rr, hrr⟩ := hinv.2.1 e he
    exact ⟨rr, (hiff (some e) rr).mp hrr⟩
  · rw [hkeys]
    exact hinv.2.2

/-- Linking one root under another (the union step) preserves the key list
and the invariant, and remaps exactly the linked root's class onto the
surviving root. -/
theorem link_set_spec (S : List String) (p : UFMap) (hinv : UFInvP S p)
    (r1 r2 : Option String) (h1 : ufFix p r1) (h2 : ufFix p r2)
    (hne : r1 ≠ r2) (h1S : ∃ e ∈ S, r1 = some e) (h2S : ∃ e ∈ S, r2 = some e) :
    (ufSet p r2 r1).map Prod.fst = p.map Prod.fst
    ∧ (∀ y rr, rootReach p y rr →
        rootReach (ufSet p r2 r1) y (if rr = r2 then r1 else rr))
    ∧ UFInvP S (ufSet p r2 r1) := by
  have hget2 : ufGet (ufSet p r2 r1) r2 = r1 := ufGet_set_self p r2 r1
  have hget_ne : ∀ z, z ≠ r2 → ufGet (ufSet p r2 r1) z = ufGet p z :=
    fun z hz => ufGet_set_ne p r2 z r1 hz
  have h1fix' : ufFix (ufSet p r2 r1) r1 := by
    show ufGet _ r1 = r1
    rw [hget_ne r1 hne]
    exact h1
  have hkeys : (ufSet p r2 r1).map Prod.fst = p.map Prod.fst := by
    obtain ⟨e, heS, h2e⟩ := h2S
    have : ufGet p r2 = some e := by rw [← h2e]; exact h2
    exact ufSet_keys_of_mem p r2 r1 (ufGet_mem_keys p r2 e this)
  have hreach2 : rootReach (ufSet p r2 r1) r2 r1 :=
    rootReach_of_parent _ r2 r1 (by rw [hget2]; exact ⟨0, rfl, h1fix'⟩)
  have hfwd : ∀ n y rr, ufIterate p n y = rr → ufFix p rr →
      rootReach (ufSet p r2 r1) y (if rr = r2 then r1 else rr) := by
    intro n
    induction n using Nat.strong_induction_on with
    | _ n ih =>
      intro y rr hit hfix
      by_cases hyfix : ufFix p y
      · have hrry : rr = y :=
          rootReach_unique p y rr y ⟨n, hit, hfix⟩ ⟨0, rfl, hyfix⟩
        subst hrry
        by_cases hy2 : rr = r2
        · rw [if_pos hy2, hy2]
          exact hreach2
        · rw [if_neg hy2]
          exact ⟨0, rfl, by show ufGet _ rr = rr; rw [hget_ne rr hy2]; exact hyfix⟩
      · cases n with
        | zero =>
          have : y = rr := hit
          subst this
          exact absurd hfix hyfix
        | succ n =>
          have hstep : ufIterate p n (ufGet p y) = rr := hit
          have hr := ih n (by omega) (ufGet p y) rr hstep hfix
          have hy2 : y ≠ r2 := fun h => hyfix (h ▸ h2)
          exact rootReach_of_parent _ y _ (by rw [hget_ne y hy2]; exact hr)
  refine ⟨hkeys, ?_, ?_, ?_, ?_⟩
  · rintro y rr ⟨n, hn, hfix⟩
    exact hfwd n y rr hn hfix
  · intro e he
    obtain ⟨f, hf, hgf⟩ := hinv.1 e he
    by_cases he2 : (some e : Option String) = r2
    · obtain ⟨e1, he1, h1e1⟩ := h1S
      exact ⟨e1, he1, by rw [he2, hget2, h1e1]⟩
    · exact ⟨f, hf, by rw [hget_ne (some e) he2]; exact hgf⟩
  · intro e he
    obtain ⟨rr, n, hn, hfix⟩ := hinv.2.1 e he
    exact ⟨_, hfwd n (some e) rr hn hfix⟩
  · rw [hkeys]
    exact hinv.2.2

/-- `find` on a root returns immediately without touching the state. -/
theorem findAux_fix (fuel : Nat) (p : UFMap) (x : Option String)
    (h : ufFix p x) : UnionFind.findAux fuel p x = (x, p) := by
  unfold UnionFind.findAux
  cases fuel <;> rw [if_pos (show ufGet p x = x from h)]

/-- The one-step unfolding of `findAux` at positive fuel. -/
theorem findAux_eq (fuel : Nat) (p : UFMap) (x : Option String) :
    UnionFind.findAux (fuel + 1) p x =
      if ufGet p x = x then (x, p)
      else
        (ufGet (ufSet (UnionFind.findAux fuel p (ufGet p x)).2 x
            (UnionFind.findAux fuel p (ufGet p x)).1) x,
         ufSet (UnionFind.findAux fuel p (ufGet p x)).2 x
            (UnionFind.findAux fuel p (ufGet p x)).1) := rfl

/-- Full correctness of the compressing find: with fuel exceeding the chain
length it returns the chain's root and compresses without changing any
root, the key list, or the invariant. -/
theorem findAux_spec (S : List String) (p : UFMap) (hinv : UFInvP S p) :
    ∀ n fuel x rr, n < fuel → ufIterate p n x = rr → ufFix p rr →
    (∃ e ∈ S, x = some e) →
    (UnionFind.findAux fuel p x).1 = rr
    ∧ (UnionFind.findAux fuel p x).2.map Prod.fst = p.map Prod.fst
    ∧ (∀ y r2, rootReach p y r2 ↔ rootReach (UnionFind.findAux fuel p x).2 y r2)
    ∧ UFInvP S (UnionFind.findAux fuel p x).2 := by
  intro n
  induction n using Nat.strong_induction_on with
  | _ n ih =>
    intro fuel x rr hfuel hit hfix hxS
    by_cases hxfix : ufFix p x
    · have hrx : rr = x :=
        rootReach_unique p x rr x ⟨n, hit, hfix⟩ ⟨0, rfl, hxfix⟩
      rw [findAux_fix fuel p x hxfix, hrx]
      exact ⟨rfl, rfl, fun y r2 => Iff.rfl, hinv⟩
    · cases n with
      | zero =>
        have : x = rr := hit
        exact absurd (this ▸ hfix : ufFix p x) hxfix
      | succ m =>
        cases fuel with
        | zero => omega
        | succ f =>
          have hstep : ufIterate p m (ufGet p x) = rr := hit
          have hzS : ∃ e ∈ S, ufGet p x = some e := by
            obtain ⟨e, he, hxe⟩ := hxS
            obtain ⟨f', hf', hgf'⟩ := hinv.1 e he
            exact ⟨f', hf', by rw [hxe]; exact hgf'⟩
          have hIH := ih m (by omega) f (ufGet p x) rr (by omega) hstep hfix hzS
          obtain ⟨hr1, hkeys1, hiff1, hinv1⟩ := hIH
          have hreach_x : rootReach p x rr := ⟨m + 1, hit, hfix⟩
          have hroot1 : rootReach (UnionFind.findAux f p (ufGet p x)).2 x rr :=
            (hiff1 x rr).mp hreach_x
          have hx1 : ¬ ufFix (UnionFind.findAux f p (ufGet p x)).2 x := by
            intro habs
            have : rootReach (UnionFind.findAux f p (ufGet p x)).2 x x :=
              ⟨0, rfl, habs⟩
            have hxrr : rr = x := rootReach_unique _ x rr x hroot1 this
            exact hxfix (hxrr ▸ hfix)
          have hcomp := compress_set_spec S (UnionFind.findAux f p (ufGet p x)).2
            hinv1 x rr hx1 hroot1 hxS
          rw [findAux_eq, if_neg (show ¬ ufGet p x = x from hxfix)]
          rw [hr1]
          refine ⟨?_, ?_, ?_, ?_⟩
          · exact ufGet_set_self _ x rr
          · rw [hcomp.1, hkeys1]
          · intro y r2
            exact (hiff1 y r2).trans (hcomp.2.1 y r2)
          · exact hcomp.2.2

/-- `ufSet` on an absent key appends it. -/
theorem ufSet_keys_of_not_mem (p : UFMap) (k v : Option String)
    (h : k ∉ p.map Prod.fst) :
    (ufSet p k v).map Prod.fst = p.map Prod.fst ++ [k] := by
  induction p with
  | nil => simp [ufSet]
  | cons q rest ih =>
    simp only [List.map_cons, List.mem_cons] at h
    push_neg at h
    unfold ufSet
    rw [if_neg (fun hh => h.1 hh.symm)]
    simp only [List.map_cons, List.cons_append, List.cons.injEq, true_and]
    exact ih h.2

/-- In the constructor's parent map every element of `S` is its own parent. -/
theorem create_get_self (S : List String) (e : String) :
    ∀ uf0 : UnionFind, (e ∈ S ∨ ufGet uf0.parent (some e) = some e) →
    ufGet (S.foldl (fun uf e' =>
      { parent := ufSet uf.parent (some e') (some e'),
        rank := rkSet uf.rank (some e') 0 }) uf0).parent (some e) = some e := by
  induction S with
  | nil =>
    intro uf0 h
    rcases h with h | h
    · simp at h
    · exact h
  | cons f rest ih =>
    intro uf0 h
    simp only [List.foldl_cons]
    apply ih
    rcases h with h | h
    · rcases List.mem_cons.mp h with h | h
      · right
        rw [h]
        exact ufGet_set_self _ _ _
      · left; exact h
    · by_cases hef : (some e : Option String) = some f
      · right
        rw [hef]
        exact ufGet_set_self _ _ _
      · right
        rw [ufGet_set_ne _ _ _ _ hef]
        exact h

/-- The constructor's key list is duplicate-free. -/
theorem create_keys_nodup (S : List String) :
    ∀ uf0 : UnionFind, (uf0.parent.map Prod.fst).Nodup →
    ((S.foldl (fun uf e' =>
      { parent := ufSet uf.parent (some e') (some e'),
        rank := rkSet uf.rank (some e') 0 }) uf0).parent.map Prod.fst).Nodup := by
  induction S with
  | nil => exact fun uf0 h => h
  | cons f rest ih =>
    intro uf0 h
    simp only [List.foldl_cons]
    apply ih
    by_cases hf : (some f : Option String) ∈ uf0.parent.map Prod.fst
    · rw [ufSet_keys_of_mem _ _ _ hf]
      exact h
    · rw [ufSet_keys_of_not_mem _ _ _ hf]
      refine List.nodup_append.mpr ⟨h, List.nodup_singleton _, ?_⟩
      intro x hx hxk
      rw [List.mem_singleton] at hxk
      exact hf (hxk ▸ hx)

/-- The constructor establishes the invariant. -/
theorem create_inv (S : List String) : UFInvP S (UnionFind.create S).parent := by
  refine ⟨?_, ?_, ?_⟩
  · intro e he
    exact ⟨e, he, create_get_self S e _ (Or.inl he)⟩
  · intro e he
    have hfix : ufFix (UnionFind.create S).parent (some e) :=
      create_get_self S e _ (Or.inl he)
    exact ⟨some e, 0, rfl, hfix⟩
  · exact create_keys_nodup S _ (by simp)

/-- The root reached from an element of `S` names an element of `S`. -/
theorem rootReach_in_S (S : List String) (p : UFMap) (hinv : UFInvP S p)
    (e : String) (he : e ∈ S) (r : Option String)
    (h : rootReach p (some e) r) : ∃ f ∈ S, r = some f := by
  obtain ⟨n, hn, _⟩ := h
  obtain ⟨f, hf, hit⟩ := chain_in_S S p hinv e he n
  exact ⟨f, hf, by rw [← hn, hit]⟩

/-- Specification of the public `find`: it returns the chain's root and
compresses without changing any root, the key list, the invariant, or the
rank map. -/
theorem find_spec (S : List String) (uf : UnionFind) (hinv : UFInvP S uf.parent)
    (e : String) (he : e ∈ S) :
    rootReach uf.parent (some e) (uf.find (some e)).1
    ∧ (uf.find (some e)).2.parent.map Prod.fst = uf.parent.map Prod.fst
    ∧ (∀ y r2, rootReach uf.parent y r2 ↔
        rootReach (uf.find (some e)).2.parent y r2)
    ∧ UFInvP S (uf.find (some e)).2.parent
    ∧ (uf.find (some e)).2.rank = uf.rank := by
  obtain ⟨n, r, hlt, hit, hfix⟩ := root_fuel_bound S uf.parent hinv e he
  have hspec := findAux_spec S uf.parent hinv n (uf.parent.length + 1) (some e) r
    (by omega) hit hfix ⟨e, he, rfl⟩
  obtain ⟨h1, h2, h3, h4⟩ := hspec
  have hfind1 : (uf.find (some e)).1 =
      (UnionFind.findAux (uf.parent.length + 1) uf.parent (some e)).1 := rfl
  have hfind2 : (uf.find (some e)).2.parent =
      (UnionFind.findAux (uf.parent.length + 1) uf.parent (some e)).2 := rfl
  refine ⟨?_, ?_, ?_, ?_, rfl⟩
  · rw [hfind1, h1]
    exact ⟨n, hit, hfix⟩
  · rw [hfind2, h2]
  · intro y r2
    rw [hfind2]
    exact h3 y r2
  · rw [hfind2]
    exact h4

/-- Specification of `connected`: the boolean compares the two roots, and
the state is only compressed (roots, keys, invariant, rank unchanged). -/
theorem connected_spec (S : List String) (uf : UnionFind)
    (hinv : UFInvP S uf.parent) (a b : String) (ha : a ∈ S) (hb : b ∈ S) :
    ((uf.connected a b).1 = true ↔
      ∃ r, rootReach uf.parent (some a) r ∧ rootReach uf.parent (some b) r)
    ∧ UFInvP S (uf.connected a b).2.parent
    ∧ (∀ y r2, rootReach uf.parent y r2 ↔
        rootReach (uf.connected a b).2.parent y r2)
    ∧ (uf.connected a b).2.parent.map Prod.fst = uf.parent.map Prod.fst := by
  obtain ⟨hrA, hkA, hiffA, hinvA, _⟩ := find_spec S uf hinv a ha
  obtain ⟨hrB, hkB, hiffB, hinvB, _⟩ := find_spec S (uf.find (some a)).2 hinvA b hb
  have hconn1 : (uf.connected a b).1 =
      decide ((uf.find (some a)).1 = ((uf.find (some a)).2.find (some b)).1) := rfl
  have hconn2 : (uf.connected a b).2 = ((uf.find (some a)).2.find (some b)).2 := rfl
  have hrB' : rootReach uf.parent (some b) ((uf.find (some a)).2.find (some b)).1 :=
    (hiffA (some b) _).mpr hrB
  refine ⟨?_, ?_, ?_, ?_⟩
  · rw [hconn1]
    simp only [decide_eq_true_eq]
    constructor
    · intro heq
      exact ⟨(uf.find (some a)).1, hrA, heq ▸ hrB'⟩
    · rintro ⟨r, hra, hrb⟩
      have h1 : (uf.find (some a)).1 = r := rootReach_unique _ _ _ _ hrA hra
      have h2 : ((uf.find (some a)).2.find (some b)).1 = r :=
        rootReach_unique _ _ _ _ hrB' hrb
      rw [h1, h2]
  · rw [hconn2]
    exact hinvB
  · intro y r2
    rw [hconn2]
    exact (hiffA y r2).trans (hiffB y r2)
  · rw [hconn2, hkB, hkA]

/-- Specification of `union`: the invariant survives and afterwards the two
arguments reach one common root. -/
theorem union_spec (S : List String) (uf : UnionFind) (hinv : UFInvP S uf.parent)
    (a b : String) (ha : a ∈ S) (hb : b ∈ S) :
    UFInvP S (uf.union a b).parent
    ∧ (∃ r, rootReach (uf.union a b).parent (some a) r ∧
            rootReach (uf.union a b).parent (some b) r) := by
  obtain ⟨hrA, hkA, hiffA, hinvA, _⟩ := find_spec S uf hinv a ha
  obtain ⟨hrB, hkB, hiffB, hinvB, _⟩ := find_spec S (uf.find (some a)).2 hinvA b hb
  have hrootA : rootReach ((uf.find (some a)).2.find (some b)).2.parent (some a)
      (uf.find (some a)).1 :=
    (hiffB _ _).mp ((hiffA _ _).mp hrA)
  have hrootB : rootReach ((uf.find (some a)).2.find (some b)).2.parent (some b)
      ((uf.find (some a)).2.find (some b)).1 :=
    (hiffB _ _).mp hrB
  have hr1S : ∃ f ∈ S, (uf.find (some a)).1 = some f :=
    rootReach_in_S S uf.parent hinv a ha _ hrA
  have hr2S : ∃ f ∈ S, ((uf.find (some a)).2.find (some b)).1 = some f :=
    rootReach_in_S S (uf.find (some a)).2.parent hinvA b hb _ hrB
  obtain ⟨nA, hitA, hfixA⟩ := hrootA
  obtain ⟨nB, hitB, hfixB⟩ := hrootB
  by_cases h12 : (uf.find (some a)).1 = ((uf.find (some a)).2.find (some b)).1
  · have hcase : uf.union a b = ((uf.find (some a)).2.find (some b)).2 := by
      unfold UnionFind.union
      rw [if_pos h12]
    rw [hcase]
    exact ⟨hinvB, ⟨_, ⟨nA, hitA, hfixA⟩, h12 ▸ ⟨nB, hitB, hfixB⟩⟩⟩
  · have hne21 : ((uf.find (some a)).2.find (some b)).1 ≠ (uf.find (some a)).1 :=
      fun h => h12 h.symm
    by_cases hlt12 : jsLtNat
        (rkGet ((uf.find (some a)).2.find (some b)).2.rank (uf.find (some a)).1)
        (rkGet ((uf.find (some a)).2.find (some b)).2.rank
          ((uf.find (some a)).2.find (some b)).1) = true
    · have hcase : uf.union a b =
          { ((uf.find (some a)).2.find (some b)).2 with
            parent := ufSet ((uf.find (some a)).2.find (some b)).2.parent
              (uf.find (some a)).1 ((uf.find (some a)).2.find (some b)).1 } := by
        unfold UnionFind.union
        rw [if_neg h12, if_pos hlt12]
      have hlink := link_set_spec S ((uf.find (some a)).2.find (some b)).2.parent
        hinvB _ _ hfixB hfixA hne21 hr2S hr1S
      rw [hcase]
      refine ⟨hlink.2.2, ?_⟩
      refine ⟨((uf.find (some a)).2.find (some b)).1, ?_, ?_⟩
      · have := hlink.2.1 (some a) (uf.find (some a)).1 ⟨nA, hitA, hfixA⟩
        simpa using this
      · have := hlink.2.1 (some b) ((uf.find (some a)).2.find (some b)).1
          ⟨nB, hitB, hfixB⟩
        rw [if_neg hne21] at this
        exact this
    · have hlink := link_set_spec S ((uf.find (some a)).2.find (some b)).2.parent
        hinvB _ _ hfixA hfixB h12 hr1S hr2S
      by_cases hlt21 : jsLtNat
          (rkGet ((uf.find (some a)).2.find (some b)).2.rank
            ((uf.find (some a)).2.find (some b)).1)
          (rkGet ((uf.find (some a)).2.find (some b)).2.rank
            (uf.find (some a)).1) = true
      · have hcase : uf.union a b =
            { ((uf.find (some a)).2.find (some b)).2 with
              parent := ufSet ((uf.find (some a)).2.find (some b)).2.parent
                ((uf.find (some a)).2.find (some b)).1 (uf.find (some a)).1 } := by
          unfold UnionFind.union
          rw [if_neg h12, if_neg hlt12, if_pos hlt21]
        rw [hcase]
        refine ⟨hlink.2.2, ?_⟩
        refine ⟨(uf.find (some a)).1, ?_, ?_⟩
        · have := hlink.2.1 (some a) (uf.find (some a)).1 ⟨nA, hitA, hfixA⟩
          rw [if_neg h12] at this
          exact this
        · have := hlink.2.1 (some b) ((uf.find (some a)).2.find (some b)).1
            ⟨nB, hitB, hfixB⟩
          simpa using this
      · have hcase : uf.union a b =
            { parent := ufSet ((uf.find (some a)).2.find (some b)).2.parent
                ((uf.find (some a)).2.find (some b)).1 (uf.find (some a)).1,
              rank := rkSet ((uf.find (some a)).2.find (some b)).2.rank
                (uf.find (some a)).1
                ((rkGet ((uf.find (some a)).2.find (some b)).2.rank
                  (uf.find (some a)).1).getD 0 + 1) } := by
          unfold UnionFind.union
          rw [if_neg h12, if_neg hlt12, if_neg hlt21]
        rw [hcase]
        refine ⟨hlink.2.2, ?_⟩
        refine ⟨(uf.find (some a)).1, ?_, ?_⟩
        · have := hlink.2.1 (some a) (uf.find (some a)).1 ⟨nA, hitA, hfixA⟩
          rw [if_neg h12] at this
          exact this
        · have := hlink.2.1 (some b) ((uf.find (some a)).2.find (some b)).1
            ⟨nB, hitB, hfixB⟩
          simpa using this

/-- An operation on the disjoint set: a (compressing) `find` or a `union`. -/
inductive UFOp where
  | findOp (x : String)
  | unionOp (a b : String)
  deriving DecidableEq, Repr

/-- State effect of one operation. -/
def applyOp (uf : UnionFind) : UFOp → UnionFind
  | .findOp x => (uf.find (some x)).2
  | .unionOp a b => uf.union a b

/-- State after a sequence of operations. -/
def runOps (uf : UnionFind) (ops : List UFOp) : UnionFind :=
  ops.foldl applyOp uf

/-- The operation's arguments lie in the element set. -/
def opInS (S : List String) : UFOp → Prop
  | .findOp x => x ∈ S
  | .unionOp a b => a ∈ S ∧ b ∈ S

/-- The invariant survives any valid operation sequence. -/
theorem runOps_inv (S : List String) (ops : List UFOp) :
    ∀ uf : UnionFind, (∀ op ∈ ops, opInS S op) → UFInvP S uf.parent →
    UFInvP S (runOps uf ops).parent := by
  induction ops with
  | nil => exact fun uf _ h => h
  | cons op rest ih =>
    intro uf hops hinv
    have hop : opInS S op := hops op (List.mem_cons_self op rest)
    have hrest : ∀ op' ∈ rest, opInS S op' :=
      fun op' h => hops op' (List.mem_cons_of_mem op h)
    show UFInvP S (runOps (applyOp uf op) rest).parent
    apply ih _ hrest
    cases op with
    | findOp x => exact (find_spec S uf hinv x hop).2.2.2.1
    | unionOp a b => exact (union_spec S uf hinv a b hop.1 hop.2).1

/-- C9: on a `UnionFind` built over `S` and evolved by any valid sequence of
`find` and `union` operations, `union(a,b)` makes `connected(a,b)` true;
`connected` is reflexive, symmetric and transitive; and a compressing `find`
changes no future find result. -/
theorem disjointSet_connected_equivalence (S : List String) (ops : List UFOp)
    (a b c : String) (ha : a ∈ S) (hb : b ∈ S) (hc : c ∈ S)
    (hops : ∀ op ∈ ops, opInS S op) :
    (((runOps (UnionFind.create S) ops).union a b).connected a b).1 = true
    ∧ ((runOps (UnionFind.create S) ops).connected a a).1 = true
    ∧ (((runOps (UnionFind.create S) ops).connected a b).1 = true →
        ((runOps (UnionFind.create S) ops).connected b a).1 = true)
    ∧ (((runOps (UnionFind.create S) ops).connected a b).1 = true →
        ((runOps (UnionFind.create S) ops).connected b c).1 = true →
        ((runOps (UnionFind.create S) ops).connected a c).1 = true)
    ∧ (∀ x y, x ∈ S → y ∈ S →
        (((runOps (UnionFind.create S) ops).find (some y)).2.find (some x)).1 =
        ((runOps (UnionFind.create S) ops).find (some x)).1) := by
  have hinvU : UFInvP S (runOps (UnionFind.create S) ops).parent :=
    runOps_inv S ops (UnionFind.create S) hops (create_inv S)
  refine ⟨?_, ?_, ?_, ?_, ?_⟩
  · obtain ⟨hinvW, r, hra, hrb⟩ :=
      union_spec S (runOps (UnionFind.create S) ops) hinvU a b ha hb
    exact (connected_spec S _ hinvW a b ha hb).1.mpr ⟨r, hra, hrb⟩
  · obtain ⟨r, hr⟩ := hinvU.2.1 a ha
    exact (connected_spec S _ hinvU a a ha ha).1.mpr ⟨r, hr, hr⟩
  · intro hab
    obtain ⟨r, hra, hrb⟩ := (connected_spec S _ hinvU a b ha hb).1.mp hab
    exact (connected_spec S _ hinvU b a hb ha).1.mpr ⟨r, hrb, hra⟩
  · intro hab hbc
    obtain ⟨r, hra, hrb⟩ := (connected_spec S _ hinvU a b ha hb).1.mp hab
    obtain ⟨r', hrb', hrc⟩ := (connected_spec S _ hinvU b c hb hc).1.mp hbc
    have : r = r' := rootReach_unique _ _ _ _ hrb hrb'
    exact (connected_spec S _ hinvU a c ha hc).1.mpr ⟨r, hra, this ▸ hrc⟩
  · intro x y hx hy
    obtain ⟨hrY, _, hiffY, hinvY, _⟩ :=
      find_spec S (runOps (UnionFind.create S) ops) hinvU y hy
    obtain ⟨hrX2, _, _, _, _⟩ :=
      find_spec S ((runOps (UnionFind.create S) ops).find (some y)).2 hinvY x hx
    obtain ⟨hrX1, _, _, _, _⟩ :=
      find_spec S (runOps (UnionFind.create S) ops) hinvU x hx
    have hrX1' : rootReach ((runOps (UnionFind.create S) ops).find (some y)).2.parent
        (some x) ((runOps (UnionFind.create S) ops).find (some x)).1 :=
      (hiffY _ _).mp hrX1
    exact rootReach_unique _ _ _ _ hrX2 hrX1'

/-- C9 (witness): over {"a","b","c"} after `union("a","b")`, the evaluated
conjuncts — `connected("a","b")` after a further union is true, and `find`
after the compressing `find("b")` agrees with the direct `find("a")`. -/
theorem disjointSet_connected_equivalence_witness :
    (((runOps (UnionFind.create ["a", "b", "c"]) [UFOp.unionOp "a" "b"]).union
        "a" "b").connected "a" "b").1 = true
    ∧ (((runOps (UnionFind.create ["a", "b", "c"])
        [UFOp.unionOp "a" "b"]).find (some "b")).2.find (some "a")).1 =
      ((runOps (UnionFind.create ["a", "b", "c"])
        [UFOp.unionOp "a" "b"]).find (some "a")).1 := by
  have h := disjointSet_connected_equivalence ["a", "b", "c"]
    [UFOp.unionOp "a" "b"] "a" "b" "c" (by decide) (by decide) (by decide)
    (fun op hop => by
      rw [List.mem_singleton] at hop
      subst hop
      exact ⟨by decide, by decide⟩)
  exact ⟨h.1, h.2.2.2.2 "a" "b" (by decide) (by decide)⟩

/-! ## C6: BFS distances are minimum hop counts -/

/-- `ReachN g s k v`: a path of exactly `k` edges from `s` to `v`, following
the adjacency the program itself uses (`getNeighbors`). -/
inductive ReachN (g : Graph) (s : String) : Nat → String → Prop
  | refl : ReachN g s 0 s
  | snoc {k : Nat} {u v : String} :
      ReachN g s k u → v ∈ Graph.getNeighbors g u → ReachN g s (k + 1) v

/-- `get` after `set` on the same key. -/
theorem JSMap.get_set_self {α : Type} (m : JSMap α) (k : String) (v : α) :
    (m.set k v).get k = some v := by
  induction m with
  | nil => simp [JSMap.set, JSMap.get]
  | cons q rest ih =>
    by_cases hq : q.1 = k
    · simp [JSMap.set, if_pos hq, JSMap.get]
    · simp only [JSMap.set, if_neg hq, JSMap.get, if_neg hq]
      exact ih

/-- `get` after `set` on a different key. -/
theorem JSMap.get_set_ne {α : Type} (m : JSMap α) (k k' : String) (v : α)
    (h : k' ≠ k) : (m.set k v).get k' = m.get k' := by
  induction m with
  | nil =>
    show (if k = k' then some v else none) = none
    rw [if_neg (fun hh => h hh.symm)]
  | cons q rest ih =>
    by_cases hq : q.1 = k
    · rw [show JSMap.set (q :: rest) k v = (k, v) :: rest from by
        unfold JSMap.set; rw [if_pos hq]]
      show (if k = k' then some v else JSMap.get rest k') =
        (if q.1 = k' then some q.2 else JSMap.get rest k')
      rw [if_neg (fun hh => h hh.symm),
        if_neg (fun hh : q.1 = k' => h (hh.symm.trans hq))]
    · rw [show JSMap.set (q :: rest) k v = (q.1, q.2) :: JSMap.set rest k v from by
        simp only [JSMap.set, if_neg hq]]
      show (if q.1 = k' then some q.2 else JSMap.get (JSMap.set rest k v) k') =
        (if q.1 = k' then some q.2 else JSMap.get rest k')
      by_cases hq' : q.1 = k'
      · rw [if_pos hq', if_pos hq']
      · rw [if_neg hq', if_neg hq', ih]

/-- A neighbour-witness among a list of edges. -/
def nbWitness (g : Graph) (u v : String) (l : List Edge) : Prop :=
  ∃ e ∈ l, (e.source = u ∧ e.target = v) ∨
    (¬g.isDirected = true ∧ e.target = u ∧ e.source = v)

theorem nbWitness_cons (g : Graph) (u v : String) (e : Edge) (l : List Edge) :
    nbWitness g u v (e :: l) ↔
      ((e.source = u ∧ e.target = v) ∨
        (¬g.isDirected = true ∧ e.target = u ∧ e.source = v)) ∨
      nbWitness g u v l := by
  unfold nbWitness
  constructor
  · rintro ⟨e', he', hP⟩
    rcases List.mem_cons.mp he' with h | h
    · subst h; exact Or.inl hP
    · exact Or.inr ⟨e', h, hP⟩
  · rintro (hP | ⟨e', he', hP⟩)
    · exact ⟨e, List.mem_cons_self e l, hP⟩
    · exact ⟨e', List.mem_cons_of_mem e he', hP⟩

/-- Membership in `addUnique`. -/
theorem mem_addUnique (acc : List String) (w v : String) :
    v ∈ Graph.addUnique acc w ↔ v ∈ acc ∨ v = w := by
  unfold Graph.addUnique
  by_cases hw : w ∈ acc
  · rw [if_pos hw]
    constructor
    · exact Or.inl
    · rintro (h | h)
      · exact h
      · exact h ▸ hw
  · rw [if_neg hw]
    simp

/-- Membership in the neighbour-accumulation fold. -/
theorem mem_getNeighbors_aux (g : Graph) (u v : String) (l : List Edge)
    (acc : List String) :
    v ∈ l.foldl (fun acc e =>
        if e.source = u then Graph.addUnique acc e.target
        else if ¬g.isDirected = true ∧ e.target = u then Graph.addUnique acc e.source
        else acc) acc ↔
      v ∈ acc ∨ nbWitness g u v l := by
  induction l generalizing acc with
  | nil => simp [nbWitness]
  | cons e rest ih =>
    simp only [List.foldl_cons]
    rw [ih, nbWitness_cons]
    by_cases h1 : e.source = u
    · rw [if_pos h1, mem_addUnique]
      constructor
      · rintro ((h | h) | h)
        · exact Or.inl h
        · exact Or.inr (Or.inl (Or.inl ⟨h1, h.symm⟩))
        · exact Or.inr (Or.inr h)
      · rintro (h | (⟨_, htv⟩ | ⟨hnd, htu, hsv⟩) | h)
        · exact Or.inl (Or.inl h)
        · exact Or.inl (Or.inr htv.symm)
        · exact Or.inl (Or.inr (by rw [← hsv, h1, ← htu]))
        · exact Or.inr h
    · rw [if_neg h1]
      by_cases h2 : (¬g.isDirected = true ∧ e.target = u)
      · rw [if_pos h2, mem_addUnique]
        constructor
        · rintro ((h | h) | h)
          · exact Or.inl h
          · exact Or.inr (Or.inl (Or.inr ⟨h2.1, h2.2, h.symm⟩))
          · exact Or.inr (Or.inr h)
        · rintro (h | (⟨hsu, _⟩ | ⟨hnd, htu, hsv⟩) | h)
          · exact Or.inl (Or.inl h)
          · exact absurd hsu h1
          · exact Or.inl (Or.inr hsv.symm)
          · exact Or.inr h
      · rw [if_neg h2]
        constructor
        · rintro (h | h)
          · exact Or.inl h
          · exact Or.inr (Or.inr h)
        · rintro (h | (⟨hsu, _⟩ | ⟨hnd, htu, hsv⟩) | h)
          · exact Or.inl h
          · exact absurd hsu h1
          · exact absurd ⟨hnd, htu⟩ h2
          · exact Or.inr h

/-- The edges behind a `getNeighbors` membership. -/
theorem mem_getNeighbors (g : Graph) (u v : String) :
    v ∈ Graph.getNeighbors g u ↔
      ∃ e ∈ g.edges.values, (e.source = u ∧ e.target = v) ∨
        (¬g.isDirected = true ∧ e.target = u ∧ e.source = v) := by
  unfold Graph.getNeighbors
  rw [mem_getNeighbors_aux]
  simp [nbWitness]

/-- The recorded distance of a node (0 when absent; reads are guarded). -/
def dval (st : BFSState) (v : String) : Nat := (st.dist.get v).getD 0

/-- Loop invariant of BFS from `s` (no target). -/
structure BFSInv (g : Graph) (s : String) (st : BFSState) : Prop where
  distDom : ∀ v, v ∈ st.visited ↔ (st.dist.get v).isSome = true
  start0 : st.dist.get s = some 0
  qSub : ∀ v ∈ st.queue, v ∈ st.visited
  qNodup : st.queue.Nodup
  visNodup : st.visited.Nodup
  visKeys : ∀ v ∈ st.visited, v = s ∨ g.nodes.hasKey v = true
  upper : ∀ v d, st.dist.get v = some d → ReachN g s d v
  sorted : st.queue.Pairwise (fun x y => dval st x ≤ dval st y)
  amp : ∀ x ∈ st.queue, ∀ y ∈ st.queue, dval st y ≤ dval st x + 1
  closure : ∀ u ∈ st.visited, u ∉ st.queue →
    ∀ v ∈ Graph.getNeighbors g u, v ∈ st.visited ∧ dval st v ≤ dval st u + 1
  procLe : ∀ u ∈ st.visited, u ∉ st.queue → ∀ w ∈ st.queue, dval st u ≤ dval st w

/-- Invariant during the neighbour fold of the dequeued node `u` (at
distance `dU`), with `R` the neighbours still to process. -/
structure MidInv (g : Graph) (s u : String) (dU : Nat) (R : List String)
    (acc : BFSState) : Prop where
  distDom : ∀ v, v ∈ acc.visited ↔ (acc.dist.get v).isSome = true
  start0 : acc.dist.get s = some 0
  qSub : ∀ v ∈ acc.queue, v ∈ acc.visited
  qNodup : acc.queue.Nodup
  visNodup : acc.visited.Nodup
  visKeys : ∀ v ∈ acc.visited, v = s ∨ g.nodes.hasKey v = true
  upper : ∀ v d, acc.dist.get v = some d → ReachN g s d v
  uVis : u ∈ acc.visited
  uNotQ : u ∉ acc.queue
  uDist : acc.dist.get u = some dU
  sorted : acc.queue.Pairwise (fun x y => dval acc x ≤ dval acc y)
  qLow : ∀ w ∈ acc.queue, dU ≤ dval acc w
  qHigh : ∀ w ∈ acc.queue, dval acc w ≤ dU + 1
  procBound : ∀ x ∈ acc.visited, x ∉ acc.queue → dval acc x ≤ dU
  closure : ∀ x ∈ acc.visited, x ∉ acc.queue → x ≠ u →
    ∀ v ∈ Graph.getNeighbors g x, v ∈ acc.visited ∧ dval acc v ≤ dval acc x + 1
  uPart : ∀ v ∈ Graph.getNeighbors g u, v ∈ R ∨
    (v ∈ acc.visited ∧ dval acc v ≤ dU + 1)

/-- One iteration of the neighbour fold preserves the mid-fold invariant and
grows `visited` and `queue` in lockstep. -/
theorem visitFold_inv (g : Graph) (s u : String) (dU : Nat)
    (hWF : endpointsExist g) (hReachU : ReachN g s dU u) :
    ∀ R acc, MidInv g s u dU R acc → (∀ v ∈ R, v ∈ Graph.getNeighbors g u) →
    MidInv g s u dU [] (bfsVisitNeighbors u R acc)
    ∧ (bfsVisitNeighbors u R acc).visited.length + acc.queue.length
        = acc.visited.length + (bfsVisitNeighbors u R acc).queue.length
    ∧ acc.visited.length ≤ (bfsVisitNeighbors u R acc).visited.length := by
  intro R
  induction R with
  | nil => exact fun acc hmid _ => ⟨hmid, rfl, le_refl _⟩
  | cons v R' ih =>
    intro acc hmid hR
    have hvnb : v ∈ Graph.getNeighbors g u := hR v (List.mem_cons_self v R')
    have hR' : ∀ w ∈ R', w ∈ Graph.getNeighbors g u :=
      fun w hw => hR w (List.mem_cons_of_mem v hw)
    have hstep : bfsVisitNeighbors u (v :: R') acc =
        bfsVisitNeighbors u R'
          (if v ∈ acc.visited then acc else
            { acc with
                visited := acc.visited ++ [v],
                parent := acc.parent.set v (some u),
                dist := acc.dist.set v ((acc.dist.get u).getD 0 + 1),
                queue := acc.queue ++ [v] }) := rfl
    rw [hstep]
    by_cases hv : v ∈ acc.visited
    · rw [if_pos hv]
      apply ih acc ?_ hR'
      have hvbound : dval acc v ≤ dU + 1 := by
        by_cases hq : v ∈ acc.queue
        · exact hmid.qHigh v hq
        · exact le_trans (hmid.procBound v hv hq) (by omega)
      exact { hmid with
        uPart := fun w hw => by
          rcases hmid.uPart w hw with h | h
          · rcases List.mem_cons.mp h with h | h
            · exact Or.inr (h ▸ ⟨hv, hvbound⟩)
            · exact Or.inl h
          · exact Or.inr h }
    · rw [if_neg hv]
      have hvq : v ∉ acc.queue := fun h => hv (hmid.qSub v h)
      have hvu : v ≠ u := fun h => hv (h ▸ hmid.uVis)
      have hvs : v ≠ s := fun h => hv ((hmid.distDom s).mpr (by rw [hmid.start0]; rfl) |> (h ▸ ·))
      have hgetu : (acc.dist.get u).getD 0 = dU := by rw [hmid.uDist]; rfl
      have hkeyv : g.nodes.hasKey v = true := by
        rcases (mem_getNeighbors g u v).mp hvnb with ⟨e, he, hcase⟩
        rcases hcase with ⟨_, htv⟩ | ⟨_, _, hsv⟩
        · exact htv ▸ (hWF e he).2
        · exact hsv ▸ (hWF e he).1
      set acc' : BFSState :=
        { acc with
            visited := acc.visited ++ [v],
            parent := acc.parent.set v (some u),
            dist := acc.dist.set v ((acc.dist.get u).getD 0 + 1),
            queue := acc.queue ++ [v] } with hacc'
      have hget'v : acc'.dist.get v = some (dU + 1) := by
        rw [hacc']
        show (acc.dist.set v ((acc.dist.get u).getD 0 + 1)).get v = some (dU + 1)
        rw [JSMap.get_set_self, hgetu]
      have hget'ne : ∀ w, w ≠ v → acc'.dist.get w = acc.dist.get w := by
        intro w hw
        rw [hacc']
        show (acc.dist.set v ((acc.dist.get u).getD 0 + 1)).get w = acc.dist.get w
        rw [JSMap.get_set_ne _ _ _ _ hw]
      have hdval'ne : ∀ w, w ≠ v → dval acc' w = dval acc w := by
        intro w hw
        unfold dval
        rw [hget'ne w hw]
      have hdval'v : dval acc' v = dU + 1 := by
        unfold dval
        rw [hget'v]
        rfl
      have hmid' : MidInv g s u dU R' acc' := by
        refine
          { distDom := ?_, start0 := ?_, qSub := ?_, qNodup := ?_, visNodup := ?_,
            visKeys := ?_, upper := ?_, uVis := ?_, uNotQ := ?_, uDist := ?_,
            sorted := ?_, qLow := ?_, qHigh := ?_, procBound := ?_,
            closure := ?_, uPart := ?_ }
        · intro w
          by_cases hw : w = v
          · subst hw
            simp only [hacc', List.mem_append, List.mem_singleton]
            rw [show acc'.dist.get w = some (dU + 1) from hget'v]
            simp
          · rw [show (acc'.visited = acc.visited ++ [v]) from rfl, List.mem_append,
              List.mem_singleton, hget'ne w hw]
            have := hmid.distDom w
            tauto
        · rw [hget'ne s (fun h => hvs h.symm)]
          exact hmid.start0
        · intro w hw
          rw [show acc'.queue = acc.queue ++ [v] from rfl, List.mem_append,
            List.mem_singleton] at hw
          rw [show acc'.visited = acc.visited ++ [v] from rfl, List.mem_append,
            List.mem_singleton]
          rcases hw with hw | hw
          · exact Or.inl (hmid.qSub w hw)
          · exact Or.inr hw
        · rw [show acc'.queue = acc.queue ++ [v] from rfl]
          refine List.Nodup.append hmid.qNodup (List.nodup_singleton v) ?_
          intro x hx hx'
          rw [List.mem_singleton] at hx'
          exact hvq (hx' ▸ hx)
        · rw [show acc'.visited = acc.visited ++ [v] from rfl]
          refine List.Nodup.append hmid.visNodup (List.nodup_singleton v) ?_
          intro x hx hx'
          rw [List.mem_singleton] at hx'
          exact hv (hx' ▸ hx)
        · intro w hw
          rw [show acc'.visited = acc.visited ++ [v] from rfl, List.mem_append,
            List.mem_singleton] at hw
          rcases hw with hw | hw
          · exact hmid.visKeys w hw
          · exact Or.inr (hw ▸ hkeyv)
        · intro w d hd
          by_cases hw : w = v
          · subst hw
            rw [hget'v] at hd
            cases hd
            exact ReachN.snoc hReachU hvnb
          · rw [hget'ne w hw] at hd
            exact hmid.upper w d hd
        · rw [show acc'.visited = acc.visited ++ [v] from rfl, List.mem_append]
          exact Or.inl hmid.uVis
        · rw [show acc'.queue = acc.queue ++ [v] from rfl, List.mem_append,
            List.mem_singleton]
          rintro (h | h)
          · exact hmid.uNotQ h
          · exact hvu h.symm
        · rw [hget'ne u (fun h => hvu h.symm)]
          exact hmid.uDist
        · rw [show acc'.queue = acc.queue ++ [v] from rfl]
          rw [List.pairwise_append]
          refine ⟨?_, List.pairwise_singleton _ _, ?_⟩
          · refine hmid.sorted.imp_of_mem ?_
            intro x y hx hy hxy
            rw [hdval'ne x (fun h => hvq (h ▸ hx)),
              hdval'ne y (fun h => hvq (h ▸ hy))]
            exact hxy
          · intro x hx y hy
            rw [List.mem_singleton] at hy
            subst hy
            rw [hdval'ne x (fun h => hvq (h ▸ hx)), hdval'v]
            exact hmid.qHigh x hx
        · intro w hw
          rw [show acc'.queue = acc.queue ++ [v] from rfl, List.mem_append,
            List.mem_singleton] at hw
          rcases hw with hw | hw
          · rw [hdval'ne w (fun h => hvq (h ▸ hw))]
            exact hmid.qLow w hw
          · subst hw
            rw [hdval'v]
            omega
        · intro w hw
          rw [show acc'.queue = acc.queue ++ [v] from rfl, List.mem_append,
            List.mem_singleton] at hw
          rcases hw with hw | hw
          · rw [hdval'ne w (fun h => hvq (h ▸ hw))]
            exact hmid.qHigh w hw
          · subst hw
            rw [hdval'v]
        · intro x hx hxq
          rw [show acc'.visited = acc.visited ++ [v] from rfl, List.mem_append,
            List.mem_singleton] at hx
          rw [show acc'.queue = acc.queue ++ [v] from rfl, List.mem_append,
            List.mem_singleton] at hxq
          push_neg at hxq
          rcases hx with hx | hx
          · rw [hdval'ne x hxq.2]
            exact hmid.procBound x hx hxq.1
          · exact absurd hx hxq.2
        · intro x hx hxq hxu w hwnb
          rw [show acc'.visited = acc.visited ++ [v] from rfl, List.mem_append,
            List.mem_singleton] at hx
          rw [show acc'.queue = acc.queue ++ [v] from rfl, List.mem_append,
            List.mem_singleton] at hxq
          push_neg at hxq
          rcases hx with hx | hx
          · have hold := hmid.closure x hx hxq.1 hxu w hwnb
            have hwv : w ≠ v := fun h => hv (h ▸ hold.1)
            constructor
            · rw [show acc'.visited = acc.visited ++ [v] from rfl, List.mem_append]
              exact Or.inl hold.1
            · rw [hdval'ne w hwv, hdval'ne x hxq.2]
              exact hold.2
          · exact absurd hx hxq.2
        · intro w hwnb
          rcases hmid.uPart w hwnb with h | h
          · rcases List.mem_cons.mp h with h | h
            · refine Or.inr ⟨?_, ?_⟩
              · rw [show acc'.visited = acc.visited ++ [v] from rfl, List.mem_append,
                  List.mem_singleton]
                exact Or.inr h
              · rw [h, hdval'v]
            · exact Or.inl h
          · have hwv : w ≠ v := fun hh => hv (hh ▸ h.1)
            refine Or.inr ⟨?_, ?_⟩
            · rw [show acc'.visited = acc.visited ++ [v] from rfl, List.mem_append]
              exact Or.inl h.1
            · rw [hdval'ne w hwv]
              exact h.2
      obtain ⟨hfin, hlen, hle⟩ := ih acc' hmid' hR'
      refine ⟨hfin, ?_, ?_⟩
      · have h1 : acc'.visited.length = acc.visited.length + 1 := by
          rw [show acc'.visited = acc.visited ++ [v] from rfl]
          simp
        have h2 : acc'.queue.length = acc.queue.length + 1 := by
          rw [show acc'.queue = acc.queue ++ [v] from rfl]
          simp
        omega
      · have h1 : acc'.visited.length = acc.visited.length + 1 := by
          rw [show acc'.visited = acc.visited ++ [v] from rfl]
          simp
        omega

/-- The visited list stays within the start node plus the node keys. -/
theorem visited_le (g : Graph) (s : String) (st : BFSState)
    (hinv : BFSInv g s st) : st.visited.length ≤ g.nodes.length + 1 := by
  have hsub : st.visited ⊆ s :: g.nodes.keys := by
    intro v hv
    rcases hinv.visKeys v hv with h | h
    · exact h ▸ List.mem_cons_self _ _
    · exact List.mem_cons_of_mem _ ((JSMap.hasKey_eq_keys_mem _ _).mp h)
  have := (List.subperm_of_subset hinv.visNodup hsub).length_le
  simpa [JSMap.keys] using this

/-- Dequeuing the head `u` of the queue sets up the mid-fold invariant. -/
theorem bfsStep_mid (g : Graph) (s : String) (st : BFSState)
    (hinv : BFSInv g s st) (u : String) (rest : List String)
    (hq : st.queue = u :: rest) :
    MidInv g s u (dval st u) (sortNeighbors (Graph.getNeighbors g u))
      { st with queue := rest, visitOrder := st.visitOrder ++ [u] } := by
  have huQ : u ∈ st.queue := hq ▸ List.mem_cons_self u rest
  have huV : u ∈ st.visited := hinv.qSub u huQ
  have huD : st.dist.get u = some (dval st u) := by
    have h := (hinv.distDom u).mp huV
    unfold dval
    cases hg : st.dist.get u with
    | none => rw [hg] at h; simp at h
    | some d => rfl
  have huR : u ∉ rest := by
    have := hinv.qNodup
    rw [hq] at this
    exact (List.nodup_cons.mp this).1
  have hsorted := hinv.sorted
  rw [hq] at hsorted
  refine
    { distDom := hinv.distDom, start0 := hinv.start0,
      qSub := fun v hv => hinv.qSub v (hq ▸ List.mem_cons_of_mem u hv),
      qNodup := by
        have := hinv.qNodup
        rw [hq] at this
        exact (List.nodup_cons.mp this).2,
      visNodup := hinv.visNodup, visKeys := hinv.visKeys, upper := hinv.upper,
      uVis := huV, uNotQ := huR, uDist := huD,
      sorted := (List.pairwise_cons.mp hsorted).2,
      qLow := fun w hw => (List.pairwise_cons.mp hsorted).1 w hw,
      qHigh := fun w hw =>
        hinv.amp u huQ w (hq ▸ List.mem_cons_of_mem u hw),
      procBound := ?_, closure := ?_, uPart := ?_ }
  · intro x hx hxrest
    by_cases hxq : x ∈ st.queue
    · rw [hq] at hxq
      rcases List.mem_cons.mp hxq with h | h
      · exact h ▸ le_refl _
      · exact absurd h hxrest
    · exact hinv.procLe x hx hxq u huQ
  · intro x hx hxrest hxu v hv
    have hxq : x ∉ st.queue := by
      rw [hq]
      intro h
      rcases List.mem_cons.mp h with h | h
      · exact hxu h
      · exact hxrest h
    exact hinv.closure x hx hxq v hv
  · intro v hv
    exact Or.inl ((mem_sortNeighbors v _).mpr hv)

/-- Reassembling the loop invariant after the neighbour fold finishes. -/
theorem midToInv (g : Graph) (s u : String) (dU : Nat) (acc : BFSState)
    (hmid : MidInv g s u dU [] acc) : BFSInv g s acc := by
  have huD : dval acc u = dU := by
    unfold dval
    rw [hmid.uDist]
    rfl
  refine
    { distDom := hmid.distDom, start0 := hmid.start0, qSub := hmid.qSub,
      qNodup := hmid.qNodup, visNodup := hmid.visNodup,
      visKeys := hmid.visKeys, upper := hmid.upper, sorted := hmid.sorted,
      amp := fun x hx y hy =>
        le_trans (hmid.qHigh y hy) (by
          have := hmid.qLow x hx
          omega),
      closure := ?_, procLe := fun x hx hxq w hw =>
        le_trans (hmid.procBound x hx hxq) (hmid.qLow w hw) }
  intro x hx hxq v hv
  by_cases hxu : x = u
  · subst hxu
    rcases hmid.uPart v hv with h | h
    · simp at h
    · rw [huD]
      exact h
  · exact hmid.closure x hx hxq hxu v hv

/-- With enough fuel the BFS loop drains the queue while keeping the
invariant. -/
theorem bfsLoop_drains (g : Graph) (s : String) (hWF : endpointsExist g) :
    ∀ fuel st, BFSInv g s st →
    (g.nodes.length + 1) - st.visited.length + st.queue.length ≤ fuel →
    BFSInv g s (bfsLoop g none fuel st).1 ∧ (bfsLoop g none fuel st).1.queue = [] := by
  intro fuel
  induction fuel with
  | zero =>
    intro st hinv h
    have hq : st.queue = [] := List.length_eq_zero.mp (by omega)
    exact ⟨hinv, hq⟩
  | succ fuel ih =>
    intro st hinv hmeas
    obtain ⟨q, vis, vo, par, dst⟩ := st
    cases q with
    | nil =>
      exact ⟨hinv, rfl⟩
    | cons u rest =>
      have hq : (BFSState.mk (u :: rest) vis vo par dst).queue = u :: rest := rfl
      have hmid0 := bfsStep_mid g s _ hinv u rest hq
      have hmid : MidInv g s u (dval (BFSState.mk (u :: rest) vis vo par dst) u)
          (sortNeighbors (Graph.getNeighbors g u))
          (BFSState.mk rest vis (vo ++ [u]) par dst) := hmid0
      have hUD : JSMap.get dst u = some ((JSMap.get dst u).getD 0) := by
        have h := (hinv.distDom u).mp (hinv.qSub u (List.mem_cons_self u rest))
        cases hg : JSMap.get dst u with
        | none => rw [hg] at h; simp at h
        | some d => rfl
      have hreachU : ReachN g s (dval (BFSState.mk (u :: rest) vis vo par dst) u) u :=
        hinv.upper u _ hUD
      obtain ⟨hfin, hlen, hle⟩ := visitFold_inv g s u _ hWF hreachU
        (sortNeighbors (Graph.getNeighbors g u))
        (BFSState.mk rest vis (vo ++ [u]) par dst)
        hmid (fun v hv => (mem_sortNeighbors v _).mp hv)
      have hinv' := midToInv g s u _ _ hfin
      have hloop : bfsLoop g none (fuel + 1) (BFSState.mk (u :: rest) vis vo par dst) =
          bfsLoop g none fuel (bfsVisitNeighbors u
            (sortNeighbors (Graph.getNeighbors g u))
            (BFSState.mk rest vis (vo ++ [u]) par dst)) := by
        rw [show bfsLoop g none (fuel + 1) (BFSState.mk (u :: rest) vis vo par dst) =
          (if Graph.strTruthy (none : Option String) = true ∧
              (none : Option String) = some u
           then (BFSState.mk rest vis (vo ++ [u]) par dst, true)
           else bfsLoop g none fuel (bfsVisitNeighbors u
             (sortNeighbors (Graph.getNeighbors g u))
             (BFSState.mk rest vis (vo ++ [u]) par dst))) from rfl]
        rw [if_neg (by simp [Graph.strTruthy])]
      rw [hloop]
      apply ih _ hinv'
      have hK := visited_le g s _ hinv'
      dsimp only at hlen hle hmeas hK ⊢
      simp only [List.length_cons] at hmeas
      omega

/-- In a drained final state every reachable node has a recorded distance
bounded by any path length to it. -/
theorem final_lower_bound (g : Graph) (s : String) (st : BFSState)
    (hinv : BFSInv g s st) (hq : st.queue = []) :
    ∀ v k, ReachN g s k v → ∃ d, st.dist.get v = some d ∧ d ≤ k := by
  intro v k hreach
  induction hreach with
  | refl => exact ⟨0, hinv.start0, le_refl 0⟩
  | snoc hr hnb ih =>
    obtain ⟨d, hd, hdk⟩ := ih
    rename_i k' u' v'
    have huvis : u' ∈ st.visited := (hinv.distDom u').mpr (by rw [hd]; rfl)
    have hunq : u' ∉ st.queue := by rw [hq]; simp
    have hcl := hinv.closure u' huvis hunq v' hnb
    have hdu : dval st u' = d := by unfold dval; rw [hd]; rfl
    have hvvis := hcl.1
    have hvd := hcl.2
    rw [hdu] at hvd
    have hsome := (hinv.distDom v').mp hvvis
    cases hg : st.dist.get v' with
    | none => rw [hg] at hsome; simp at hsome
    | some dv =>
      refine ⟨dv, rfl, ?_⟩
      have : dval st v' = dv := by unfold dval; rw [hg]; rfl
      omega

/-- The invariant holds at the initial BFS state. -/
theorem bfs_init_inv (g : Graph) (s : String) :
    BFSInv g s (BFSState.mk [s] [s] [] [(s, none)] [(s, 0)]) := by
  refine
    { distDom := ?_, start0 := by simp [JSMap.get], qSub := ?_,
      qNodup := List.nodup_singleton s, visNodup := List.nodup_singleton s,
      visKeys := ?_, upper := ?_, sorted := List.pairwise_singleton _ _,
      amp := ?_, closure := ?_, procLe := ?_ }
  · intro v
    by_cases hv : s = v
    · subst hv
      simp [JSMap.get]
    · simp only [List.mem_singleton]
      rw [show JSMap.get [(s, (0 : Nat))] v = none from by
        simp [JSMap.get, hv]]
      simp
      exact fun h => hv h.symm
  · intro v hv
    exact hv
  · intro v hv
    rw [List.mem_singleton] at hv
    exact Or.inl hv
  · intro v d hd
    by_cases hv : s = v
    · subst hv
      rw [show JSMap.get [(s, (0 : Nat))] s = some 0 from by simp [JSMap.get]] at hd
      cases hd
      exact ReachN.refl
    · rw [show JSMap.get [(s, (0 : Nat))] v = none from by simp [JSMap.get, hv]] at hd
      cases hd
  · intro x hx y hy
    rw [List.mem_singleton] at hx hy
    subst hx; subst hy
    omega
  · intro u hu hunq
    rw [List.mem_singleton] at hu
    exact absurd (hu ▸ List.mem_singleton_self s) hunq
  · intro u hu hunq
    rw [List.mem_singleton] at hu
    exact absurd (hu ▸ List.mem_singleton_self s) hunq

/-- C6: for a graph whose edges reference existing nodes and a start node in
the graph, the `distances` map of `bfs(s)` records, for exactly the nodes
reachable from `s`, the minimum number of edges of any path from `s` —
and no unreachable node appears in the map. -/
theorem bfs_distances_minimum_hops (g : Graph) (s : String)
    (hWF : endpointsExist g) (_hs : g.nodes.hasKey s = true) :
    (∀ v d, JSMap.get (GraphAlgorithms.bfs g s none).distances v = some d →
      (ReachN g s d v ∧ ∀ k, ReachN g s k v → d ≤ k))
    ∧ (∀ v k, ReachN g s k v →
      ∃ d, JSMap.get (GraphAlgorithms.bfs g s none).distances v = some d) := by
  have hinit := bfs_init_inv g s
  have hmeas : (g.nodes.length + 1) -
      (BFSState.mk [s] [s] [] [(s, none)] [(s, 0)]).visited.length +
      (BFSState.mk [s] [s] [] [(s, none)] [(s, 0)]).queue.length ≤
      g.nodes.length + 1 := by
    simp
  obtain ⟨hfin, hempty⟩ := bfsLoop_drains g s hWF (g.nodes.length + 1)
    (BFSState.mk [s] [s] [] [(s, none)] [(s, 0)]) hinit hmeas
  have hdist : (GraphAlgorithms.bfs g s none).distances =
      (bfsLoop g none (g.nodes.length + 1)
        (BFSState.mk [s] [s] [] [(s, none)] [(s, 0)])).1.dist := rfl
  constructor
  · intro v d hd
    rw [hdist] at hd
    refine ⟨hfin.upper v d hd, ?_⟩
    intro k hk
    obtain ⟨d', hd', hle⟩ := final_lower_bound g s _ hfin hempty v k hk
    rw [hd] at hd'
    cases hd'
    exact hle
  · intro v k hk
    obtain ⟨d, hd, _⟩ := final_lower_bound g s _ hfin hempty v k hk
    rw [hdist]
    exact ⟨d, hd⟩

/-- C6 (witness): on the A–B graph, `bfs("A")` records distance 0 for A and
1 for B, which the theorem certifies as minimal hop counts. -/
theorem bfs_distances_minimum_hops_witness :
    JSMap.get (GraphAlgorithms.bfs gPairAB "A" none).distances "B" = some 1 ∧
    ReachN gPairAB "A" 1 "B" := by
  have h := bfs_distances_minimum_hops gPairAB "A"
    (by unfold endpointsExist; decide) (by decide)
  have hB : JSMap.get (GraphAlgorithms.bfs gPairAB "A" none).distances "B" = some 1 := by
    decide
  exact ⟨hB, (h.1 "B" 1 hB).1⟩

/-! ## C7: Kruskal and Prim compute the same total weight -/

/-- One undirected step along an edge of the list. -/
def estep (F : List Edge) (u v : String) : Prop :=
  ∃ e ∈ F, (e.source = u ∧ e.target = v) ∨ (e.target = u ∧ e.source = v)

/-- Connectivity generated by an edge list (reflexive-transitive closure of
the undirected step). -/
def Linked (F : List Edge) : String → String → Prop :=
  Relation.ReflTransGen (estep F)

theorem estep_symm (F : List Edge) (u v : String) (h : estep F u v) :
    estep F v u := by
  obtain ⟨e, he, hc⟩ := h
  exact ⟨e, he, by tauto⟩

theorem Linked.refl (F : List Edge) (u : String) : Linked F u u :=
  Relation.ReflTransGen.refl

theorem Linked.trans {F : List Edge} {u v w : String}
    (h1 : Linked F u v) (h2 : Linked F v w) : Linked F u w :=
  Relation.ReflTransGen.trans h1 h2

theorem Linked.symm {F : List Edge} {u v : String} (h : Linked F u v) :
    Linked F v u := by
  induction h with
  | refl => exact Relation.ReflTransGen.refl
  | tail hxy hstep ih =>
    exact Relation.ReflTransGen.trans
      (Relation.ReflTransGen.single (estep_symm F _ _ hstep)) ih

theorem Linked.mono {F F' : List Edge} (hsub : F ⊆ F') {u v : String}
    (h : Linked F u v) : Linked F' u v := by
  induction h with
  | refl => exact Relation.ReflTransGen.refl
  | tail hxy hstep ih =>
    obtain ⟨e, he, hc⟩ := hstep
    exact Relation.ReflTransGen.tail ih ⟨e, hsub he, hc⟩

theorem Linked.step {F : List Edge} {e : Edge} (he : e ∈ F) :
    Linked F e.source e.target :=
  Relation.ReflTransGen.single ⟨e, he, Or.inl ⟨rfl, rfl⟩⟩

/-- Walk decomposition at a designated edge `f`: either the walk avoids `f`,
or it splits into two halves avoiding `f`, joined by `f` in one of its two
orientations. -/
theorem linked_decompose (T : List Edge) (f : Edge) (x y : String)
    (h : Linked T x y) :
    Linked (T.erase f) x y ∨
    (Linked (T.erase f) x f.source ∧ Linked (T.erase f) f.target y) ∨
    (Linked (T.erase f) x f.target ∧ Linked (T.erase f) f.source y) := by
  induction h with
  | refl => exact Or.inl (Linked.refl _ x)
  | tail hxy hstep ih =>
    rename_i b c
    obtain ⟨e, he, hc⟩ := hstep
    by_cases hef : e = f
    · subst hef
      rcases hc with ⟨hs, ht⟩ | ⟨ht, hs⟩
      · subst hs; subst ht
        rcases ih with ih | ⟨ih1, ih2⟩ | ⟨ih1, ih2⟩
        · exact Or.inr (Or.inl ⟨ih, Linked.refl _ _⟩)
        · exact Or.inr (Or.inl ⟨ih1, Linked.refl _ _⟩)
        · exact Or.inl ih1
      · subst ht; subst hs
        rcases ih with ih | ⟨ih1, ih2⟩ | ⟨ih1, ih2⟩
        · exact Or.inr (Or.inr ⟨ih, Linked.refl _ _⟩)
        · exact Or.inl ih1
        · exact Or.inr (Or.inr ⟨ih1, Linked.refl _ _⟩)
    · have he' : e ∈ T.erase f := (List.mem_erase_of_ne hef).mpr he
      have hstep' : estep (T.erase f) b c := ⟨e, he', hc⟩
      rcases ih with ih | ⟨ih1, ih2⟩ | ⟨ih1, ih2⟩
      · exact Or.inl (Relation.ReflTransGen.tail ih hstep')
      · exact Or.inr (Or.inl ⟨ih1, Relation.ReflTransGen.tail ih2 hstep'⟩)
      · exact Or.inr (Or.inr ⟨ih1, Relation.ReflTransGen.tail ih2 hstep'⟩)

/-- An edge crossing the cut given by the vertex predicate `C`. -/
def crossesCut (C : String → Prop) (e : Edge) : Prop :=
  (C e.source ∧ ¬ C e.target) ∨ (C e.target ∧ ¬ C e.source)

/-- A walk from inside `C` to outside `C` uses some crossing edge. -/
theorem cut_walk (T : List Edge) (C : String → Prop) (c d : String)
    (h : Linked T c d) (hc : C c) (hd : ¬ C d) :
    ∃ f ∈ T, crossesCut C f := by
  induction h with
  | refl => exact absurd hc hd
  | tail hxy hstep ih =>
    rename_i b c'
    by_cases hb : C b
    · obtain ⟨e, he, hcase⟩ := hstep
      rcases hcase with ⟨hs, ht⟩ | ⟨ht, hs⟩
      · exact ⟨e, he, Or.inl ⟨hs ▸ hb, ht ▸ hd⟩⟩
      · exact ⟨e, he, Or.inr ⟨ht ▸ hb, hs ▸ hd⟩⟩
    · exact ih hb

/-- Repair existence: a walk from inside to outside a cut uses a crossing
edge `f` that can be removed, leaving both walk halves intact. -/
theorem repair_exists (T : List Edge) (hT : T.Nodup) (C : String → Prop)
    (c d : String) (h : Linked T c d) (hc : C c) (hd : ¬ C d) :
    ∃ f ∈ T, crossesCut C f ∧
      ((Linked (T.erase f) c f.source ∧ Linked (T.erase f) f.target d) ∨
       (Linked (T.erase f) c f.target ∧ Linked (T.erase f) f.source d)) := by
  have main : ∀ n (T : List Edge), T.length ≤ n → T.Nodup → ∀ c d,
      Linked T c d → C c → ¬ C d →
      ∃ f ∈ T, crossesCut C f ∧
        ((Linked (T.erase f) c f.source ∧ Linked (T.erase f) f.target d) ∨
         (Linked (T.erase f) c f.target ∧ Linked (T.erase f) f.source d)) := by
    intro n
    induction n with
    | zero =>
      intro T hlen _ c d h hc hd
      have : T = [] := List.length_eq_zero.mp (Nat.le_zero.mp hlen)
      subst this
      obtain ⟨f0, hf0T, _⟩ := cut_walk [] C c d h hc hd
      exact absurd hf0T (List.not_mem_nil f0)
    | succ n ihn =>
      intro T hlen hT c d h hc hd
      obtain ⟨f0, hf0T, hf0c⟩ := cut_walk T C c d h hc hd
      by_cases hlink : Linked (T.erase f0) c d
      · have hlen' : (T.erase f0).length ≤ n := by
          have := List.length_erase_of_mem hf0T
          omega
        obtain ⟨f, hfT, hfc, hfh⟩ :=
          ihn (T.erase f0) hlen' (hT.erase f0) c d hlink hc hd
        refine ⟨f, List.mem_of_mem_erase hfT, hfc, ?_⟩
        have hfne : f ∉ (T.erase f0).erase f := by
          intro hmem
          exact (List.Nodup.not_mem_erase ((hT.erase f0)) ) (by exact hmem)
        have hsub : ((T.erase f0).erase f) ⊆ T.erase f := by
          intro x hx
          have hx1 : x ∈ T.erase f0 := List.mem_of_mem_erase hx
          have hx2 : x ∈ T := List.mem_of_mem_erase hx1
          have hxf : x ≠ f := by
            intro hxe; subst hxe; exact hfne hx
          exact (List.mem_erase_of_ne hxf).mpr hx2
        rcases hfh with ⟨h1, h2⟩ | ⟨h1, h2⟩
        · exact Or.inl ⟨Linked.mono hsub h1, Linked.mono hsub h2⟩
        · exact Or.inr ⟨Linked.mono hsub h1, Linked.mono hsub h2⟩
      · rcases linked_decompose T f0 c d h with hdec | hdec | hdec
        · exact absurd hdec hlink
        · exact ⟨f0, hf0T, hf0c, Or.inl hdec⟩
        · exact ⟨f0, hf0T, hf0c, Or.inr hdec⟩
  exact main T.length T (Nat.le_refl _) hT c d h hc hd

/-- Everything an edge list connects, the list with `f` swapped for `e`
still connects, provided the two removed-edge halves reconnect through
`e`'s endpoints. -/
theorem exchange_spans (T : List Edge) (f e : Edge) (c d : String)
    (hcd : (e.source = c ∧ e.target = d) ∨ (e.source = d ∧ e.target = c))
    (hhalves :
      (Linked (T.erase f) c f.source ∧ Linked (T.erase f) f.target d) ∨
      (Linked (T.erase f) c f.target ∧ Linked (T.erase f) f.source d))
    (x y : String) (hxy : Linked T x y) :
    Linked (T.erase f ++ [e]) x y := by
  have hsub : T.erase f ⊆ T.erase f ++ [e] := fun z hz => List.mem_append_left _ hz
  have hecd : Linked (T.erase f ++ [e]) c d := by
    have hee : e ∈ T.erase f ++ [e] := List.mem_append_right _ (List.mem_singleton.mpr rfl)
    rcases hcd with ⟨hs, ht⟩ | ⟨hs, ht⟩
    · exact hs ▸ ht ▸ Linked.step hee
    · exact (ht ▸ hs ▸ Linked.step hee).symm
  have hst : Linked (T.erase f ++ [e]) f.source f.target := by
    rcases hhalves with ⟨h1, h2⟩ | ⟨h1, h2⟩
    · exact Linked.trans (Linked.trans (Linked.mono hsub h1.symm) hecd)
        (Linked.mono hsub h2.symm)
    · exact (Linked.trans (Linked.trans (Linked.mono hsub h1.symm) hecd)
        (Linked.mono hsub h2.symm)).symm
  rcases linked_decompose T f x y hxy with hdec | ⟨h1, h2⟩ | ⟨h1, h2⟩
  · exact Linked.mono hsub hdec
  · exact Linked.trans (Linked.trans (Linked.mono hsub h1) hst) (Linked.mono hsub h2)
  · exact Linked.trans (Linked.trans (Linked.mono hsub h1) hst.symm) (Linked.mono hsub h2)

theorem linked_nil {u v : String} (h : Linked [] u v) : u = v := by
  induction h with
  | refl => rfl
  | tail _ hstep _ =>
    obtain ⟨e, he, _⟩ := hstep
    exact absurd he (List.not_mem_nil e)

/-- Each edge reduces the number of connected components by at most one:
there is a pairwise-unlinked vertex set of size at least `|V| - |S|`. -/
theorem unlinked_witness_set (S : List Edge) (V : List String) (hV : V.Nodup) :
    ∃ W : List String, W ⊆ V ∧ W.Nodup ∧
      (∀ x ∈ W, ∀ y ∈ W, x ≠ y → ¬ Linked S x y) ∧
      V.length ≤ S.length + W.length := by
  induction S with
  | nil =>
    refine ⟨V, fun x hx => hx, hV, ?_, by omega⟩
    intro x _ y _ hxy hlink
    exact hxy (linked_nil hlink)
  | cons f S' ih =>
    obtain ⟨W', hWsub, hWnd, hWpw, hWlen⟩ := ih
    have herase : (f :: S').erase f = S' := by
      simp [List.erase_cons_head]
    by_cases hmerge : ∃ x1 ∈ W', ∃ x2 ∈ W', x1 ≠ x2 ∧
        Linked S' x1 f.source ∧ Linked S' x2 f.target
    · obtain ⟨x1, hx1, x2, hx2, hne, hl1, hl2⟩ := hmerge
      refine ⟨W'.erase x2, fun x hx => hWsub (List.mem_of_mem_erase hx),
        hWnd.erase x2, ?_, ?_⟩
      · intro x hx y hy hxy hlink
        have hxW : x ∈ W' := List.mem_of_mem_erase hx
        have hyW : y ∈ W' := List.mem_of_mem_erase hy
        rcases linked_decompose (f :: S') f x y hlink with hdec | ⟨h1, h2⟩ | ⟨h1, h2⟩
        · exact hWpw x hxW y hyW hxy (herase ▸ hdec)
        · rw [herase] at h1 h2
          have hxx1 : x = x1 := by
            by_contra hne'
            exact hWpw x hxW x1 hx1 hne' (Linked.trans h1 hl1.symm)
          have hyx2 : y = x2 := by
            by_contra hne'
            exact hWpw y hyW x2 hx2 hne' (Linked.trans h2.symm hl2.symm)
          subst hyx2
          exact (hWnd.not_mem_erase) hy
        · rw [herase] at h1 h2
          have hxx2 : x = x2 := by
            by_contra hne'
            exact hWpw x hxW x2 hx2 hne' (Linked.trans h1 hl2.symm)
          subst hxx2
          exact (hWnd.not_mem_erase) hx
      · have : (W'.erase x2).length + 1 = W'.length := by
          have := List.length_erase_of_mem hx2
          have hpos : 0 < W'.length := List.length_pos_of_mem hx2
          omega
        simp only [List.length_cons]
        omega
    · refine ⟨W', hWsub, hWnd, ?_, by simp only [List.length_cons]; omega⟩
      intro x hx y hy hxy hlink
      rcases linked_decompose (f :: S') f x y hlink with hdec | ⟨h1, h2⟩ | ⟨h1, h2⟩
      · exact hWpw x hx y hy hxy (herase ▸ hdec)
      · rw [herase] at h1 h2
        exact hmerge ⟨x, hx, y, hy, hxy, h1, h2.symm⟩
      · rw [herase] at h1 h2
        exact hmerge ⟨y, hy, x, hx, hxy.symm, h2.symm, h1⟩

/-- Any edge set connecting all of `V` has at least `|V| - 1` edges. -/
theorem spanning_lower_bound (S : List Edge) (V : List String) (hV : V.Nodup)
    (hspan : ∀ u ∈ V, ∀ v ∈ V, Linked S u v) :
    V.length ≤ S.length + 1 := by
  obtain ⟨W, hWsub, hWnd, hWpw, hWlen⟩ := unlinked_witness_set S V hV
  have hW1 : W.length ≤ 1 := by
    by_contra hgt
    push_neg at hgt
    match W, hWnd, hgt with
    | x :: y :: rest, hnd, _ =>
      have hxy : x ≠ y := by
        intro he
        subst he
        exact (List.nodup_cons.mp hnd).1 (List.mem_cons_self x rest)
      have hx : x ∈ x :: y :: rest := List.mem_cons_self _ _
      have hy : y ∈ x :: y :: rest := List.mem_cons_of_mem _ (List.mem_cons_self _ _)
      exact hWpw x hx y hy hxy (hspan x (hWsub hx) y (hWsub hy))
  omega

def weightSum (T : List Edge) : Rat := (T.map Edge.weight).sum

def SpansAll (T : List Edge) (V : List String) : Prop :=
  ∀ u ∈ V, ∀ v ∈ V, Linked T u v

/-- A spanning tree of the graph given by vertex list `V` and edge list `E`:
a duplicate-free subset of `E` connecting all of `V` with `|V| - 1` edges. -/
def SpTree (E : List Edge) (V : List String) (T : List Edge) : Prop :=
  T ⊆ E ∧ T.Nodup ∧ SpansAll T V ∧ T.length + 1 = V.length

theorem weightSum_perm {l l' : List Edge} (h : l.Perm l') :
    weightSum l = weightSum l' :=
  List.Perm.sum_eq (List.Perm.map Edge.weight h)

theorem weightSum_append (l1 l2 : List Edge) :
    weightSum (l1 ++ l2) = weightSum l1 + weightSum l2 := by
  simp [weightSum]

theorem weightSum_erase {f : Edge} {l : List Edge} (h : f ∈ l) :
    weightSum (l.erase f) + f.weight = weightSum l := by
  have hperm : l.Perm (f :: l.erase f) := List.perm_cons_erase h
  have := weightSum_perm hperm
  simp only [weightSum, List.map_cons, List.sum_cons] at this
  rw [show weightSum (l.erase f) = (List.map Edge.weight (l.erase f)).sum from rfl]
  rw [show weightSum l = (List.map Edge.weight l).sum from rfl]
  rw [this]
  ring

/-- The blue-rule exchange step: if `F` extends to a spanning tree `T'` no
heavier than necessary, and `e` is a minimum-weight edge crossing a cut that
no `F` edge crosses, then `F ++ [e]` extends to a spanning tree of weight at
most `weightSum T'`. -/
theorem blue_step (E : List Edge) (V : List String) (F : List Edge)
    (T' : List Edge) (C : String → Prop)
    (hT' : SpTree E V T') (hFsub : F ⊆ T')
    (hFnc : ∀ gE ∈ F, ¬ crossesCut C gE)
    (e : Edge) (heE : e ∈ E) (hecross : crossesCut C e)
    (hes : e.source ∈ V) (het : e.target ∈ V)
    (hmin : ∀ f ∈ E, crossesCut C f → e.weight ≤ f.weight) :
    ∃ T'', SpTree E V T'' ∧ F ⊆ T'' ∧ e ∈ T'' ∧
      weightSum T'' ≤ weightSum T' := by
  obtain ⟨hTE, hTnd, hTsp, hTlen⟩ := hT'
  by_cases heT : e ∈ T'
  · exact ⟨T', ⟨hTE, hTnd, hTsp, hTlen⟩, hFsub, heT, le_refl _⟩
  · -- orient e across the cut
    obtain ⟨c, d, hcd, hcC, hdC⟩ :
        ∃ c d, ((e.source = c ∧ e.target = d) ∨ (e.source = d ∧ e.target = c))
          ∧ C c ∧ ¬ C d := by
      rcases hecross with ⟨h1, h2⟩ | ⟨h1, h2⟩
      · exact ⟨e.source, e.target, Or.inl ⟨rfl, rfl⟩, h1, h2⟩
      · exact ⟨e.target, e.source, Or.inr ⟨rfl, rfl⟩, h1, h2⟩
    have hcV : c ∈ V := by rcases hcd with ⟨h1, h2⟩ | ⟨h1, h2⟩
                           · exact h1 ▸ hes
                           · exact h2 ▸ het
    have hdV : d ∈ V := by rcases hcd with ⟨h1, h2⟩ | ⟨h1, h2⟩
                           · exact h2 ▸ het
                           · exact h1 ▸ hes
    obtain ⟨f, hfT, hfcross, hfhalves⟩ :=
      repair_exists T' hTnd C c d (hTsp c hcV d hdV) hcC hdC
    refine ⟨T'.erase f ++ [e], ⟨?_, ?_, ?_, ?_⟩, ?_, ?_, ?_⟩
    · intro x hx
      rcases List.mem_append.mp hx with hx | hx
      · exact hTE (List.mem_of_mem_erase hx)
      · rw [List.mem_singleton.mp hx]; exact heE
    · rw [List.nodup_append]
      refine ⟨hTnd.erase f, List.nodup_singleton e, ?_⟩
      intro x hx hx'
      rw [List.mem_singleton.mp hx'] at hx
      exact heT (List.mem_of_mem_erase hx)
    · intro u hu v hv
      exact exchange_spans T' f e c d hcd hfhalves u v (hTsp u hu v hv)
    · rw [List.length_append, List.length_singleton,
        List.length_erase_of_mem hfT]
      have hpos : 0 < T'.length := List.length_pos_of_mem hfT
      omega
    · intro x hx
      have hxT : x ∈ T' := hFsub hx
      have hxf : x ≠ f := by
        intro he'; subst he'
        exact hFnc x hx hfcross
      exact List.mem_append_left _ ((List.mem_erase_of_ne hxf).mpr hxT)
    · exact List.mem_append_right _ (List.mem_singleton.mpr rfl)
    · rw [weightSum_append]
      have hle : e.weight ≤ f.weight := hmin f (hTE hfT) hfcross
      have herw := weightSum_erase hfT
      have : weightSum [e] = e.weight := by simp [weightSum]
      rw [this]
      linarith

/-- If `F` sits inside a spanning tree and is itself finished (right size or
spanning), it is a permutation of that tree, hence a spanning tree of the
same weight. -/
theorem final_perm (E : List Edge) (V : List String) (hV : V.Nodup)
    (F T' : List Edge) (hT' : SpTree E V T') (hFsub : F ⊆ T')
    (hFnd : F.Nodup)
    (hdone : F.length + 1 = V.length ∨ SpansAll F V) :
    weightSum F = weightSum T' ∧ SpTree E V F := by
  obtain ⟨hTE, hTnd, hTsp, hTlen⟩ := hT'
  have hsp : F.Subperm T' := List.subperm_of_subset hFnd hFsub
  have hlenF : F.length + 1 = V.length := by
    rcases hdone with h | h
    · exact h
    · have h1 : V.length ≤ F.length + 1 := spanning_lower_bound F V hV h
      have h2 : F.length ≤ T'.length := hsp.length_le
      omega
  have hperm : F.Perm T' := hsp.perm_of_length_le (by omega)
  refine ⟨weightSum_perm hperm, ?_, hFnd, ?_, hlenF⟩
  · intro x hx; exact hTE (hFsub hx)
  · intro u hu v hv
    exact Linked.mono (fun x hx => (hperm.symm.mem_iff).mp hx) (hTsp u hu v hv)

/-- Two starts reach a common root. -/
def sameRootP (p : UFMap) (x y : Option String) : Prop :=
  ∃ r, rootReach p x r ∧ rootReach p y r

theorem rootReach_fix {p : UFMap} {x r : Option String}
    (h : rootReach p x r) : ufFix p r := by
  obtain ⟨n, _, hfix⟩ := h
  exact hfix

/-- Linking root `rX` under root `rY` merges exactly the two classes. -/
theorem linked_remap_classes (S : List String) (p0 : UFMap)
    (hinv0 : UFInvP S p0) (rX rY : Option String)
    (hfX : ufFix p0 rX) (hfY : ufFix p0 rY) (hne : rY ≠ rX)
    (hXS : ∃ e ∈ S, rX = some e) (hYS : ∃ e ∈ S, rY = some e) :
    ∀ x y rx ry, rootReach p0 x rx → rootReach p0 y ry →
      (sameRootP (ufSet p0 rX rY) x y ↔
        (rx = ry ∨ ((rx = rX ∨ rx = rY) ∧ (ry = rX ∨ ry = rY)))) := by
  have hlink := link_set_spec S p0 hinv0 rY rX hfY hfX hne hYS hXS
  have hfwd := hlink.2.1
  intro x y rx ry hrx hry
  constructor
  · rintro ⟨r, h1, h2⟩
    have hx' := hfwd x rx hrx
    have hy' := hfwd y ry hry
    have hrx' : r = (if rx = rX then rY else rx) := rootReach_unique _ _ _ _ h1 hx'
    have hry' : r = (if ry = rX then rY else ry) := rootReach_unique _ _ _ _ h2 hy'
    by_cases hxX : rx = rX
    · by_cases hyX : ry = rX
      · exact Or.inr ⟨Or.inl hxX, Or.inl hyX⟩
      · rw [if_pos hxX] at hrx'
        rw [if_neg hyX] at hry'
        exact Or.inr ⟨Or.inl hxX, Or.inr (hry'.symm.trans hrx')⟩
    · by_cases hyX : ry = rX
      · rw [if_neg hxX] at hrx'
        rw [if_pos hyX] at hry'
        exact Or.inr ⟨Or.inr (hrx'.symm.trans hry'), Or.inl hyX⟩
      · rw [if_neg hxX] at hrx'
        rw [if_neg hyX] at hry'
        exact Or.inl (hrx'.symm.trans hry')
  · intro hrhs
    have hremap : (if rx = rX then rY else rx) = (if ry = rX then rY else ry) := by
      rcases hrhs with heq | ⟨hx, hy⟩
      · rw [heq]
      · have hx' : (if rx = rX then rY else rx) = rY := by
          rcases hx with h | h
          · rw [if_pos h]
          · rw [h, if_neg hne]
        have hy' : (if ry = rX then rY else ry) = rY := by
          rcases hy with h | h
          · rw [if_pos h]
          · rw [h, if_neg hne]
        rw [hx', hy']
    exact ⟨_, hfwd x rx hrx, hremap ▸ hfwd y ry hry⟩

/-- `union(a, b)` merges exactly the classes of `a` and `b`: afterwards two
elements share a root precisely when they did before, or their old roots both
lay in `{root a, root b}`. -/
theorem union_classes (S : List String) (uf : UnionFind)
    (hinv : UFInvP S uf.parent) (a b : String) (ha : a ∈ S) (hb : b ∈ S) :
    ∃ rA rB, rootReach uf.parent (some a) rA ∧ rootReach uf.parent (some b) rB ∧
      ∀ x y rx ry, rootReach uf.parent x rx → rootReach uf.parent y ry →
        (sameRootP (uf.union a b).parent x y ↔
          (rx = ry ∨ ((rx = rA ∨ rx = rB) ∧ (ry = rA ∨ ry = rB)))) := by
  obtain ⟨hrA, hkA, hiffA, hinvA, _⟩ := find_spec S uf hinv a ha
  obtain ⟨hrB, hkB, hiffB, hinvB, _⟩ := find_spec S (uf.find (some a)).2 hinvA b hb
  have hrB0 : rootReach uf.parent (some b) ((uf.find (some a)).2.find (some b)).1 :=
    (hiffA _ _).mpr hrB
  have hiff : ∀ y r, rootReach uf.parent y r ↔
      rootReach ((uf.find (some a)).2.find (some b)).2.parent y r :=
    fun y r => (hiffA y r).trans (hiffB y r)
  refine ⟨(uf.find (some a)).1, ((uf.find (some a)).2.find (some b)).1,
    hrA, hrB0, ?_⟩
  intro x y rx ry hrx hry
  have hfixA : ufFix ((uf.find (some a)).2.find (some b)).2.parent (uf.find (some a)).1 :=
    rootReach_fix ((hiff _ _).mp hrA)
  have hfixB : ufFix ((uf.find (some a)).2.find (some b)).2.parent
      ((uf.find (some a)).2.find (some b)).1 :=
    rootReach_fix ((hiff _ _).mp hrB0)
  have hAS : ∃ e ∈ S, (uf.find (some a)).1 = some e :=
    rootReach_in_S S uf.parent hinv a ha _ hrA
  have hBS : ∃ e ∈ S, ((uf.find (some a)).2.find (some b)).1 = some e :=
    rootReach_in_S S uf.parent hinv b hb _ hrB0
  by_cases h12 : (uf.find (some a)).1 = ((uf.find (some a)).2.find (some b)).1
  · have hcase : uf.union a b = ((uf.find (some a)).2.find (some b)).2 := by
      unfold UnionFind.union
      rw [if_pos h12]
    rw [hcase]
    constructor
    · rintro ⟨r, h1, h2⟩
      have h1' := (hiff x r).mpr h1
      have h2' := (hiff y r).mpr h2
      have e1 : rx = r := rootReach_unique _ _ _ _ hrx h1'
      have e2 : ry = r := rootReach_unique _ _ _ _ hry h2'
      exact Or.inl (e1.trans e2.symm)
    · intro hrhs
      have heq : rx = ry := by
        rcases hrhs with h | ⟨h1, h2⟩
        · exact h
        · have hx' : rx = (uf.find (some a)).1 := by
            rcases h1 with h | h
            · exact h
            · exact h.trans h12.symm
          have hy' : ry = (uf.find (some a)).1 := by
            rcases h2 with h | h
            · exact h
            · exact h.trans h12.symm
          exact hx'.trans hy'.symm
      exact ⟨rx, (hiff x rx).mp hrx, (hiff y rx).mp (heq ▸ hry)⟩
  · have hne21 : ((uf.find (some a)).2.find (some b)).1 ≠ (uf.find (some a)).1 :=
      fun h => h12 h.symm
    have hgenAB := linked_remap_classes S ((uf.find (some a)).2.find (some b)).2.parent
      hinvB (uf.find (some a)).1 ((uf.find (some a)).2.find (some b)).1
      hfixA hfixB hne21 hAS hBS x y rx ry ((hiff x rx).mp hrx) ((hiff y ry).mp hry)
    have hgenBA := linked_remap_classes S ((uf.find (some a)).2.find (some b)).2.parent
      hinvB ((uf.find (some a)).2.find (some b)).1 (uf.find (some a)).1
      hfixB hfixA h12 hBS hAS x y rx ry ((hiff x rx).mp hrx) ((hiff y ry).mp hry)
    by_cases hlt12 : jsLtNat
        (rkGet ((uf.find (some a)).2.find (some b)).2.rank (uf.find (some a)).1)
        (rkGet ((uf.find (some a)).2.find (some b)).2.rank
          ((uf.find (some a)).2.find (some b)).1) = true
    · have hcase : (uf.union a b).parent =
          ufSet ((uf.find (some a)).2.find (some b)).2.parent
            (uf.find (some a)).1 ((uf.find (some a)).2.find (some b)).1 := by
        unfold UnionFind.union
        rw [if_neg h12, if_pos hlt12]
      rw [hcase]
      exact hgenAB
    · by_cases hlt21 : jsLtNat
          (rkGet ((uf.find (some a)).2.find (some b)).2.rank
            ((uf.find (some a)).2.find (some b)).1)
          (rkGet ((uf.find (some a)).2.find (some b)).2.rank
            (uf.find (some a)).1) = true
      · have hcase : (uf.union a b).parent =
            ufSet ((uf.find (some a)).2.find (some b)).2.parent
              ((uf.find (some a)).2.find (some b)).1 (uf.find (some a)).1 := by
          unfold UnionFind.union
          rw [if_neg h12, if_neg hlt12, if_pos hlt21]
        rw [hcase]
        exact hgenBA.trans
          ⟨fun h => h.imp id (fun hp => ⟨hp.1.symm, hp.2.symm⟩),
           fun h => h.imp id (fun hp => ⟨hp.1.symm, hp.2.symm⟩)⟩
      · have hcase : (uf.union a b).parent =
            ufSet ((uf.find (some a)).2.find (some b)).2.parent
              ((uf.find (some a)).2.find (some b)).1 (uf.find (some a)).1 := by
          unfold UnionFind.union
          rw [if_neg h12, if_neg hlt12, if_neg hlt21]
        rw [hcase]
        exact hgenBA.trans
          ⟨fun h => h.imp id (fun hp => ⟨hp.1.symm, hp.2.symm⟩),
           fun h => h.imp id (fun hp => ⟨hp.1.symm, hp.2.symm⟩)⟩

theorem edgeInsert_perm (a : Edge) (l : List Edge) :
    (edgeInsert a l).Perm (a :: l) := by
  induction l with
  | nil => exact List.Perm.refl _
  | cons b rest ih =>
    unfold edgeInsert
    by_cases h : a.weight ≤ b.weight
    · rw [if_pos h]
    · rw [if_neg h]
      exact List.Perm.trans (List.Perm.cons b ih) (List.Perm.swap a b rest)

theorem sortEdgesByWeight_perm (l : List Edge) :
    (sortEdgesByWeight l).Perm l := by
  induction l with
  | nil => exact List.Perm.refl _
  | cons a rest ih =>
    exact List.Perm.trans (edgeInsert_perm a _) (List.Perm.cons a ih)

theorem edgeInsert_sorted (a : Edge) (l : List Edge)
    (h : l.Pairwise (fun x y => x.weight ≤ y.weight)) :
    (edgeInsert a l).Pairwise (fun x y => x.weight ≤ y.weight) := by
  induction l with
  | nil => simp [edgeInsert]
  | cons b rest ih =>
    rw [List.pairwise_cons] at h
    unfold edgeInsert
    by_cases hab : a.weight ≤ b.weight
    · rw [if_pos hab]
      refine List.Pairwise.cons ?_ (List.Pairwise.cons h.1 h.2)
      intro x hx
      rcases List.mem_cons.mp hx with hx | hx
      · rw [hx]; exact hab
      · exact le_trans hab (h.1 x hx)
    · rw [if_neg hab]
      refine List.Pairwise.cons ?_ (ih h.2)
      intro x hx
      have hx' : x ∈ a :: rest := ((edgeInsert_perm a rest).mem_iff).mp hx
      rcases List.mem_cons.mp hx' with hx' | hx'
      · rw [hx']; exact le_of_not_le hab
      · exact h.1 x hx'

theorem sortEdgesByWeight_sorted (l : List Edge) :
    (sortEdgesByWeight l).Pairwise (fun x y => x.weight ≤ y.weight) := by
  induction l with
  | nil => exact List.Pairwise.nil
  | cons a rest ih => exact edgeInsert_sorted a _ ih

/-- The order on candidate weights with `none` as `Infinity`. -/
def optLe : Option Rat → Option Rat → Prop
  | some a, some b => a ≤ b
  | some _, none => True
  | none, some _ => False
  | none, none => True

theorem optLe_refl (x : Option Rat) : optLe x x := by
  cases x with
  | none => trivial
  | some a => exact le_refl a

theorem optLe_trans {x y z : Option Rat} (h1 : optLe x y) (h2 : optLe y z) :
    optLe x z := by
  cases x with
  | none => cases y with
    | none => exact h2
    | some b => exact absurd h1 (by simp [optLe])
  | some a => cases z with
    | none => trivial
    | some c =>
      cases y with
      | none => exact absurd h2 (by simp [optLe])
      | some b => exact le_trans (h1 : a ≤ b) (h2 : b ≤ c)

theorem ltOptRat_false_iff (w x : Option Rat) :
    ltOptRat w x = false ↔ optLe x w := by
  cases w with
  | none =>
    cases x <;> simp [ltOptRat, optLe]
  | some a =>
    cases x with
    | none => simp [ltOptRat, optLe]
    | some b =>
      simp only [ltOptRat, optLe, decide_eq_false_iff_not]
      exact not_lt

/-- The body of the inner neighbour loop of one Prim scan. -/
def primInner (g : Graph) (inMST : List String) (nodeInMST : String)
    (acc2 : Option Rat × Option Edge) (neighbor : String) :
    Option Rat × Option Edge :=
  if neighbor ∈ inMST then acc2
  else
    let w := g.getEdgeWeight nodeInMST neighbor
    if ltOptRat w acc2.1 then
      let found := g.getEdges.find? (fun e =>
        (e.source = nodeInMST ∧ e.target = neighbor) ∨
        (¬g.isDirected ∧ e.source = neighbor ∧ e.target = nodeInMST))
      (w, match found with
          | some e => some e
          | none => acc2.2)
    else acc2

theorem primScan_eq (g : Graph) (inMST : List String) :
    primScan g inMST =
      inMST.foldl
        (fun acc nodeInMST =>
          (g.getNeighbors nodeInMST).foldl (primInner g inMST nodeInMST) acc)
        (none, none) := rfl

/-- The running-minimum invariant of the Prim scan accumulator. -/
def ScanP (g : Graph) (inMST : List String) (acc : Option Rat × Option Edge) :
    Prop :=
  (acc.2 = none → acc.1 = none)
  ∧ (∀ m, acc.2 = some m → m ∈ g.edges.values ∧ acc.1 = some m.weight ∧
      crossesCut (fun x => x ∈ inMST) m)

theorem ltOptRat_true_le {w x : Option Rat} (h : ltOptRat w x = true) :
    optLe w x := by
  cases w with
  | none => cases x <;> simp [ltOptRat] at h
  | some a =>
    cases x with
    | none => trivial
    | some b =>
      simp only [ltOptRat, decide_eq_true_eq] at h
      exact le_of_lt h

/-- A neighbour relation pins down a first matching edge record shared by
`getEdgeWeight` and the edge search of the Prim scan. -/
theorem find_match_of_neighbor (g : Graph) (p q : String)
    (hq : q ∈ g.getNeighbors p) :
    ∃ e0, g.getEdges.find? (fun e =>
        (e.source = p ∧ e.target = q) ∨
        (¬g.isDirected ∧ e.source = q ∧ e.target = p)) = some e0
      ∧ e0 ∈ g.edges.values
      ∧ ((e0.source = p ∧ e0.target = q) ∨
         (¬g.isDirected = true ∧ e0.source = q ∧ e0.target = p))
      ∧ g.getEdgeWeight p q = some e0.weight := by
  obtain ⟨e, heE, hm⟩ := (mem_getNeighbors g p q).mp hq
  have hsat : ∃ x ∈ g.getEdges, (fun e =>
      decide ((e.source = p ∧ e.target = q) ∨
        (¬g.isDirected ∧ e.source = q ∧ e.target = p))) x = true := by
    refine ⟨e, heE, ?_⟩
    simp only [decide_eq_true_eq]
    rcases hm with ⟨h1, h2⟩ | ⟨h1, h2, h3⟩
    · exact Or.inl ⟨h1, h2⟩
    · exact Or.inr ⟨by simpa using h1, h3, h2⟩
  have hissome : (g.getEdges.find? (fun e =>
      (e.source = p ∧ e.target = q) ∨
      (¬g.isDirected ∧ e.source = q ∧ e.target = p))).isSome := by
    rw [List.find?_isSome]
    exact hsat
  obtain ⟨e0, hfind⟩ := Option.isSome_iff_exists.mp hissome
  have he0E : e0 ∈ g.getEdges := List.mem_of_find?_eq_some hfind
  have he0m : ((e0.source = p ∧ e0.target = q) ∨
      (¬g.isDirected = true ∧ e0.source = q ∧ e0.target = p)) := by
    have := List.find?_some hfind
    simp only [decide_eq_true_eq] at this
    rcases this with h | ⟨h1, h2, h3⟩
    · exact Or.inl h
    · exact Or.inr ⟨by simpa using h1, h2, h3⟩
  refine ⟨e0, hfind, he0E, he0m, ?_⟩
  show (g.edges.values.find? _).map Edge.weight = some e0.weight
  rw [show (g.edges.values.find? (fun e =>
      (e.source = p ∧ e.target = q) ∨
      (¬g.isDirected ∧ e.source = q ∧ e.target = p))) = some e0 from hfind]
  rfl

theorem primInner_step (g : Graph) (inMST : List String) (p : String)
    (hp : p ∈ inMST) (q : String) (hnbq : q ∈ g.getNeighbors p)
    (acc : Option Rat × Option Edge) (hP : ScanP g inMST acc) :
    ScanP g inMST (primInner g inMST p acc q)
    ∧ optLe (primInner g inMST p acc q).1 acc.1
    ∧ (q ∉ inMST → optLe (primInner g inMST p acc q).1 (g.getEdgeWeight p q)) := by
  by_cases hq : q ∈ inMST
  · unfold primInner
    rw [if_pos hq]
    exact ⟨hP, optLe_refl _, fun h => absurd hq h⟩
  · obtain ⟨e0, hfind, he0E, he0m, hw⟩ := find_match_of_neighbor g p q hnbq
    by_cases himp : ltOptRat (g.getEdgeWeight p q) acc.1 = true
    · have hstep : primInner g inMST p acc q = (g.getEdgeWeight p q, some e0) := by
        unfold primInner
        rw [if_neg hq, if_pos himp, hfind]
      rw [hstep]
      refine ⟨⟨fun h => by simp at h, ?_⟩, ltOptRat_true_le himp, fun _ => optLe_refl _⟩
      intro m hm
      have hme0 : m = e0 := (Option.some.inj hm).symm
      subst hme0
      refine ⟨he0E, hw, ?_⟩
      rcases he0m with ⟨h1, h2⟩ | ⟨_, h1, h2⟩
      · exact Or.inl ⟨h1 ▸ hp, h2 ▸ hq⟩
      · exact Or.inr ⟨h2 ▸ hp, h1 ▸ hq⟩
    · have hstep : primInner g inMST p acc q = acc := by
        unfold primInner
        rw [if_neg hq, if_neg himp]
      rw [hstep]
      have : optLe acc.1 (g.getEdgeWeight p q) :=
        (ltOptRat_false_iff _ _).mp (Bool.not_eq_true _ ▸ eq_false_of_ne_true himp)
      exact ⟨hP, optLe_refl _, fun _ => this⟩

theorem primInner_fold (g : Graph) (inMST : List String) (p : String)
    (hp : p ∈ inMST) :
    ∀ (nbl : List String) (acc : Option Rat × Option Edge),
    (∀ q ∈ nbl, q ∈ g.getNeighbors p) → ScanP g inMST acc →
    ScanP g inMST (nbl.foldl (primInner g inMST p) acc)
    ∧ optLe (nbl.foldl (primInner g inMST p) acc).1 acc.1
    ∧ ∀ q ∈ nbl, q ∉ inMST →
        optLe (nbl.foldl (primInner g inMST p) acc).1 (g.getEdgeWeight p q) := by
  intro nbl
  induction nbl with
  | nil =>
    intro acc _ hP
    exact ⟨hP, optLe_refl _, fun q hq => absurd hq (List.not_mem_nil q)⟩
  | cons q rest ih =>
    intro acc hnb hP
    have hnbq : q ∈ g.getNeighbors p := hnb q (List.mem_cons_self q rest)
    obtain ⟨hP1, hle1, hqb⟩ := primInner_step g inMST p hp q hnbq acc hP
    have hrest : ∀ q' ∈ rest, q' ∈ g.getNeighbors p :=
      fun q' h => hnb q' (List.mem_cons_of_mem q h)
    obtain ⟨hP2, hle2, hb2⟩ := ih (primInner g inMST p acc q) hrest hP1
    refine ⟨hP2, optLe_trans hle2 hle1, ?_⟩
    intro q' hq' hout
    rcases List.mem_cons.mp hq' with hq' | hq'
    · subst hq'
      exact optLe_trans hle2 (hqb hout)
    · exact hb2 q' hq' hout

theorem primScan_outer_fold (g : Graph) (inMST : List String) :
    ∀ (ml : List String) (acc : Option Rat × Option Edge),
    (∀ p ∈ ml, p ∈ inMST) → ScanP g inMST acc →
    ScanP g inMST (ml.foldl
      (fun acc' nodeInMST =>
        (g.getNeighbors nodeInMST).foldl (primInner g inMST nodeInMST) acc') acc)
    ∧ optLe (ml.foldl
      (fun acc' nodeInMST =>
        (g.getNeighbors nodeInMST).foldl (primInner g inMST nodeInMST) acc') acc).1 acc.1
    ∧ ∀ p ∈ ml, ∀ q ∈ g.getNeighbors p, q ∉ inMST →
        optLe (ml.foldl
          (fun acc' nodeInMST =>
            (g.getNeighbors nodeInMST).foldl (primInner g inMST nodeInMST) acc') acc).1
          (g.getEdgeWeight p q) := by
  intro ml
  induction ml with
  | nil =>
    intro acc _ hP
    exact ⟨hP, optLe_refl _, fun p hp => absurd hp (List.not_mem_nil p)⟩
  | cons p rest ih =>
    intro acc hml hP
    have hp : p ∈ inMST := hml p (List.mem_cons_self p rest)
    obtain ⟨hP1, hle1, hb1⟩ := primInner_fold g inMST p hp (g.getNeighbors p) acc
      (fun q hq => hq) hP
    have hrest : ∀ p' ∈ rest, p' ∈ inMST :=
      fun p' h => hml p' (List.mem_cons_of_mem p h)
    obtain ⟨hP2, hle2, hb2⟩ :=
      ih ((g.getNeighbors p).foldl (primInner g inMST p) acc) hrest hP1
    refine ⟨hP2, optLe_trans hle2 hle1, ?_⟩
    intro p' hp' q hq hout
    rcases List.mem_cons.mp hp' with hp' | hp'
    · subst hp'
      exact optLe_trans hle2 (hb1 q hq hout)
    · exact hb2 p' hp' q hq hout

/-- Full specification of one Prim boundary scan: the chosen edge is a
genuine crossing edge of the current cut carrying the running minimum, the
minimum is no larger than any boundary candidate, and an empty result means
the minimum stayed infinite. -/
theorem primScan_spec (g : Graph) (inMST : List String) :
    ((primScan g inMST).2 = none → (primScan g inMST).1 = none)
    ∧ (∀ m, (primScan g inMST).2 = some m → m ∈ g.edges.values ∧
        (primScan g inMST).1 = some m.weight ∧ crossesCut (fun x => x ∈ inMST) m)
    ∧ (∀ p ∈ inMST, ∀ q ∈ g.getNeighbors p, q ∉ inMST →
        optLe (primScan g inMST).1 (g.getEdgeWeight p q)) := by
  have h0 : ScanP g inMST (none, none) :=
    ⟨fun _ => rfl, fun m hm => by simp at hm⟩
  obtain ⟨hP, _, hb⟩ := primScan_outer_fold g inMST inMST (none, none)
    (fun p hp => hp) h0
  rw [primScan_eq]
  exact ⟨hP.1, hP.2, hb⟩

/-- Invariant 2 of the data model, undirected form: no two distinct stored
edges connect the same unordered pair. -/
def noDupPairs (g : Graph) : Prop :=
  ∀ e1 ∈ g.edges.values, ∀ e2 ∈ g.edges.values, e1 ≠ e2 →
    ¬((e1.source = e2.source ∧ e1.target = e2.target) ∨
      (e1.source = e2.target ∧ e1.target = e2.source))

/-- With no parallel edges, `getEdgeWeight` of a matching pair returns that
edge's weight. -/
theorem getEdgeWeight_of_match (g : Graph) (hnd : noDupPairs g) (f : Edge)
    (hf : f ∈ g.edges.values) (p q : String)
    (hm : (f.source = p ∧ f.target = q) ∨
      (¬g.isDirected = true ∧ f.source = q ∧ f.target = p)) :
    g.getEdgeWeight p q = some f.weight := by
  have hsat : ∃ x ∈ g.edges.values, (fun e =>
      decide ((e.source = p ∧ e.target = q) ∨
        (¬g.isDirected ∧ e.source = q ∧ e.target = p))) x = true := by
    refine ⟨f, hf, ?_⟩
    simp only [decide_eq_true_eq]
    rcases hm with ⟨h1, h2⟩ | ⟨h1, h2, h3⟩
    · exact Or.inl ⟨h1, h2⟩
    · exact Or.inr ⟨by simpa using h1, h2, h3⟩
  have hissome : (g.edges.values.find? (fun e =>
      (e.source = p ∧ e.target = q) ∨
      (¬g.isDirected ∧ e.source = q ∧ e.target = p))).isSome := by
    rw [List.find?_isSome]
    exact hsat
  obtain ⟨e0, hfind⟩ := Option.isSome_iff_exists.mp hissome
  have he0E : e0 ∈ g.edges.values := List.mem_of_find?_eq_some hfind
  have he0m : (e0.source = p ∧ e0.target = q) ∨
      (¬(g.isDirected = true) ∧ e0.source = q ∧ e0.target = p) := by
    have := List.find?_some hfind
    simp only [decide_eq_true_eq] at this
    rcases this with h | ⟨h1, h2, h3⟩
    · exact Or.inl h
    · exact Or.inr ⟨by simpa using h1, h2, h3⟩
  have he0f : e0 = f := by
    by_contra hne
    apply hnd e0 he0E f hf hne
    rcases he0m with ⟨h1, h2⟩ | ⟨_, h1, h2⟩ <;>
      rcases hm with ⟨h3, h4⟩ | ⟨_, h3, h4⟩
    · exact Or.inl ⟨h1.trans h3.symm, h2.trans h4.symm⟩
    · exact Or.inr ⟨h1.trans h4.symm, h2.trans h3.symm⟩
    · exact Or.inr ⟨h1.trans h4.symm, h2.trans h3.symm⟩
    · exact Or.inl ⟨h1.trans h3.symm, h2.trans h4.symm⟩
  show (g.edges.values.find? _).map Edge.weight = some f.weight
  rw [show (g.edges.values.find? (fun e =>
      (e.source = p ∧ e.target = q) ∨
      (¬g.isDirected ∧ e.source = q ∧ e.target = p))) = some e0 from hfind,
    he0f]
  rfl

/-- On an undirected graph with no parallel edges, the Prim scan minimum is
at most the weight of every edge crossing the current cut. -/
theorem prim_min_crossing (g : Graph) (hund : g.isDirected = false)
    (hnd : noDupPairs g) (inMST : List String) (f : Edge)
    (hf : f ∈ g.edges.values) (hcross : crossesCut (fun x => x ∈ inMST) f) :
    optLe (primScan g inMST).1 (some f.weight) := by
  have hdir : ¬g.isDirected = true := by rw [hund]; exact Bool.false_ne_true
  obtain ⟨hsp, hb⟩ := (primScan_spec g inMST).2
  rcases hcross with ⟨hs, ht⟩ | ⟨ht, hs⟩
  · have hq : f.target ∈ g.getNeighbors f.source :=
      (mem_getNeighbors g f.source f.target).mpr ⟨f, hf, Or.inl ⟨rfl, rfl⟩⟩
    have hgew : g.getEdgeWeight f.source f.target = some f.weight :=
      getEdgeWeight_of_match g hnd f hf f.source f.target (Or.inl ⟨rfl, rfl⟩)
    have := hb f.source hs f.target hq ht
    rw [hgew] at this
    exact this
  · have hq : f.source ∈ g.getNeighbors f.target :=
      (mem_getNeighbors g f.target f.source).mpr ⟨f, hf, Or.inr ⟨hdir, rfl, rfl⟩⟩
    have hgew : g.getEdgeWeight f.target f.source = some f.weight :=
      getEdgeWeight_of_match g hnd f hf f.target f.source (Or.inr ⟨hdir, rfl, rfl⟩)
    have := hb f.target ht f.source hq hs
    rw [hgew] at this
    exact this

theorem exists_not_mem_of_length_lt (W V : List String)
    (hVnd : V.Nodup) (hlen : W.length < V.length) : ∃ v ∈ V, v ∉ W := by
  by_contra habs
  push_neg at habs
  have hVW : V ⊆ W := fun v hv => habs v hv
  have := (List.subperm_of_subset hVnd hVW).length_le
  omega

/-- Everything can be extended to a spanning tree at most as heavy as a given
one. -/
def BlueExt (E : List Edge) (V : List String) (F : List Edge) : Prop :=
  ∀ T, SpTree E V T → ∃ T', SpTree E V T' ∧ F ⊆ T' ∧ weightSum T' ≤ weightSum T

/-- The Prim loop invariant over the growing tree. -/
structure PrimInv (g : Graph) (s : String) (inMST : List String)
    (F : List Edge) (tw : Rat) : Prop where
  sub : ∀ x ∈ inMST, x ∈ g.nodes.keys
  nd : inMST.Nodup
  smem : s ∈ inMST
  Fsub : F ⊆ g.edges.values
  Fnd : F.Nodup
  Fends : ∀ e ∈ F, e.source ∈ inMST ∧ e.target ∈ inMST
  Fconn : ∀ x ∈ inMST, Linked F s x
  len : F.length + 1 = inMST.length
  twv : tw = weightSum F
  blue : BlueExt g.edges.values g.nodes.keys F

theorem primLoop_opt (g : Graph) (hund : g.isDirected = false)
    (hWF : endpointsExist g) (hnd : noDupPairs g)
    (hVnd : g.nodes.keys.Nodup)
    (hconn : ∀ u ∈ g.nodes.keys, ∀ v ∈ g.nodes.keys, Linked g.edges.values u v)
    (s : String) :
    ∀ (fuel : Nat) (inMST : List String) (F : List Edge) (tw : Rat),
    PrimInv g s inMST F tw →
    g.nodes.length ≤ inMST.length + fuel →
    SpTree g.edges.values g.nodes.keys (primLoop g fuel inMST F tw).2.1
    ∧ (primLoop g fuel inMST F tw).2.2 =
        weightSum (primLoop g fuel inMST F tw).2.1
    ∧ ∀ T, SpTree g.edges.values g.nodes.keys T →
        weightSum (primLoop g fuel inMST F tw).2.1 ≤ weightSum T := by
  have hkeylen : g.nodes.keys.length = g.nodes.length := List.length_map _ _
  have finish : ∀ (inMST : List String) (F : List Edge) (tw : Rat),
      PrimInv g s inMST F tw → g.nodes.length ≤ inMST.length →
      SpTree g.edges.values g.nodes.keys F ∧ tw = weightSum F ∧
      ∀ T, SpTree g.edges.values g.nodes.keys T →
        weightSum F ≤ weightSum T := by
    intro inMST F tw hinv hstop
    have hsp : inMST.Subperm g.nodes.keys :=
      List.subperm_of_subset hinv.nd (fun x hx => hinv.sub x hx)
    have hlen : inMST.length = g.nodes.keys.length := by
      have := hsp.length_le
      omega
    have hperm : inMST.Perm g.nodes.keys := hsp.perm_of_length_le (by omega)
    have hVsub : ∀ v ∈ g.nodes.keys, v ∈ inMST :=
      fun v hv => hperm.symm.subset hv
    have hspans : SpansAll F g.nodes.keys := by
      intro u hu v hv
      exact (hinv.Fconn u (hVsub u hu)).symm.trans (hinv.Fconn v (hVsub v hv))
    have htree : SpTree g.edges.values g.nodes.keys F :=
      ⟨hinv.Fsub, hinv.Fnd, hspans, by rw [hinv.len, hlen]⟩
    refine ⟨htree, hinv.twv, ?_⟩
    intro T hT
    obtain ⟨T', hT', hFT', hwle⟩ := hinv.blue T hT
    have := final_perm g.edges.values g.nodes.keys hVnd F T' hT' hFT' hinv.Fnd
      (Or.inl (by rw [hinv.len, hlen]))
    calc weightSum F = weightSum T' := this.1
      _ ≤ weightSum T := hwle
  intro fuel
  induction fuel with
  | zero =>
    intro inMST F tw hinv hfuel
    exact finish inMST F tw hinv (by omega)
  | succ fuel ih =>
    intro inMST F tw hinv hfuel
    by_cases hlt : inMST.length < g.nodes.length
    · cases hscan : (primScan g inMST).2 with
      | none =>
        exfalso
        obtain ⟨v, hvV, hvout⟩ := exists_not_mem_of_length_lt inMST g.nodes.keys
          hVnd (by omega)
        have hsV : s ∈ g.nodes.keys := hinv.sub s hinv.smem
        obtain ⟨f, hfE, hfcross⟩ := cut_walk g.edges.values (fun x => x ∈ inMST) s v
          (hconn s hsV v hvV) hinv.smem hvout
        have hdir : ¬g.isDirected = true := by rw [hund]; exact Bool.false_ne_true
        have hscan1 : (primScan g inMST).1 = none := (primScan_spec g inMST).1 hscan
        obtain ⟨_, hb⟩ := (primScan_spec g inMST).2
        rcases hfcross with ⟨hs, ht⟩ | ⟨ht, hs⟩
        · have hq : f.target ∈ g.getNeighbors f.source :=
            (mem_getNeighbors g f.source f.target).mpr ⟨f, hfE, Or.inl ⟨rfl, rfl⟩⟩
          obtain ⟨e0, _, _, _, hgew⟩ := find_match_of_neighbor g f.source f.target hq
          have := hb f.source hs f.target hq ht
          rw [hscan1, hgew] at this
          exact this
        · have hq : f.source ∈ g.getNeighbors f.target :=
            (mem_getNeighbors g f.target f.source).mpr
              ⟨f, hfE, Or.inr ⟨hdir, rfl, rfl⟩⟩
          obtain ⟨e0, _, _, _, hgew⟩ := find_match_of_neighbor g f.target f.source hq
          have := hb f.target ht f.source hq hs
          rw [hscan1, hgew] at this
          exact this
      | some m =>
        obtain ⟨hmE, hmw, hmcross⟩ := (primScan_spec g inMST).2.1 m hscan
        have hstep : primLoop g (fuel + 1) inMST F tw =
            primLoop g fuel
              (Graph.addUnique inMST
                (if m.source ∈ inMST then m.target else m.source))
              (F ++ [m]) (tw + (primScan g inMST).1.getD 0) := by
          show (if inMST.length < g.nodes.length then _ else _) = _
          rw [if_pos hlt]
          simp only [hscan]
        rw [hstep]
        obtain ⟨hin, hout, hnew⟩ :
            ∃ pIn pOut, (pIn ∈ inMST ∧ pOut ∉ inMST ∧
              (if m.source ∈ inMST then m.target else m.source) = pOut ∧
              ((m.source = pIn ∧ m.target = pOut) ∨
               (m.target = pIn ∧ m.source = pOut))) := by
          rcases hmcross with ⟨hs, ht⟩ | ⟨ht, hs⟩
          · exact ⟨m.source, m.target, hs, ht, if_pos hs, Or.inl ⟨rfl, rfl⟩⟩
          · exact ⟨m.target, m.source, ht, hs, if_neg hs, Or.inr ⟨rfl, rfl⟩⟩
        obtain ⟨hpin, hpout, hifeq, horient⟩ := hnew
        rw [hifeq]
        have haddu : Graph.addUnique inMST hout = inMST ++ [hout] := by
          unfold Graph.addUnique
          rw [if_neg hpout]
        rw [haddu]
        have htw : (primScan g inMST).1.getD 0 = m.weight := by rw [hmw]; rfl
        rw [htw]
        have hmF : m ∉ F := by
          intro hmem
          have := hinv.Fends m hmem
          rcases horient with ⟨h1, h2⟩ | ⟨h1, h2⟩
          · exact hpout (h2 ▸ this.2)
          · exact hpout (h2 ▸ this.1)
        have hsrcV : m.source ∈ g.nodes.keys :=
          (JSMap.hasKey_eq_keys_mem _ _).mp (hWF m hmE).1
        have htgtV : m.target ∈ g.nodes.keys :=
          (JSMap.hasKey_eq_keys_mem _ _).mp (hWF m hmE).2
        have hmstep : Linked (F ++ [m]) hin hout := by
          have hmem : m ∈ F ++ [m] :=
            List.mem_append_right _ (List.mem_singleton.mpr rfl)
          rcases horient with ⟨h1, h2⟩ | ⟨h1, h2⟩
          · exact Relation.ReflTransGen.single ⟨m, hmem, Or.inl ⟨h1, h2⟩⟩
          · exact Relation.ReflTransGen.single ⟨m, hmem, Or.inr ⟨h1, h2⟩⟩
        refine ih (inMST ++ [hout]) (F ++ [m]) (tw + m.weight) ?_ ?_
        · constructor
          · intro x hx
            rcases List.mem_append.mp hx with hx | hx
            · exact hinv.sub x hx
            · rw [List.mem_singleton.mp hx]
              rcases horient with ⟨h1, h2⟩ | ⟨h1, h2⟩
              · exact h2 ▸ htgtV
              · exact h2 ▸ hsrcV
          · rw [List.nodup_append]
            refine ⟨hinv.nd, List.nodup_singleton _, ?_⟩
            intro a ha ha'
            rw [List.mem_singleton.mp ha'] at ha
            exact hpout ha
          · exact List.mem_append_left _ hinv.smem
          · intro x hx
            rcases List.mem_append.mp hx with hx | hx
            · exact hinv.Fsub hx
            · rw [List.mem_singleton.mp hx]; exact hmE
          · rw [List.nodup_append]
            refine ⟨hinv.Fnd, List.nodup_singleton _, ?_⟩
            intro a ha ha'
            rw [List.mem_singleton.mp ha'] at ha
            exact hmF ha
          · intro e he
            rcases List.mem_append.mp he with he | he
            · have := hinv.Fends e he
              exact ⟨List.mem_append_left _ this.1, List.mem_append_left _ this.2⟩
            · rw [List.mem_singleton.mp he]
              rcases horient with ⟨h1, h2⟩ | ⟨h1, h2⟩
              · exact ⟨h1 ▸ List.mem_append_left _ hpin,
                  h2 ▸ List.mem_append_right _ (List.mem_singleton.mpr rfl)⟩
              · exact ⟨h2 ▸ List.mem_append_right _ (List.mem_singleton.mpr rfl),
                  h1 ▸ List.mem_append_left _ hpin⟩
          · intro x hx
            rcases List.mem_append.mp hx with hx | hx
            · exact Linked.mono (fun z hz => List.mem_append_left _ hz)
                (hinv.Fconn x hx)
            · rw [List.mem_singleton.mp hx]
              exact Linked.trans
                (Linked.mono (fun z hz => List.mem_append_left _ hz)
                  (hinv.Fconn hin hpin)) hmstep
          · simp only [List.length_append, List.length_singleton]
            have := hinv.len
            omega
          · rw [hinv.twv, weightSum_append]
            simp [weightSum]
          · intro T hT
            obtain ⟨T', hT', hFT', hwle⟩ := hinv.blue T hT
            have hFnc : ∀ gE ∈ F, ¬ crossesCut (fun x => x ∈ inMST) gE := by
              intro gE hgE hcr
              have := hinv.Fends gE hgE
              rcases hcr with ⟨_, h2⟩ | ⟨_, h2⟩
              · exact h2 this.2
              · exact h2 this.1
            have hmin : ∀ f ∈ g.edges.values, crossesCut (fun x => x ∈ inMST) f →
                m.weight ≤ f.weight := by
              intro f hf hcr
              have := prim_min_crossing g hund hnd inMST f hf hcr
              rw [hmw] at this
              exact this
            obtain ⟨T'', hT'', hsubF, hmemM, hwle2⟩ :=
              blue_step g.edges.values g.nodes.keys F T' (fun x => x ∈ inMST) hT' hFT' hFnc
                m hmE hmcross hsrcV htgtV hmin
            refine ⟨T'', hT'', ?_, le_trans hwle2 hwle⟩
            intro x hx
            rcases List.mem_append.mp hx with hx | hx
            · exact hsubF hx
            · rw [List.mem_singleton.mp hx]; exact hmemM
        · simp only [List.length_append, List.length_singleton]
          omega
    · have hstep : primLoop g (fuel + 1) inMST F tw = (inMST, F, tw) := by
        show (if inMST.length < g.nodes.length then _ else _) = _
        rw [if_neg hlt]
      rw [hstep]
      exact finish inMST F tw hinv (by omega)

/-- `prim` on a weighted undirected connected well-formed graph returns a
minimum spanning tree. -/
theorem prim_opt (g : Graph) (startArg : Option String)
    (hw : g.isWeighted = true) (hund : g.isDirected = false)
    (hWF : endpointsExist g) (hnd : noDupPairs g)
    (hVnd : g.nodes.keys.Nodup) (hn : ¬ g.nodes.length = 0)
    (hconn : ∀ u ∈ g.nodes.keys, ∀ v ∈ g.nodes.keys, Linked g.edges.values u v)
    (hstart : Graph.strTruthy startArg = true → startArg.getD "" ∈ g.nodes.keys) :
    ∃ P : PrimResult, GraphAlgorithms.prim g startArg = .ok P ∧
      SpTree g.edges.values g.nodes.keys P.mstEdges ∧
      P.totalWeight = weightSum P.mstEdges ∧
      ∀ T, SpTree g.edges.values g.nodes.keys T →
        weightSum P.mstEdges ≤ weightSum T := by
  have hkeylen : g.nodes.keys.length = g.nodes.length := List.length_map _ _
  have hprim : GraphAlgorithms.prim g startArg = .ok
      { startNode := some (if Graph.strTruthy startArg then startArg.getD ""
          else g.nodes.keys.headI),
        mstEdges := (primLoop g (g.nodes.length + 1)
          [if Graph.strTruthy startArg then startArg.getD ""
           else g.nodes.keys.headI] [] 0).2.1,
        totalWeight := (primLoop g (g.nodes.length + 1)
          [if Graph.strTruthy startArg then startArg.getD ""
           else g.nodes.keys.headI] [] 0).2.2,
        nodesReached := (primLoop g (g.nodes.length + 1)
          [if Graph.strTruthy startArg then startArg.getD ""
           else g.nodes.keys.headI] [] 0).1.length } := by
    unfold GraphAlgorithms.prim
    rw [if_neg (fun h => h hw), if_neg hn]
  have hsV : (if Graph.strTruthy startArg then startArg.getD ""
      else g.nodes.keys.headI) ∈ g.nodes.keys := by
    by_cases hTru : Graph.strTruthy startArg = true
    · rw [if_pos hTru]
      exact hstart hTru
    · rw [if_neg hTru]
      cases hk : g.nodes.keys with
      | nil =>
        exfalso
        apply hn
        rw [← hkeylen, hk]
        rfl
      | cons k rest =>
        exact List.mem_cons_self k rest
  have hinv0 : PrimInv g
      (if Graph.strTruthy startArg then startArg.getD "" else g.nodes.keys.headI)
      [if Graph.strTruthy startArg then startArg.getD "" else g.nodes.keys.headI]
      [] 0 := by
    constructor
    · intro x hx
      rw [List.mem_singleton.mp hx]
      exact hsV
    · exact List.nodup_singleton _
    · exact List.mem_singleton.mpr rfl
    · exact List.nil_subset _
    · exact List.nodup_nil
    · intro e he
      exact absurd he (List.not_mem_nil e)
    · intro x hx
      rw [List.mem_singleton.mp hx]
      exact Linked.refl _ _
    · rfl
    · rfl
    · intro T hT
      exact ⟨T, hT, List.nil_subset _, le_refl _⟩
  obtain ⟨htree, htw, hmin⟩ := primLoop_opt g hund hWF hnd hVnd hconn
    (if Graph.strTruthy startArg then startArg.getD "" else g.nodes.keys.headI)
    (g.nodes.length + 1)
    [if Graph.strTruthy startArg then startArg.getD "" else g.nodes.keys.headI]
    [] 0 hinv0 (by simp only [List.length_singleton]; omega)
  exact ⟨_, hprim, htree, htw, hmin⟩

/-- If every edge of `E` is in `F` or has its endpoints already `F`-linked,
then `F` connects everything `E` connects. -/
theorem linked_of_steps_linked (E F : List Edge)
    (hacc : ∀ f ∈ E, f ∈ F ∨ Linked F f.source f.target) :
    ∀ u v, Linked E u v → Linked F u v := by
  intro u v h
  induction h with
  | refl => exact Linked.refl _ _
  | tail hxy hstep ih =>
    rename_i b c
    obtain ⟨e, he, hc⟩ := hstep
    have hstep' : Linked F b c := by
      rcases hacc e he with hF | hL
      · rcases hc with ⟨h1, h2⟩ | ⟨h1, h2⟩
        · exact h1 ▸ h2 ▸ Linked.step hF
        · exact h1 ▸ h2 ▸ (Linked.step hF).symm
      · rcases hc with ⟨h1, h2⟩ | ⟨h1, h2⟩
        · exact h1 ▸ h2 ▸ hL
        · exact h1 ▸ h2 ▸ hL.symm
    exact Linked.trans ih hstep'

/-- Adding one fresh edge extends connectivity by exactly the merge through
its endpoints. -/
theorem linked_append_one (F : List Edge) (e : Edge) (he : e ∉ F)
    (x y : String) :
    Linked (F ++ [e]) x y ↔
      (Linked F x y ∨ (Linked F x e.source ∧ Linked F e.target y) ∨
       (Linked F x e.target ∧ Linked F e.source y)) := by
  have herase : (F ++ [e]).erase e = F := by
    rw [List.erase_append_right _ he, List.erase_cons_head, List.append_nil]
  constructor
  · intro h
    rcases linked_decompose (F ++ [e]) e x y h with h | ⟨h1, h2⟩ | ⟨h1, h2⟩
    · exact Or.inl (herase ▸ h)
    · exact Or.inr (Or.inl ⟨herase ▸ h1, herase ▸ h2⟩)
    · exact Or.inr (Or.inr ⟨herase ▸ h1, herase ▸ h2⟩)
  · have hsub : F ⊆ F ++ [e] := fun z hz => List.mem_append_left _ hz
    have hestep : Linked (F ++ [e]) e.source e.target :=
      Linked.step (List.mem_append_right _ (List.mem_singleton.mpr rfl))
    rintro (h | ⟨h1, h2⟩ | ⟨h1, h2⟩)
    · exact Linked.mono hsub h
    · exact Linked.trans (Linked.trans (Linked.mono hsub h1) hestep)
        (Linked.mono hsub h2)
    · exact Linked.trans (Linked.trans (Linked.mono hsub h1) hestep.symm)
        (Linked.mono hsub h2)

/-- The Kruskal loop invariant: the union-find classes mirror forest
connectivity, the remaining edges are a sorted suffix disjoint from the
forest, and every original edge is accounted for. -/
structure KruskalInv (g : Graph) (remaining : List Edge) (uf : UnionFind)
    (F : List Edge) (tw : Rat) : Prop where
  ufinv : UFInvP g.nodes.keys uf.parent
  classes : ∀ x ∈ g.nodes.keys, ∀ y ∈ g.nodes.keys,
    (sameRootP uf.parent (some x) (some y) ↔ Linked F x y)
  Fsub : F ⊆ g.edges.values
  rsub : remaining ⊆ g.edges.values
  Frnd : (F ++ remaining).Nodup
  sorted : remaining.Pairwise (fun a b => a.weight ≤ b.weight)
  acct : ∀ f ∈ g.edges.values, f ∈ remaining ∨ f ∈ F ∨
    Linked F f.source f.target
  twv : tw = weightSum F
  blue : BlueExt g.edges.values g.nodes.keys F

/-- After `union` on a fresh accepted edge, the union-find classes mirror
connectivity of the forest extended by that edge. -/
theorem classes_after_union (g : Graph) (uf1 : UnionFind)
    (hinv1 : UFInvP g.nodes.keys uf1.parent) (F : List Edge)
    (hcls : ∀ x ∈ g.nodes.keys, ∀ y ∈ g.nodes.keys,
      sameRootP uf1.parent (some x) (some y) ↔ Linked F x y)
    (e : Edge) (he : e ∉ F)
    (hs : e.source ∈ g.nodes.keys) (ht : e.target ∈ g.nodes.keys) :
    ∀ x ∈ g.nodes.keys, ∀ y ∈ g.nodes.keys,
      sameRootP (uf1.union e.source e.target).parent (some x) (some y) ↔
        Linked (F ++ [e]) x y := by
  obtain ⟨rA, rB, hrA, hrB, hiff⟩ :=
    union_classes g.nodes.keys uf1 hinv1 e.source e.target hs ht
  intro x hx y hy
  obtain ⟨rx, hrx⟩ := hinv1.2.1 x hx
  obtain ⟨ry, hry⟩ := hinv1.2.1 y hy
  rw [hiff (some x) (some y) rx ry hrx hry]
  have hpair : ∀ (z : String), z ∈ g.nodes.keys →
      ∀ rz, rootReach uf1.parent (some z) rz →
      ((rz = rA ↔ Linked F z e.source) ∧ (rz = rB ↔ Linked F z e.target)) := by
    intro z hz rz hrz
    constructor
    · rw [← hcls z hz e.source hs]
      constructor
      · intro h; exact ⟨rA, h ▸ hrz, hrA⟩
      · rintro ⟨r, h1, h2⟩
        rw [rootReach_unique _ _ _ _ hrz h1, rootReach_unique _ _ _ _ hrA h2]
    · rw [← hcls z hz e.target ht]
      constructor
      · intro h; exact ⟨rB, h ▸ hrz, hrB⟩
      · rintro ⟨r, h1, h2⟩
        rw [rootReach_unique _ _ _ _ hrz h1, rootReach_unique _ _ _ _ hrB h2]
  obtain ⟨hxA, hxB⟩ := hpair x hx rx hrx
  obtain ⟨hyA, hyB⟩ := hpair y hy ry hry
  have hxy : rx = ry ↔ Linked F x y := by
    rw [← hcls x hx y hy]
    constructor
    · intro h; exact ⟨ry, h ▸ hrx, hry⟩
    · rintro ⟨r, h1, h2⟩
      rw [rootReach_unique _ _ _ _ hrx h1, rootReach_unique _ _ _ _ hry h2]
  rw [linked_append_one F e he x y]
  constructor
  · rintro (h | ⟨hx', hy'⟩)
    · exact Or.inl (hxy.mp h)
    · rcases hx' with hA | hB <;> rcases hy' with hA' | hB'
      · exact Or.inl ((hxA.mp hA).trans (hyA.mp hA').symm)
      · exact Or.inr (Or.inl ⟨hxA.mp hA, (hyB.mp hB').symm⟩)
      · exact Or.inr (Or.inr ⟨hxB.mp hB, (hyA.mp hA').symm⟩)
      · exact Or.inl ((hxB.mp hB).trans (hyB.mp hB').symm)
  · rintro (h | ⟨h1, h2⟩ | ⟨h1, h2⟩)
    · exact Or.inl (hxy.mpr h)
    · exact Or.inr ⟨Or.inl (hxA.mpr h1), Or.inr (hyB.mpr h2.symm)⟩
    · exact Or.inr ⟨Or.inr (hxB.mpr h1), Or.inl (hyA.mpr h2.symm)⟩

theorem kruskalLoop_opt (g : Graph) (hWF : endpointsExist g)
    (hVnd : g.nodes.keys.Nodup)
    (hconn : ∀ u ∈ g.nodes.keys, ∀ v ∈ g.nodes.keys, Linked g.edges.values u v)
    (T : List Edge) (hT : SpTree g.edges.values g.nodes.keys T) :
    ∀ (remaining : List Edge) (uf : UnionFind) (F : List Edge) (tw : Rat)
      (steps : List KStep),
    KruskalInv g remaining uf F tw →
    (kruskalLoop (g.nodes.length : Int) remaining uf F tw steps).2.1 =
      weightSum (kruskalLoop (g.nodes.length : Int) remaining uf F tw steps).1
    ∧ SpTree g.edges.values g.nodes.keys
        (kruskalLoop (g.nodes.length : Int) remaining uf F tw steps).1
    ∧ weightSum (kruskalLoop (g.nodes.length : Int) remaining uf F tw steps).1 ≤
        weightSum T := by
  have hkeylen : g.nodes.keys.length = g.nodes.length := List.length_map _ _
  have finish : ∀ (remaining : List Edge) (uf : UnionFind) (F : List Edge)
      (tw : Rat), KruskalInv g remaining uf F tw →
      (F.length + 1 = g.nodes.keys.length ∨ SpansAll F g.nodes.keys) →
      tw = weightSum F ∧ SpTree g.edges.values g.nodes.keys F ∧
      weightSum F ≤ weightSum T := by
    intro remaining uf F tw hinv hdone
    obtain ⟨T', hT', hsub', hle'⟩ := hinv.blue T hT
    have hFnd : F.Nodup := (List.nodup_append.mp hinv.Frnd).1
    obtain ⟨weq, htree⟩ :=
      final_perm g.edges.values g.nodes.keys hVnd F T' hT' hsub' hFnd hdone
    exact ⟨hinv.twv, htree, le_of_le_of_eq hle' rfl |> fun h => weq ▸ h⟩
  intro remaining
  induction remaining with
  | nil =>
    intro uf F tw steps hinv
    have hspans : SpansAll F g.nodes.keys := by
      intro u hu v hv
      refine linked_of_steps_linked g.edges.values F ?_ u v (hconn u hu v hv)
      intro f hf
      rcases hinv.acct f hf with h | h | h
      · exact absurd h (List.not_mem_nil f)
      · exact Or.inl h
      · exact Or.inr h
    obtain ⟨htw, htree, hle⟩ := finish [] uf F tw hinv (Or.inr hspans)
    exact ⟨htw, htree, hle⟩
  | cons e rest ih =>
    intro uf F tw steps hinv
    have heE : e ∈ g.edges.values := hinv.rsub (List.mem_cons_self e rest)
    have hsK : e.source ∈ g.nodes.keys :=
      (JSMap.hasKey_eq_keys_mem _ _).mp (hWF e heE).1
    have htK : e.target ∈ g.nodes.keys :=
      (JSMap.hasKey_eq_keys_mem _ _).mp (hWF e heE).2
    obtain ⟨hciff, hinv1, hriff, _⟩ :=
      connected_spec g.nodes.keys uf hinv.ufinv e.source e.target hsK htK
    have classes1 : ∀ x ∈ g.nodes.keys, ∀ y ∈ g.nodes.keys,
        sameRootP (uf.connected e.source e.target).2.parent (some x) (some y) ↔
          Linked F x y := by
      intro x hx y hy
      rw [← hinv.classes x hx y hy]
      constructor
      · rintro ⟨r, h1, h2⟩
        exact ⟨r, (hriff _ _).mpr h1, (hriff _ _).mpr h2⟩
      · rintro ⟨r, h1, h2⟩
        exact ⟨r, (hriff _ _).mp h1, (hriff _ _).mp h2⟩
    have hunfold : kruskalLoop (g.nodes.length : Int) (e :: rest) uf F tw steps =
        (if (uf.connected e.source e.target).1 = true then
          (if (F.length : Int) = (g.nodes.length : Int) - 1 then
            (F, tw, steps ++
              [({ edge := e, action := "rejected", reason := "Formaría un ciclo" } : KStep)])
           else kruskalLoop (g.nodes.length : Int) rest
             (uf.connected e.source e.target).2 F tw
             (steps ++
              [({ edge := e, action := "rejected", reason := "Formaría un ciclo" } : KStep)]))
         else
          (if ((F ++ [e]).length : Int) = (g.nodes.length : Int) - 1 then
            (F ++ [e], tw + e.weight, steps ++
              [({ edge := e, action := "added", reason := "No forma ciclo" } : KStep)])
           else kruskalLoop (g.nodes.length : Int) rest
             ((uf.connected e.source e.target).2.union e.source e.target)
             (F ++ [e]) (tw + e.weight)
             (steps ++
              [({ edge := e, action := "added", reason := "No forma ciclo" } : KStep)]))) := rfl
    rw [hunfold]
    have hFrest_nd : (F ++ rest).Nodup := by
      have hsl : (F ++ rest).Sublist (F ++ (e :: rest)) :=
        List.Sublist.append_left (List.sublist_cons_self e rest) F
      exact hinv.Frnd.sublist hsl
    by_cases hc : (uf.connected e.source e.target).1 = true
    · rw [if_pos hc]
      have hLink : Linked F e.source e.target :=
        (hinv.classes _ hsK _ htK).mp (hciff.mp hc)
      have hinv' : KruskalInv g rest (uf.connected e.source e.target).2 F tw :=
        { ufinv := hinv1
          classes := classes1
          Fsub := hinv.Fsub
          rsub := fun f hf => hinv.rsub (List.mem_cons_of_mem e hf)
          Frnd := hFrest_nd
          sorted := (List.pairwise_cons.mp hinv.sorted).2
          acct := by
            intro f hf
            rcases hinv.acct f hf with h | h | h
            · rcases List.mem_cons.mp h with h | h
              · subst h
                exact Or.inr (Or.inr hLink)
              · exact Or.inl h
            · exact Or.inr (Or.inl h)
            · exact Or.inr (Or.inr h)
          twv := hinv.twv
          blue := hinv.blue }
      by_cases hbrk : (F.length : Int) = (g.nodes.length : Int) - 1
      · rw [if_pos hbrk]
        have hlen : F.length + 1 = g.nodes.keys.length := by
          rw [hkeylen]
          omega
        obtain ⟨htw, htree, hle⟩ := finish rest _ F tw hinv' (Or.inl hlen)
        exact ⟨htw, htree, hle⟩
      · rw [if_neg hbrk]
        exact ih _ F tw _ hinv'
    · rw [if_neg hc]
      have hnotLink : ¬ Linked F e.source e.target := by
        intro habs
        exact hc (hciff.mpr ((hinv.classes _ hsK _ htK).mpr habs))
      have heF : e ∉ F := by
        intro habs
        have hdisj := (List.nodup_append.mp hinv.Frnd).2.2
        exact hdisj habs (List.mem_cons_self e rest)
      have hFnc : ∀ gE ∈ F, ¬ crossesCut (fun x => Linked F e.source x) gE := by
        intro gE hgE hcr
        rcases hcr with ⟨h1, h2⟩ | ⟨h1, h2⟩
        · exact h2 (h1.trans (Linked.step hgE))
        · exact h2 (h1.trans (Linked.step hgE).symm)
      have hmin : ∀ f ∈ g.edges.values,
          crossesCut (fun x => Linked F e.source x) f → e.weight ≤ f.weight := by
        intro f hf hcr
        rcases hinv.acct f hf with h | h | h
        · rcases List.mem_cons.mp h with h | h
          · subst h
            exact le_refl _
          · exact (List.pairwise_cons.mp hinv.sorted).1 f h
        · exact absurd hcr (hFnc f h)
        · rcases hcr with ⟨h1, h2⟩ | ⟨h1, h2⟩
          · exact absurd (h1.trans h) h2
          · exact absurd (h1.trans h.symm) h2
      have hinv' : KruskalInv g rest
          ((uf.connected e.source e.target).2.union e.source e.target)
          (F ++ [e]) (tw + e.weight) :=
        { ufinv := (union_spec g.nodes.keys _ hinv1 e.source e.target hsK htK).1
          classes := classes_after_union g _ hinv1 F classes1 e heF hsK htK
          Fsub := by
            intro f hf
            rcases List.mem_append.mp hf with hf | hf
            · exact hinv.Fsub hf
            · rw [List.mem_singleton.mp hf]; exact heE
          rsub := fun f hf => hinv.rsub (List.mem_cons_of_mem e hf)
          Frnd := by
            rw [List.append_assoc]
            exact hinv.Frnd
          sorted := (List.pairwise_cons.mp hinv.sorted).2
          acct := by
            intro f hf
            rcases hinv.acct f hf with h | h | h
            · rcases List.mem_cons.mp h with h | h
              · subst h
                exact Or.inr (Or.inl
                  (List.mem_append_right _ (List.mem_singleton.mpr rfl)))
              · exact Or.inl h
            · exact Or.inr (Or.inl (List.mem_append_left _ h))
            · exact Or.inr (Or.inr
                (Linked.mono (fun z hz => List.mem_append_left _ hz) h))
          twv := by
            rw [hinv.twv, weightSum_append]
            simp [weightSum]
          blue := by
            intro T0 hT0
            obtain ⟨T', hT', hFT', hwle⟩ := hinv.blue T0 hT0
            obtain ⟨T'', hT'', hsubF, hmemE, hwle2⟩ :=
              blue_step g.edges.values g.nodes.keys F T'
                (fun x => Linked F e.source x) hT' hFT' hFnc e heE
                (Or.inl ⟨Linked.refl _ _, hnotLink⟩) hsK htK hmin
            refine ⟨T'', hT'', ?_, le_trans hwle2 hwle⟩
            intro x hx
            rcases List.mem_append.mp hx with hx | hx
            · exact hsubF hx
            · rw [List.mem_singleton.mp hx]; exact hmemE }
      by_cases hbrk : (((F ++ [e]).length : Int)) = (g.nodes.length : Int) - 1
      · rw [if_pos hbrk]
        have hlen : (F ++ [e]).length + 1 = g.nodes.keys.length := by
          rw [hkeylen]
          omega
        obtain ⟨htw, htree, hle⟩ := finish rest _ _ _ hinv' (Or.inl hlen)
        exact ⟨htw, htree, hle⟩
      · rw [if_neg hbrk]
        exact ih _ _ _ _ hinv'

/-- `kruskal` on a weighted well-formed connected graph returns a spanning
tree no heavier than any given spanning tree. -/
theorem kruskal_opt (g : Graph) (hw : g.isWeighted = true)
    (hWF : endpointsExist g) (hVnd : g.nodes.keys.Nodup)
    (hEnd : g.edges.values.Nodup)
    (hconn : ∀ u ∈ g.nodes.keys, ∀ v ∈ g.nodes.keys, Linked g.edges.values u v)
    (T : List Edge) (hT : SpTree g.edges.values g.nodes.keys T) :
    ∃ K : KruskalResult, GraphAlgorithms.kruskal g = .ok K ∧
      K.totalWeight = weightSum K.mstEdges ∧
      SpTree g.edges.values g.nodes.keys K.mstEdges ∧
      weightSum K.mstEdges ≤ weightSum T := by
  have hkruskal : GraphAlgorithms.kruskal g = .ok
      { mstEdges := (kruskalLoop (g.nodes.length : Int)
          (sortEdgesByWeight g.getEdges) (UnionFind.create g.nodes.keys)
          [] 0 []).1,
        totalWeight := (kruskalLoop (g.nodes.length : Int)
          (sortEdgesByWeight g.getEdges) (UnionFind.create g.nodes.keys)
          [] 0 []).2.1,
        steps := (kruskalLoop (g.nodes.length : Int)
          (sortEdgesByWeight g.getEdges) (UnionFind.create g.nodes.keys)
          [] 0 []).2.2,
        originalEdges := (sortEdgesByWeight g.getEdges).length } := by
    unfold GraphAlgorithms.kruskal
    rw [if_neg (fun h => h hw)]
  have hperm : (sortEdgesByWeight g.getEdges).Perm g.edges.values :=
    sortEdgesByWeight_perm _
  have hinv0 : KruskalInv g (sortEdgesByWeight g.getEdges)
      (UnionFind.create g.nodes.keys) [] 0 := by
    refine
      { ufinv := create_inv g.nodes.keys
        classes := ?_
        Fsub := List.nil_subset _
        rsub := fun f hf => hperm.subset hf
        Frnd := ?_
        sorted := sortEdgesByWeight_sorted _
        acct := fun f hf => Or.inl (hperm.symm.subset hf)
        twv := rfl
        blue := fun T0 hT0 => ⟨T0, hT0, List.nil_subset _, le_refl _⟩ }
    · intro x hx y hy
      have hfx : rootReach (UnionFind.create g.nodes.keys).parent
          (some x) (some x) := ⟨0, rfl, create_get_self g.nodes.keys x _ (Or.inl hx)⟩
      have hfy : rootReach (UnionFind.create g.nodes.keys).parent
          (some y) (some y) := ⟨0, rfl, create_get_self g.nodes.keys y _ (Or.inl hy)⟩
      constructor
      · rintro ⟨r, h1, h2⟩
        have e1 : r = some x := (rootReach_unique _ _ _ _ hfx h1).symm
        have e2 : r = some y := (rootReach_unique _ _ _ _ hfy h2).symm
        have : x = y := by
          have := e1.symm.trans e2
          exact Option.some.inj this
        exact this ▸ Linked.refl _ _
      · intro h
        have hxy : x = y := linked_nil h
        exact ⟨some x, hfx, hxy ▸ hfx⟩
    · show ([] ++ sortEdgesByWeight g.getEdges).Nodup
      rw [List.nil_append]
      exact (hperm.nodup_iff).mpr hEnd
  obtain ⟨htw, htree, hle⟩ := kruskalLoop_opt g hWF hVnd hconn T hT
    (sortEdgesByWeight g.getEdges) (UnionFind.create g.nodes.keys) [] 0 []
    hinv0
  exact ⟨_, hkruskal, htw, htree, hle⟩

/-- The stack loop of `isConnected`: pop, skip if visited, otherwise mark
visited and push the unvisited neighbours in order (array `push`/`pop` make
the stack top the head here, so the pushed neighbours land reversed).  The
fuel bound `dfsFuel` dominates the total number of pushes and is never
exhausted on the program's states. -/
def icLoop (g : Graph) : Nat → List String → List String → List String
  | 0, _, visited => visited
  | fuel + 1, stack, visited =>
    match stack with
    | [] => visited
    | nodeId :: rest =>
      if nodeId ∈ visited then icLoop g fuel rest visited
      else
        let visited1 := visited ++ [nodeId]
        let stack1 := (g.getNeighbors nodeId).foldl
          (fun acc nb => if nb ∈ visited1 then acc else nb :: acc) rest
        icLoop g fuel stack1 visited1

/-- `isConnected()`: at most one node is trivially connected; otherwise a
single-source traversal from the first inserted node must reach every
node. -/
def Graph.isConnected (g : Graph) : Bool :=
  if g.nodes.length ≤ 1 then true
  else (icLoop g (dfsFuel g) [g.nodes.keys.headI] []).length = g.nodes.length

/-- The directed weighted graph with nodes A, B and the single directed
edge A→B of weight 1, built through the public API. -/
def gDirW : Graph :=
  (Graph.addEdge
    (Graph.addNode
      (Graph.addNode (Graph.setGraphType Graph.empty true true)
        (some "A") "" 0 0 []).2
      (some "B") "" 0 0 []).2
    "A" "B" 1 "" none).2

/-- The undirected weighted graph with nodes A, B and the single edge A–B of
weight 2, built through the public API. -/
def gUW : Graph :=
  (Graph.addEdge
    (Graph.addNode
      (Graph.addNode (Graph.setGraphType Graph.empty false true)
        (some "A") "" 0 0 []).2
      (some "B") "" 0 0 []).2
    "A" "B" 2 "" none).2

/-- C7 (counterexample): the directed weighted graph A→B is connected by the
program's own `isConnected` check, yet `kruskal` (which ignores edge
direction through the shared union-find) reports total weight 1 while
`prim("B")` (which only follows outgoing edges via `getNeighbors`) finds no
boundary edge and reports total weight 0 — a difference of 1, not less than
0.001. -/
theorem kruskal_prim_diverge_cex :
    Graph.isConnected gDirW = true ∧ gDirW.isWeighted = true ∧
    ((GraphAlgorithms.kruskal gDirW).toOption.map KruskalResult.totalWeight
      = some 1) ∧
    ((GraphAlgorithms.prim gDirW (some "B")).toOption.map PrimResult.totalWeight
      = some 0) ∧
    ¬ |(1 : Rat) - 0| < 1 / 1000 := by
  have hk : (GraphAlgorithms.kruskal gDirW).toOption.map KruskalResult.totalWeight
      = some ((0 : Rat) + 1) := rfl
  refine ⟨by decide, by decide, ?_, rfl, by norm_num⟩
  rw [hk]
  norm_num

/-- C7 (amended): on an undirected connected weighted graph satisfying the
data-model invariants (stored edges join existing nodes, no parallel edges,
duplicate-free node keys and edge records, a valid start argument),
`kruskal().totalWeight` and `prim(start).totalWeight` are equal — both are
the weight of a minimum spanning tree — so in particular they differ by less
than 0.001. -/
theorem kruskal_prim_same_weight (g : Graph) (startArg : Option String)
    (hw : g.isWeighted = true) (hund : g.isDirected = false)
    (hWF : endpointsExist g) (hEnd : g.edges.values.Nodup)
    (hnd : noDupPairs g) (hVnd : g.nodes.keys.Nodup)
    (hstart : Graph.strTruthy startArg = true → startArg.getD "" ∈ g.nodes.keys)
    (hconn : ∀ u ∈ g.nodes.keys, ∀ v ∈ g.nodes.keys, Linked g.edges.values u v) :
    ∃ (K : KruskalResult) (P : PrimResult),
      GraphAlgorithms.kruskal g = .ok K ∧
      GraphAlgorithms.prim g startArg = .ok P ∧
      K.totalWeight = P.totalWeight ∧
      |K.totalWeight - P.totalWeight| < 1 / 1000 := by
  by_cases hn : g.nodes.length = 0
  · have hnodes : g.nodes = [] := List.length_eq_zero.mp hn
    have hE : g.edges.values = [] := by
      cases hEv : g.edges.values with
      | nil => rfl
      | cons e tl =>
        exfalso
        have := (hWF e (hEv ▸ List.mem_cons_self e tl)).1
        rw [hnodes] at this
        exact absurd this (by simp [JSMap.hasKey])
    have hget : sortEdgesByWeight g.getEdges = [] := by
      show sortEdgesByWeight g.edges.values = []
      rw [hE]
      rfl
    have hk : GraphAlgorithms.kruskal g = .ok
        { mstEdges := [], totalWeight := 0, steps := [], originalEdges := 0 } := by
      unfold GraphAlgorithms.kruskal
      rw [if_neg (fun h => h hw)]
      simp only [hget]
      rfl
    have hp : GraphAlgorithms.prim g startArg = .ok
        { startNode := none, mstEdges := [], totalWeight := 0,
          nodesReached := 0 } := by
      unfold GraphAlgorithms.prim
      rw [if_neg (fun h => h hw), if_pos hn]
    refine ⟨_, _, hk, hp, rfl, by norm_num⟩
  · obtain ⟨P, hpeq, hPtree, hPtw, hPmin⟩ :=
      prim_opt g startArg hw hund hWF hnd hVnd hn hconn hstart
    obtain ⟨K, hkeq, hKtw, hKtree, hKle⟩ :=
      kruskal_opt g hw hWF hVnd hEnd hconn P.mstEdges hPtree
    have hPle : weightSum P.mstEdges ≤ weightSum K.mstEdges :=
      hPmin K.mstEdges hKtree
    have heq : K.totalWeight = P.totalWeight := by
      rw [hKtw, hPtw]
      exact le_antisymm hKle hPle
    refine ⟨K, P, hkeq, hpeq, heq, ?_⟩
    rw [heq]
    simp only [sub_self, abs_zero]
    norm_num

theorem kruskal_prim_same_weight_witness :
    ∃ (K : KruskalResult) (P : PrimResult),
      GraphAlgorithms.kruskal gUW = .ok K ∧
      GraphAlgorithms.prim gUW (some "B") = .ok P ∧
      K.totalWeight = P.totalWeight ∧
      |K.totalWeight - P.totalWeight| < 1 / 1000 :=
  kruskal_prim_same_weight gUW (some "B") (by decide) (by decide)
    (by unfold endpointsExist; decide) (by decide)
    (by unfold noDupPairs; decide) (by decide) (by decide)
    (by
      have hkeys : gUW.nodes.keys = ["A", "B"] := rfl
      have hmem : ∃ e ∈ gUW.edges.values, e.source = "A" ∧ e.target = "B" := by
        decide
      obtain ⟨e, heE, hs, ht⟩ := hmem
      have hab : Linked gUW.edges.values "A" "B" :=
        Relation.ReflTransGen.single ⟨e, heE, Or.inl ⟨hs, ht⟩⟩
      intro u hu v hv
      rw [hkeys] at hu hv
      simp only [List.mem_cons, List.mem_singleton, List.not_mem_nil,
        or_false] at hu hv
      rcases hu with hu | hu <;> rcases hv with hv | hv <;> subst hu <;> subst hv
      · exact Linked.refl _ _
      · exact hab
      · exact hab.symm
      · exact Linked.refl _ _)
